import Mathlib

/-!
# fraktal: the event-sourced virtual filesystem (package `vfs`)

A shallow embedding of `src/vfs/vfs.go`, `src/vfs/utils.go`, `src/vfs/ops.go` and
`src/vfs/events.go`, and of the completer `FSCompleter.Do` of `src/cli/cli.go`, followed by
theorems about it.

## Modelling conventions

* Go pointers `*FSNode` are addresses (`Nat`) into a heap `List FSNode`; a nil pointer is
  `none`.  Allocation (`&FSNode{...}`) appends to the heap, so the fresh address is the old
  heap length.  Nodes are never freed: a node detached from its parent stays in the heap, as
  it does in Go while something (for instance `Cwd`) still points to it.  Pointer equality
  (`node == vfs.Root`) is equality of addresses.
* Go strings are byte strings; the model uses `String`.  The only byte the code inspects is
  the separator "/", which never occurs inside a longer UTF-8 sequence, so on UTF-8 text the
  helpers below split, trim and join exactly as the Go functions do.
* A Go `map[string]*FSNode` is an association list with the map operations `mapLookup`,
  `mapInsert`, `mapDelete`.  Go's iteration order is unspecified; the list order is one of the
  possible orders.  The nil map of a file node and an empty map are both the empty list: the
  code only reads the map of a file node, which Go allows on a nil map.
* `time.Time` fields (`Created`, `Modified`, `Timestamp`) are written but never read by the
  code; they are left out.
* The Redis client of `EventLog` is left out: `Append` always performs the in-memory append
  first, and every caller in `ops.go` discards the error `Append` returns.
* A Go method that mutates `*VirtualFS` and returns `error` becomes a function returning the
  state after the call together with `Option FSError` (`none` is Go's `nil` error).
* A Go method that only reads the filesystem (`resolvePath`, `traverseToParent`,
  `PrintWorkingDir`, `AbsolutePath`, `ReadFile`, `ListDir`, `FSCompleter.Do`) contains no
  assignment to a field of `VirtualFS` or of a node; it becomes a function of the state with
  no output state, so the state after such a call is the state before it.
* A `[]rune` is a `List Char`, and `string(line)` is `String.mk line`.  `strings.HasPrefix`
  and the slice `name[len(pre):]` work on bytes; on UTF-8 text a string is a byte prefix of
  another exactly when it is a prefix of it character by character, and the slice then drops
  exactly the characters of that prefix.
* The only loop without an a-priori bound is the parent walk of `PrintWorkingDir`; it is run
  with fuel `heap.length`, which every acyclic parent chain fits in.  An operation returns
  `Option`: the outer `none` means that the Go call does not return, either because that walk
  does not terminate (a cyclic parent chain) or because of a nil-pointer panic.
-/

namespace Fraktal

deriving instance DecidableEq for Except

/-! ## Go `strings` helpers, specialised to the separator "/" -/

/-- Go `strings.HasPrefix(s, "/")`. -/
def startsWithSlash (s : String) : Bool :=
  match s.data with
  | [] => false
  | c :: _ => c == '/'

/-- Go `strings.TrimPrefix(s, "/")`. -/
def trimLeadingSlash (s : String) : String :=
  match s.data with
  | [] => s
  | c :: cs => if c = '/' then String.mk cs else s

/-- Go `strings.TrimSuffix(s, "/")`. -/
def trimTrailingSlash (s : String) : String :=
  if s.data.getLast? = some '/' then String.mk s.data.dropLast else s

/-- Go `strings.Split(s, "/")` on the characters of `s`: always at least one piece. -/
def splitSlash : List Char → List (List Char)
  | [] => [[]]
  | c :: cs =>
    if c = '/' then [] :: splitSlash cs
    else
      match splitSlash cs with
      | [] => [[c]]
      | p :: ps => (c :: p) :: ps

/-- Go `strings.Split(s, "/")`. -/
def Split (s : String) : List String :=
  (splitSlash s.data).map String.mk

/-- Go `strings.Join(parts, "/")`. -/
def Join : List String → String
  | [] => ""
  | [a] => a
  | a :: b :: rest => a ++ "/" ++ Join (b :: rest)

/-! ## Data model (`vfs.go`, `events.go`) -/

/-- Go `map[string]*FSNode`. -/
abbrev ChildMap := List (String × Nat)

/-- Go `m[k]` with the comma-ok form: the value stored under `k`, if any. -/
def mapLookup : ChildMap → String → Option Nat
  | [], _ => none
  | (k, v) :: rest, key => if k = key then some v else mapLookup rest key

/-- Go `delete(m, k)`. -/
def mapDelete (m : ChildMap) (key : String) : ChildMap :=
  m.filter (fun kv => decide (kv.1 ≠ key))

/-- Go `m[k] = v`. -/
def mapInsert (m : ChildMap) (key : String) (v : Nat) : ChildMap :=
  mapDelete m key ++ [(key, v)]

/-- File or directory in the virtual filesystem (`type FSNode struct`). -/
structure FSNode where
  Name : String
  IsDir : Bool
  Content : String
  Children : ChildMap
  Parent : Option Nat
  deriving DecidableEq, Repr

instance : Inhabited FSNode := ⟨⟨"", false, "", [], none⟩⟩

/-- Go `type FileSystemEventType int`. -/
abbrev FileSystemEventType := Int

def EventCreateFile : FileSystemEventType := 0

def EventCreateDir : FileSystemEventType := 1

def EventWriteFile : FileSystemEventType := 2

def EventDelete : FileSystemEventType := 3

/-- Go `type FileSystemEvent struct` (without the timestamp). -/
structure FileSystemEvent where
  EventType : FileSystemEventType
  Path : String
  Content : String
  deriving DecidableEq, Repr

/-- Go `type EventLog struct`: the in-memory `events` slice. -/
abbrev EventLog := List FileSystemEvent

/-- The errors built with `fmt.Errorf` / `errors.New` in the package, one constructor per
format string, carrying the formatted argument. -/
inductive FSError where
  /-- "path not found: %s" (`resolvePath`). -/
  | pathNotFound (part : String)
  /-- "invalid path" (`traverseToParent`). -/
  | invalidPath
  /-- "not a directory: %s" (`traverseToParent`, `ListDir`, `ChangeDir`). -/
  | notADirectory (path : String)
  /-- "directory or file already exists: %s" (`Mkdir`). -/
  | dirOrFileExists (name : String)
  /-- "file or directory already exists: %s" (`CreateFile`). -/
  | fileOrDirExists (name : String)
  /-- "cannot read directory: %s" (`ReadFile`). -/
  | cannotReadDirectory (path : String)
  /-- "cannot write to directory: %s" (`WriteFile`). -/
  | cannotWriteDirectory (path : String)
  /-- "cannot remove root directory" (`Remove`). -/
  | cannotRemoveRoot
  /-- "directory not empty: %s" (`Remove`). -/
  | directoryNotEmpty (path : String)
  /-- "unkown event type: %v" (`Replay`). -/
  | unknownEventType (t : FileSystemEventType)
  deriving DecidableEq, Repr

/-- Go `type VirtualFS struct`, together with the heap its pointers point into. -/
structure VirtualFS where
  heap : List FSNode
  Root : Nat
  Cwd : Nat
  EventLog : EventLog
  IsRestoring : Bool
  deriving DecidableEq, Repr

/-- Dereference `*p`. -/
def VirtualFS.node (vfs : VirtualFS) (p : Nat) : FSNode :=
  (vfs.heap[p]?).getD default

/-- Store `*p = n`. -/
def VirtualFS.setNode (vfs : VirtualFS) (p : Nat) (n : FSNode) : VirtualFS :=
  { vfs with heap := vfs.heap.set p n }

/-- Allocate `&n`: the new heap and the fresh address. -/
def VirtualFS.alloc (vfs : VirtualFS) (n : FSNode) : VirtualFS × Nat :=
  ({ vfs with heap := vfs.heap ++ [n] }, vfs.heap.length)

/-- `EventLog.Append`: the in-memory append. -/
def Append (log : EventLog) (event : FileSystemEvent) : EventLog :=
  log ++ [event]

/-- The recording block `if !vfs.IsRestoring { vfs.EventLog.Append(event) }`. -/
def VirtualFS.record (vfs : VirtualFS) (event : FileSystemEvent) : VirtualFS :=
  if !vfs.IsRestoring then { vfs with EventLog := Append vfs.EventLog event } else vfs

/-- `NewVirtualFS(nil)`: a root directory, `Cwd = Root`, an empty log. -/
def NewVirtualFS : VirtualFS :=
  { heap := [⟨"", true, "", [], none⟩], Root := 0, Cwd := 0, EventLog := [],
    IsRestoring := false }

/-! ## Path resolution (`vfs.go`, `utils.go`) -/

/-- The loop of `PrintWorkingDir`: `for node != nil && node != vfs.Root`. -/
def pwdLoop (vfs : VirtualFS) : Nat → Option Nat → List String → Option (List String)
  | _, none, parts => some parts
  | fuel, some n, parts =>
    if n = vfs.Root then some parts
    else
      match fuel with
      | 0 => none
      | f + 1 => pwdLoop vfs f (vfs.node n).Parent ((vfs.node n).Name :: parts)

/-- `PrintWorkingDir`: the absolute path of the current working directory. -/
def PrintWorkingDir (vfs : VirtualFS) : Option String :=
  match pwdLoop vfs vfs.heap.length (some vfs.Cwd) [] with
  | none => none
  | some parts => some ("/" ++ Join parts)

/-- `AbsolutePath`. -/
def AbsolutePath (vfs : VirtualFS) (path : String) : Option (Except FSError String) :=
  if startsWithSlash path then some (.ok path)
  else
    match PrintWorkingDir vfs with
    | none => none
    | some cwd => if cwd = "/" then some (.ok ("/" ++ path)) else some (.ok (cwd ++ "/" ++ path))

/-- One iteration of the loop of `resolvePath`. -/
def resolveStep (vfs : VirtualFS) (node : Nat) (part : String) : Except FSError Nat :=
  if part = "" ∨ part = "." then .ok node
  else if part = ".." then
    match (vfs.node node).Parent with
    | some p => .ok p
    | none => .ok node
  else
    match mapLookup (vfs.node node).Children part with
    | none => .error (.pathNotFound part)
    | some child => .ok child

/-- The loop `for _, part := range parts` of `resolvePath`. -/
def resolveLoop (vfs : VirtualFS) : Nat → List String → Except FSError Nat
  | node, [] => .ok node
  | node, part :: rest =>
    match resolveStep vfs node part with
    | .error e => .error e
    | .ok next => resolveLoop vfs next rest

/-- `resolvePath`: resolves an absolute or relative path to a node. -/
def resolvePath (vfs : VirtualFS) (path : String) : Except FSError Nat :=
  if path = "" then .ok vfs.Cwd
  else
    let node := if startsWithSlash path then vfs.Root else vfs.Cwd
    let path := if startsWithSlash path then trimLeadingSlash path else path
    if path = "" then .ok node
    else resolveLoop vfs node (Split path)

/-- `traverseToParent`: the parent directory and the final element name. -/
def traverseToParent (vfs : VirtualFS) (path : String) : Except FSError (Nat × String) :=
  let path := trimTrailingSlash path
  let parts := Split path
  if parts.length = 0 then .error .invalidPath
  else
    let name := parts.getLastD ""
    let parentPath := Join parts.dropLast
    match resolvePath vfs parentPath with
    | .error e => .error e
    | .ok parent =>
      if !(vfs.node parent).IsDir then .error (.notADirectory parentPath)
      else .ok (parent, name)

/-! ## Operations (`ops.go`) -/

/-- The common body of `Mkdir` and `CreateFile` after the collision check: allocate the new
node, `parent.Children[name] = new`, record the event. -/
def VirtualFS.link (vfs : VirtualFS) (parent : Nat) (name : String) (isDir : Bool)
    (event : FileSystemEvent) : VirtualFS :=
  let (vfs1, fresh) := vfs.alloc ⟨name, isDir, "", [], some parent⟩
  let p := vfs1.node parent
  let vfs2 := vfs1.setNode parent { p with Children := mapInsert p.Children name fresh }
  vfs2.record event

/-- `Mkdir`: creates a new directory at the specified path. -/
def Mkdir (vfs : VirtualFS) (path : String) : Option (VirtualFS × Option FSError) :=
  match AbsolutePath vfs path with
  | none => none
  | some (.error err) => some (vfs, some err)
  | some (.ok absPath) =>
    match traverseToParent vfs absPath with
    | .error err => some (vfs, some err)
    | .ok (parent, name) =>
      if (mapLookup (vfs.node parent).Children name).isSome then
        some (vfs, some (.dirOrFileExists name))
      else
        some (vfs.link parent name true ⟨EventCreateDir, absPath, ""⟩, none)

/-- `CreateFile`: creates an empty file at the specified path. -/
def CreateFile (vfs : VirtualFS) (path : String) : Option (VirtualFS × Option FSError) :=
  match AbsolutePath vfs path with
  | none => none
  | some (.error err) => some (vfs, some err)
  | some (.ok absPath) =>
    match traverseToParent vfs absPath with
    | .error err => some (vfs, some err)
    | .ok (parent, name) =>
      if (mapLookup (vfs.node parent).Children name).isSome then
        some (vfs, some (.fileOrDirExists name))
      else
        some (vfs.link parent name false ⟨EventCreateFile, absPath, ""⟩, none)

/-- `ReadFile`: the content of the file at the given path. -/
def ReadFile (vfs : VirtualFS) (path : String) : Except FSError String :=
  match resolvePath vfs path with
  | .error err => .error err
  | .ok node =>
    if (vfs.node node).IsDir then .error (.cannotReadDirectory path)
    else .ok (vfs.node node).Content

/-- The tail of `WriteFile` once `node` is known: the directory check, the write and the
event. -/
def writeNode (vfs : VirtualFS) (path absPath content : String) (node : Nat) :
    VirtualFS × Option FSError :=
  if (vfs.node node).IsDir then (vfs, some (.cannotWriteDirectory path))
  else
    let n := vfs.node node
    let vfs1 := vfs.setNode node { n with Content := content }
    (vfs1.record ⟨EventWriteFile, absPath, content⟩, none)

/-- `WriteFile`: writes content to the file at the given path, creating it if it does not
exist. -/
def WriteFile (vfs : VirtualFS) (path content : String) : Option (VirtualFS × Option FSError) :=
  match AbsolutePath vfs path with
  | none => none
  | some (.error err) => some (vfs, some err)
  | some (.ok absPath) =>
    match resolvePath vfs absPath with
    | .ok node => some (writeNode vfs path absPath content node)
    | .error _ =>
      match CreateFile vfs absPath with
      | none => none
      | some (vfs1, some err) => some (vfs1, some err)
      | some (vfs1, none) =>
        match resolvePath vfs1 absPath with
        | .error err => some (vfs1, some err)
        | .ok node => some (writeNode vfs1 path absPath content node)

/-- `Remove`: deletes a file or an empty directory at the given path.  The outer `none` is the
nil-pointer panic of `parent.Children` when the node has no parent. -/
def Remove (vfs : VirtualFS) (path : String) : Option (VirtualFS × Option FSError) :=
  match resolvePath vfs path with
  | .error err => some (vfs, some err)
  | .ok node =>
    if node = vfs.Root then some (vfs, some .cannotRemoveRoot)
    else if (vfs.node node).IsDir ∧ (vfs.node node).Children.length > 0 then
      some (vfs, some (.directoryNotEmpty path))
    else
      match (vfs.node node).Parent with
      | none => none
      | some parent =>
        let p := vfs.node parent
        let vfs1 := vfs.setNode parent
          { p with Children := mapDelete p.Children (vfs.node node).Name }
        some (vfs1.record ⟨EventDelete, path, ""⟩, none)

/-- `ListDir`: the children of the directory at the given path. -/
def ListDir (vfs : VirtualFS) (path : String) : Except FSError (List Nat) :=
  match resolvePath vfs path with
  | .error err => .error err
  | .ok node =>
    if !(vfs.node node).IsDir then .error (.notADirectory path)
    else .ok ((vfs.node node).Children.map Prod.snd)

/-- `ChangeDir`: changes the current working directory. -/
def ChangeDir (vfs : VirtualFS) (path : String) : VirtualFS × Option FSError :=
  match resolvePath vfs path with
  | .error err => (vfs, some err)
  | .ok node =>
    if !(vfs.node node).IsDir then (vfs, some (.notADirectory path))
    else ({ vfs with Cwd := node }, none)

/-! ## Replay (`events.go`) -/

/-- The `switch event.EventType` of `Replay`. -/
def replayEvent (vfs : VirtualFS) (event : FileSystemEvent) :
    Option (VirtualFS × Option FSError) :=
  if event.EventType = EventCreateFile then CreateFile vfs event.Path
  else if event.EventType = EventCreateDir then Mkdir vfs event.Path
  else if event.EventType = EventWriteFile then WriteFile vfs event.Path event.Content
  else if event.EventType = EventDelete then Remove vfs event.Path
  else some (vfs, some (.unknownEventType event.EventType))

/-- `EventLog.Replay`: applies the events in order, stopping at the first error. -/
def Replay : EventLog → VirtualFS → Option (VirtualFS × Option FSError)
  | [], vfs => some (vfs, none)
  | event :: rest, vfs =>
    match replayEvent vfs event with
    | none => none
    | some (vfs1, some err) => some (vfs1, some err)
    | some (vfs1, none) => Replay rest vfs1

/-! ## The command-line completer (`cli.go`) -/

/-- Go `unicode.IsSpace`: the white space of Latin-1 ('\t', '\n', '\v', '\f', '\r', ' ',
U+0085, U+00A0) and the characters with the Unicode property White_Space above it. -/
def isSpace (r : Char) : Bool :=
  let n := r.toNat
  (9 ≤ n && n ≤ 13) || n == 32 || n == 0x85 || n == 0xA0 || n == 0x1680 ||
    (0x2000 ≤ n && n ≤ 0x200a) || n == 0x2028 || n == 0x2029 || n == 0x202f ||
    n == 0x205f || n == 0x3000

/-- The scan of `strings.Fields`; `cur` holds the characters of the field being read, last
character first. -/
def fieldsLoop : List Char → List Char → List String
  | [], cur => if cur = [] then [] else [String.mk cur.reverse]
  | c :: cs, cur =>
    if isSpace c then
      if cur = [] then fieldsLoop cs [] else String.mk cur.reverse :: fieldsLoop cs []
    else fieldsLoop cs (c :: cur)

/-- Go `strings.Fields(s)`: the maximal runs of characters that are not white space. -/
def Fields (s : String) : List String :=
  fieldsLoop s.data []

/-- Go `strings.HasPrefix(s, pre)`. -/
def HasPrefix (s pre : String) : Bool :=
  pre.data.isPrefixOf s.data

/-- The keys of `var commands = map[string]bool{...}`. -/
def commands : List String :=
  ["cd", "ls", "cat", "touch", "rm", "mkdir", "write", "help", "exit", "pwd", "exec"]

/-- The loop both branches of `Do` run over a collection of names:
`if strings.HasPrefix(name, pre) { suggestions = append(suggestions, []rune(name[len(pre):])) }`.
The slice `name[len(pre):]` is taken only when `pre` is a prefix of `name`, where cutting
`len(pre)` bytes removes exactly the characters of `pre`. -/
def suggestLoop (pre : String) : List String → List (List Char) → List (List Char)
  | [], suggestions => suggestions
  | name :: rest, suggestions =>
    if HasPrefix name pre then
      suggestLoop pre rest (suggestions ++ [name.data.drop pre.data.length])
    else suggestLoop pre rest suggestions

/-- Go `type FSCompleter struct`. -/
structure FSCompleter where
  vfs : VirtualFS

/-- `FSCompleter.Do`: the autocompleter for commands and for the files and directories of the
working directory.  A `[]rune` is a list of characters, and the `nil` slice is the empty
list. -/
def FSCompleter.Do (c : FSCompleter) (line : List Char) (pos : Int) : List (List Char) × Int :=
  let input := String.mk line
  let tokens := Fields input
  if tokens.length = 0 then ([], 0)
  else if tokens.length = 1 then
    (suggestLoop (tokens.headD "") commands [], pos)
  else
    match ListDir c.vfs "." with
    | .error _ => ([], 0)
    | .ok items =>
      (suggestLoop (tokens.getLastD "") (items.map (fun item => (c.vfs.node item).Name)) [],
        pos)

/-! ## Specification vocabulary -/

/-- The parent path `traverseToParent` resolves for `path`. -/
def parentPathOf (path : String) : String :=
  Join (Split (trimTrailingSlash path)).dropLast

/-- The final element name `traverseToParent` returns for `path`. -/
def baseNameOf (path : String) : String :=
  (Split (trimTrailingSlash path)).getLastD ""

/-- A segment that `resolvePath` looks up among the children: not empty, not "." or "..",
and without a separator. -/
def ProperName (k : String) : Prop :=
  k ≠ "" ∧ k ≠ "." ∧ k ≠ ".." ∧ '/' ∉ k.data

instance (k : String) : Decidable (ProperName k) := by
  unfold ProperName; infer_instance

/-- `Chain vfs n names`: walking the `Parent` pointers from `n` reaches `Root`, and `names` are
the names met on the way, listed from the root side. -/
inductive Chain (vfs : VirtualFS) : Nat → List String → Prop where
  | root : Chain vfs vfs.Root []
  | step {n p : Nat} {names : List String} :
      n ≠ vfs.Root → (vfs.node n).Parent = some p → Chain vfs p names →
      Chain vfs n (names ++ [(vfs.node n).Name])

/-- `Located vfs names n`: following `names` from `Root` through the `Children` maps reaches
`n`. -/
inductive Located (vfs : VirtualFS) : List String → Nat → Prop where
  | root : Located vfs [] vfs.Root
  | child {p c : Nat} {k : String} {names : List String} :
      Located vfs names p → mapLookup (vfs.node p).Children k = some c →
      Located vfs (names ++ [k]) c

/-- The node `n` is in the tree: reachable from `Root` by following children links. -/
def InTree (vfs : VirtualFS) (n : Nat) : Prop :=
  ∃ names, Located vfs names n

/-- Structural well-formedness of the heap: what the constructors of `ops.go` establish for
every node they allocate and link. -/
structure WellFormed (vfs : VirtualFS) : Prop where
  root_lt : vfs.Root < vfs.heap.length
  cwd_lt : vfs.Cwd < vfs.heap.length
  root_parent : (vfs.node vfs.Root).Parent = none
  parent_lt : ∀ i p, i < vfs.heap.length → (vfs.node i).Parent = some p → p < i
  parent_some : ∀ i, i < vfs.heap.length → i ≠ vfs.Root → (vfs.node i).Parent ≠ none
  child_ok : ∀ i k c, i < vfs.heap.length → (k, c) ∈ (vfs.node i).Children →
    c < vfs.heap.length ∧ (vfs.node c).Name = k ∧ (vfs.node c).Parent = some i
  keys_nodup : ∀ i, i < vfs.heap.length → ((vfs.node i).Children.map Prod.fst).Nodup
  file_leaf : ∀ i, i < vfs.heap.length → (vfs.node i).IsDir = false →
    (vfs.node i).Children = []

/-- All names on the parent chain of `n` are proper names. -/
def GoodNode (vfs : VirtualFS) (n : Nat) : Prop :=
  ∃ names, Chain vfs n names ∧ ∀ k ∈ names, ProperName k

/-- The states reachable from a fresh filesystem through the public operations; the
`IsRestoring` flag is the one `NewVirtualFS` toggles around its start-up replay. -/
inductive Reachable : VirtualFS → Prop where
  | fresh : Reachable NewVirtualFS
  | mkdir {s s1 : VirtualFS} {p : String} {e : Option FSError} :
      Reachable s → Mkdir s p = some (s1, e) → Reachable s1
  | createFile {s s1 : VirtualFS} {p : String} {e : Option FSError} :
      Reachable s → CreateFile s p = some (s1, e) → Reachable s1
  | writeFile {s s1 : VirtualFS} {p c : String} {e : Option FSError} :
      Reachable s → WriteFile s p c = some (s1, e) → Reachable s1
  | remove {s s1 : VirtualFS} {p : String} {e : Option FSError} :
      Reachable s → Remove s p = some (s1, e) → Reachable s1
  | changeDir {s : VirtualFS} (p : String) :
      Reachable s → Reachable (ChangeDir s p).1
  | replay {s s1 : VirtualFS} {log : EventLog} {e : Option FSError} :
      Reachable s → Replay log s = some (s1, e) → Reachable s1
  | restoring {s : VirtualFS} (b : Bool) :
      Reachable s → Reachable { s with IsRestoring := b }

/-- The invariant of the reachable states: the heap is well formed, the working directory
is a directory, and the names on its parent chain are proper names. -/
structure Inv (vfs : VirtualFS) : Prop where
  wf : WellFormed vfs
  cwd_dir : (vfs.node vfs.Cwd).IsDir = true
  cwd_good : GoodNode vfs vfs.Cwd

/-- The frame every operation respects: `t` has the same `Root` as `s`, every node of `s` is
still allocated in `t`, and it has kept its `Name`, `Parent` and `IsDir`. -/
def Extends (s t : VirtualFS) : Prop :=
  t.Root = s.Root ∧ s.heap.length ≤ t.heap.length ∧
  ∀ i, i < s.heap.length →
    (t.node i).Name = (s.node i).Name ∧ (t.node i).Parent = (s.node i).Parent ∧
    (t.node i).IsDir = (s.node i).IsDir

/-- Every binding of a `Children` map of `s` is still there in `t`. -/
def KeepsChildren (s t : VirtualFS) : Prop :=
  ∀ i k c, i < s.heap.length → mapLookup (s.node i).Children k = some c →
    mapLookup (t.node i).Children k = some c

/-- The state `vfs` with `IsRestoring` set and the event log replaced by `log`. -/
def VirtualFS.restoring (vfs : VirtualFS) (log : List FileSystemEvent) : VirtualFS :=
  { vfs with EventLog := log, IsRestoring := true }

/-- The node the loop of `resolvePath` starts from: the root for an absolute path, the
working directory otherwise. -/
def walkStart (vfs : VirtualFS) (path : String) : Nat :=
  if startsWithSlash path then vfs.Root else vfs.Cwd

/-- The segments the loop of `resolvePath` walks: none for the empty path and for "/",
otherwise the pieces of the path, without its leading "/", between the separators. -/
def walkParts (path : String) : List String :=
  if path = "" then []
  else
    let path := if startsWithSlash path then trimLeadingSlash path else path
    if path = "" then [] else Split path

/-- Whether the walk over `parts` from `node` looks up the name of `n` in the children map
of the parent of `n`: it reaches the parent of `n` in front of a segment, other than "",
"." and "..", that is the name of `n`. -/
def looksUpLoop (vfs : VirtualFS) (n : Nat) : Nat → List String → Bool
  | _, [] => false
  | node, part :: rest =>
    if part ≠ "" ∧ part ≠ "." ∧ part ≠ ".." ∧ (vfs.node n).Parent = some node ∧
        part = (vfs.node n).Name then true
    else
      match resolveStep vfs node part with
      | .error _ => false
      | .ok next => looksUpLoop vfs n next rest

/-- Whether `resolvePath(path)` looks up the name of `n` in the children map of the parent of
`n`. -/
def looksUp (vfs : VirtualFS) (path : String) (n : Nat) : Bool :=
  looksUpLoop vfs n (walkStart vfs path) (walkParts path)

/-! ## Call sequences and the example states -/

/-- A call of one of the public mutating operations. -/
inductive Call where
  | mkdir (path : String)
  | createFile (path : String)
  | writeFile (path content : String)
  | remove (path : String)
  | changeDir (path : String)
  deriving DecidableEq, Repr

/-- Perform one call. -/
def Call.run (c : Call) (vfs : VirtualFS) : Option (VirtualFS × Option FSError) :=
  match c with
  | .mkdir path => Mkdir vfs path
  | .createFile path => CreateFile vfs path
  | .writeFile path content => WriteFile vfs path content
  | .remove path => Remove vfs path
  | .changeDir path => some (ChangeDir vfs path)

/-- Perform the calls in order, whatever they return: the final state and the list of the
returned errors. -/
def runCalls : List Call → VirtualFS → Option (VirtualFS × List (Option FSError))
  | [], vfs => some (vfs, [])
  | c :: rest, vfs =>
    match c.run vfs with
    | none => none
    | some (vfs1, e) =>
      match runCalls rest vfs1 with
      | none => none
      | some (vfs2, es) => some (vfs2, e :: es)

/-- The tree `/foo` with the working directory at the root. -/
def withFoo : VirtualFS :=
  { heap := [⟨"", true, "", [("foo", 1)], none⟩, ⟨"foo", true, "", [], some 0⟩],
    Root := 0, Cwd := 0, EventLog := [⟨EventCreateDir, "/foo", ""⟩], IsRestoring := false }

/-- The tree `/foo` with the working directory in `/foo`. -/
def inFoo : VirtualFS :=
  { heap := [⟨"", true, "", [("foo", 1)], none⟩, ⟨"foo", true, "", [], some 0⟩],
    Root := 0, Cwd := 1, EventLog := [⟨EventCreateDir, "/foo", ""⟩], IsRestoring := false }

/-- The state `inFoo` after `CreateFile("bar.txt")` and `Remove("bar.txt")`: node 2 is the
removed file. -/
def inFooRemoved : VirtualFS :=
  { heap := [⟨"", true, "", [("foo", 1)], none⟩, ⟨"foo", true, "", [], some 0⟩,
      ⟨"bar.txt", false, "", [], some 1⟩],
    Root := 0, Cwd := 1,
    EventLog := [⟨EventCreateDir, "/foo", ""⟩, ⟨EventCreateFile, "/foo/bar.txt", ""⟩,
      ⟨EventDelete, "bar.txt", ""⟩],
    IsRestoring := false }

/-- What replaying the log of `inFooRemoved` leaves behind in a fresh filesystem. -/
def replayedFoo : VirtualFS :=
  { heap := [⟨"", true, "", [("foo", 1)], none⟩, ⟨"foo", true, "", [("bar.txt", 2)], some 0⟩,
      ⟨"bar.txt", false, "", [], some 1⟩],
    Root := 0, Cwd := 0,
    EventLog := [⟨EventCreateDir, "/foo", ""⟩, ⟨EventCreateFile, "/foo/bar.txt", ""⟩],
    IsRestoring := false }

/-- The state `inFoo` after `CreateFile("/bar.txt")`: the file is node 2, a child of
`/foo`. -/
def inFooSlashBar : VirtualFS :=
  { heap := [⟨"", true, "", [("foo", 1)], none⟩, ⟨"foo", true, "", [("bar.txt", 2)], some 0⟩,
      ⟨"bar.txt", false, "", [], some 1⟩],
    Root := 0, Cwd := 1,
    EventLog := [⟨EventCreateDir, "/foo", ""⟩, ⟨EventCreateFile, "/bar.txt", ""⟩],
    IsRestoring := false }

/-- The working directory `/a` (node 1) has been removed: it is no longer a child of the
root. -/
def cwdRemoved : VirtualFS :=
  { heap := [⟨"", true, "", [], none⟩, ⟨"a", true, "", [], some 0⟩],
    Root := 0, Cwd := 1,
    EventLog := [⟨EventCreateDir, "/a", ""⟩, ⟨EventDelete, "/a", ""⟩],
    IsRestoring := false }

/-- The working directory is the removed `/a/b` (node 2); a second `/a/b` (node 3) has been
created since and holds the directory `c` (node 4). -/
def staleCwd : VirtualFS :=
  { heap := [⟨"", true, "", [("a", 1)], none⟩, ⟨"a", true, "", [("b", 3)], some 0⟩,
      ⟨"b", true, "", [], some 1⟩, ⟨"b", true, "", [("c", 4)], some 1⟩,
      ⟨"c", true, "", [], some 3⟩],
    Root := 0, Cwd := 2,
    EventLog := [⟨EventCreateDir, "/a", ""⟩, ⟨EventCreateDir, "/a/b", ""⟩,
      ⟨EventDelete, "/a/b", ""⟩, ⟨EventCreateDir, "/a/b", ""⟩,
      ⟨EventCreateDir, "/a/b/c", ""⟩],
    IsRestoring := false }

/-- The state `staleCwd` after `Remove(".")`. -/
def staleCwdRemoved : VirtualFS :=
  { heap := [⟨"", true, "", [("a", 1)], none⟩, ⟨"a", true, "", [], some 0⟩,
      ⟨"b", true, "", [], some 1⟩, ⟨"b", true, "", [("c", 4)], some 1⟩,
      ⟨"c", true, "", [], some 3⟩],
    Root := 0, Cwd := 2,
    EventLog := [⟨EventCreateDir, "/a", ""⟩, ⟨EventCreateDir, "/a/b", ""⟩,
      ⟨EventDelete, "/a/b", ""⟩, ⟨EventCreateDir, "/a/b", ""⟩,
      ⟨EventCreateDir, "/a/b/c", ""⟩, ⟨EventDelete, ".", ""⟩],
    IsRestoring := false }

/-- A fresh filesystem after `Mkdir(".")`: the root has a child named "." (node 1). -/
def withDot : VirtualFS :=
  { heap := [⟨"", true, "", [(".", 1)], none⟩, ⟨".", true, "", [], some 0⟩],
    Root := 0, Cwd := 0, EventLog := [⟨EventCreateDir, "/.", ""⟩], IsRestoring := false }

/-- The state `inFoo` after `Mkdir("/x")`: the new directory is node 2, a child of `/foo`. -/
def inFooSlashX : VirtualFS :=
  { heap := [⟨"", true, "", [("foo", 1)], none⟩, ⟨"foo", true, "", [("x", 2)], some 0⟩,
      ⟨"x", true, "", [], some 1⟩],
    Root := 0, Cwd := 1,
    EventLog := [⟨EventCreateDir, "/foo", ""⟩, ⟨EventCreateDir, "/x", ""⟩],
    IsRestoring := false }

/-- The state `inFoo` after `Mkdir("bar")`. -/
def inFooBar : VirtualFS :=
  { heap := [⟨"", true, "", [("foo", 1)], none⟩, ⟨"foo", true, "", [("bar", 2)], some 0⟩,
      ⟨"bar", true, "", [], some 1⟩],
    Root := 0, Cwd := 1,
    EventLog := [⟨EventCreateDir, "/foo", ""⟩, ⟨EventCreateDir, "/foo/bar", ""⟩],
    IsRestoring := false }

/-- The state `staleCwd` after `Mkdir("y")`: the new directory is node 5, a child of the
second `/a/b` (node 3), not of the working directory (node 2). -/
def staleCwdY : VirtualFS :=
  { heap := [⟨"", true, "", [("a", 1)], none⟩, ⟨"a", true, "", [("b", 3)], some 0⟩,
      ⟨"b", true, "", [], some 1⟩, ⟨"b", true, "", [("c", 4), ("y", 5)], some 1⟩,
      ⟨"c", true, "", [], some 3⟩, ⟨"y", true, "", [], some 3⟩],
    Root := 0, Cwd := 2,
    EventLog := [⟨EventCreateDir, "/a", ""⟩, ⟨EventCreateDir, "/a/b", ""⟩,
      ⟨EventDelete, "/a/b", ""⟩, ⟨EventCreateDir, "/a/b", ""⟩,
      ⟨EventCreateDir, "/a/b/c", ""⟩, ⟨EventCreateDir, "/a/b/y", ""⟩],
    IsRestoring := false }

/-- The state `staleCwd` after `WriteFile("f", "hi")`: the file is node 5, a child of the
second `/a/b` (node 3). -/
def staleCwdF : VirtualFS :=
  { heap := [⟨"", true, "", [("a", 1)], none⟩, ⟨"a", true, "", [("b", 3)], some 0⟩,
      ⟨"b", true, "", [], some 1⟩, ⟨"b", true, "", [("c", 4), ("f", 5)], some 1⟩,
      ⟨"c", true, "", [], some 3⟩, ⟨"f", false, "hi", [], some 3⟩],
    Root := 0, Cwd := 2,
    EventLog := [⟨EventCreateDir, "/a", ""⟩, ⟨EventCreateDir, "/a/b", ""⟩,
      ⟨EventDelete, "/a/b", ""⟩, ⟨EventCreateDir, "/a/b", ""⟩,
      ⟨EventCreateDir, "/a/b/c", ""⟩, ⟨EventCreateFile, "/a/b/f", ""⟩,
      ⟨EventWriteFile, "/a/b/f", "hi"⟩],
    IsRestoring := false }

/-- The state `inFoo` after the failed `WriteFile("/new.txt", "hi")`: an empty file
(node 2) has been created under `/foo` and one event has been logged. -/
def inFooNew : VirtualFS :=
  { heap := [⟨"", true, "", [("foo", 1)], none⟩, ⟨"foo", true, "", [("new.txt", 2)], some 0⟩,
      ⟨"new.txt", false, "", [], some 1⟩],
    Root := 0, Cwd := 1,
    EventLog := [⟨EventCreateDir, "/foo", ""⟩, ⟨EventCreateFile, "/new.txt", ""⟩],
    IsRestoring := false }

/-- The state `withFoo` after `WriteFile("foo/new.txt", "hi")`. -/
def withFooNew : VirtualFS :=
  { heap := [⟨"", true, "", [("foo", 1)], none⟩, ⟨"foo", true, "", [("new.txt", 2)], some 0⟩,
      ⟨"new.txt", false, "hi", [], some 1⟩],
    Root := 0, Cwd := 0,
    EventLog := [⟨EventCreateDir, "/foo", ""⟩, ⟨EventCreateFile, "/foo/new.txt", ""⟩,
      ⟨EventWriteFile, "/foo/new.txt", "hi"⟩],
    IsRestoring := false }

/-- The tree `/a` with the working directory in `/a`. -/
def inA : VirtualFS :=
  { heap := [⟨"", true, "", [("a", 1)], none⟩, ⟨"a", true, "", [], some 0⟩],
    Root := 0, Cwd := 1, EventLog := [⟨EventCreateDir, "/a", ""⟩], IsRestoring := false }

/-- The state `inA` after `Remove("")`: the working directory (node 1) has been removed. -/
def inAGone : VirtualFS :=
  { heap := [⟨"", true, "", [], none⟩, ⟨"a", true, "", [], some 0⟩],
    Root := 0, Cwd := 1,
    EventLog := [⟨EventCreateDir, "/a", ""⟩, ⟨EventDelete, "", ""⟩],
    IsRestoring := false }

/-- The tree `/a`, with the working directory at the removed `/a/b` (node 2). -/
def underGoneB : VirtualFS :=
  { heap := [⟨"", true, "", [("a", 1)], none⟩, ⟨"a", true, "", [], some 0⟩,
      ⟨"b", true, "", [], some 1⟩],
    Root := 0, Cwd := 2,
    EventLog := [⟨EventCreateDir, "/a", ""⟩, ⟨EventCreateDir, "/a/b", ""⟩,
      ⟨EventDelete, "/a/b", ""⟩],
    IsRestoring := false }

/-- The state `underGoneB` after `Remove("..")`: `/a` (node 1) has been removed too. -/
def underGoneA : VirtualFS :=
  { heap := [⟨"", true, "", [], none⟩, ⟨"a", true, "", [], some 0⟩,
      ⟨"b", true, "", [], some 1⟩],
    Root := 0, Cwd := 2,
    EventLog := [⟨EventCreateDir, "/a", ""⟩, ⟨EventCreateDir, "/a/b", ""⟩,
      ⟨EventDelete, "/a/b", ""⟩, ⟨EventDelete, "..", ""⟩],
    IsRestoring := false }

/-- The state `inFooBar` after `Remove("../foo/bar")`. -/
def inFooBarGone : VirtualFS :=
  { heap := [⟨"", true, "", [("foo", 1)], none⟩, ⟨"foo", true, "", [], some 0⟩,
      ⟨"bar", true, "", [], some 1⟩],
    Root := 0, Cwd := 1,
    EventLog := [⟨EventCreateDir, "/foo", ""⟩, ⟨EventCreateDir, "/foo/bar", ""⟩,
      ⟨EventDelete, "../foo/bar", ""⟩],
    IsRestoring := false }

/-- A run of `Remove` calls that all return no error, one per path: the state after the last
call and the nodes the paths resolved to, in order.  `none` if a call does not return or
returns an error. -/
def removeAll : List String → VirtualFS → Option (VirtualFS × List Nat)
  | [], vfs => some (vfs, [])
  | path :: rest, vfs =>
    match resolvePath vfs path, Remove vfs path with
    | .ok node, some (vfs1, none) =>
      match removeAll rest vfs1 with
      | none => none
      | some (vfs2, nodes) => some (vfs2, node :: nodes)
    | _, _ => none

/-- The tree `/d/x`, `/d/y` with the working directory at the root. -/
def withTwoChildren : VirtualFS :=
  { heap := [⟨"", true, "", [("d", 1)], none⟩, ⟨"d", true, "", [("x", 2), ("y", 3)], some 0⟩,
      ⟨"x", true, "", [], some 1⟩, ⟨"y", false, "", [], some 1⟩],
    Root := 0, Cwd := 0,
    EventLog := [⟨EventCreateDir, "/d", ""⟩, ⟨EventCreateDir, "/d/x", ""⟩,
      ⟨EventCreateFile, "/d/y", ""⟩],
    IsRestoring := false }

/-- The state `withTwoChildren` after `Remove("d/y")` and `Remove("/d/x")`. -/
def withTwoChildrenGone : VirtualFS :=
  { heap := [⟨"", true, "", [("d", 1)], none⟩, ⟨"d", true, "", [], some 0⟩,
      ⟨"x", true, "", [], some 1⟩, ⟨"y", false, "", [], some 1⟩],
    Root := 0, Cwd := 0,
    EventLog := [⟨EventCreateDir, "/d", ""⟩, ⟨EventCreateDir, "/d/x", ""⟩,
      ⟨EventCreateFile, "/d/y", ""⟩, ⟨EventDelete, "d/y", ""⟩, ⟨EventDelete, "/d/x", ""⟩],
    IsRestoring := false }

/-- The state `inFoo` after `Mkdir("/foo/d")`. -/
def inFooD : VirtualFS :=
  { heap := [⟨"", true, "", [("foo", 1)], none⟩, ⟨"foo", true, "", [("d", 2)], some 0⟩,
      ⟨"d", true, "", [], some 1⟩],
    Root := 0, Cwd := 1,
    EventLog := [⟨EventCreateDir, "/foo", ""⟩, ⟨EventCreateDir, "/foo/d", ""⟩],
    IsRestoring := false }

/-- The state `inFooD` after the failed `WriteFile("/new.txt", "hi")`: an empty file
(node 3) has been created under `/foo`. -/
def inFooDNew : VirtualFS :=
  { heap := [⟨"", true, "", [("foo", 1)], none⟩,
      ⟨"foo", true, "", [("d", 2), ("new.txt", 3)], some 0⟩,
      ⟨"d", true, "", [], some 1⟩, ⟨"new.txt", false, "", [], some 1⟩],
    Root := 0, Cwd := 1,
    EventLog := [⟨EventCreateDir, "/foo", ""⟩, ⟨EventCreateDir, "/foo/d", ""⟩,
      ⟨EventCreateFile, "/new.txt", ""⟩],
    IsRestoring := false }

/-- The state `inFoo` with a file `/foo/bar.txt` (node 2). -/
def inFooFile : VirtualFS :=
  { heap := [⟨"", true, "", [("foo", 1)], none⟩, ⟨"foo", true, "", [("bar.txt", 2)], some 0⟩,
      ⟨"bar.txt", false, "", [], some 1⟩],
    Root := 0, Cwd := 1,
    EventLog := [⟨EventCreateDir, "/foo", ""⟩, ⟨EventCreateFile, "/foo/bar.txt", ""⟩],
    IsRestoring := false }

/-- The state after `CreateFile("file1.txt")`, `CreateFile("anotherfile.txt")` and
`Mkdir("folder1")` on a fresh filesystem. -/
def withFiles : VirtualFS :=
  { heap := [⟨"", true, "", [("file1.txt", 1), ("anotherfile.txt", 2), ("folder1", 3)], none⟩,
      ⟨"file1.txt", false, "", [], some 0⟩, ⟨"anotherfile.txt", false, "", [], some 0⟩,
      ⟨"folder1", true, "", [], some 0⟩],
    Root := 0, Cwd := 0,
    EventLog := [⟨EventCreateFile, "/file1.txt", ""⟩, ⟨EventCreateFile, "/anotherfile.txt", ""⟩,
      ⟨EventCreateDir, "/folder1", ""⟩],
    IsRestoring := false }

/-- The state `inA` after `Remove("../a")`: the working directory (node 1) has been
removed. -/
def inAGoneUp : VirtualFS :=
  { heap := [⟨"", true, "", [], none⟩, ⟨"a", true, "", [], some 0⟩],
    Root := 0, Cwd := 1,
    EventLog := [⟨EventCreateDir, "/a", ""⟩, ⟨EventDelete, "../a", ""⟩],
    IsRestoring := false }

/-! ## Lists, strings and maps -/

theorem splitSlash_ne_nil (l : List Char) : splitSlash l ≠ [] := by
  induction l with
  | nil => simp [splitSlash]
  | cons c cs ih =>
    unfold splitSlash
    split
    · simp
    · split <;> simp

theorem splitSlash_append_slash (a b : List Char) :
    splitSlash (a ++ '/' :: b) = splitSlash a ++ splitSlash b := by
  induction a with
  | nil => simp [splitSlash]
  | cons c cs ih =>
    by_cases hc : c = '/'
    · simp [splitSlash, hc, ih]
    · have h1 : splitSlash (c :: cs) =
          match splitSlash cs with
          | [] => [[c]]
          | p :: ps => (c :: p) :: ps := by
        rw [splitSlash]; simp [hc]
      have h2 : splitSlash (c :: cs ++ '/' :: b) =
          match splitSlash (cs ++ '/' :: b) with
          | [] => [[c]]
          | p :: ps => (c :: p) :: ps := by
        rw [List.cons_append, splitSlash]; simp [hc]
      rw [h1, h2, ih]
      cases hs : splitSlash cs with
      | nil => exact absurd hs (splitSlash_ne_nil cs)
      | cons p ps => simp

theorem splitSlash_of_no_slash (l : List Char) (h : '/' ∉ l) : splitSlash l = [l] := by
  induction l with
  | nil => simp [splitSlash]
  | cons c cs ih =>
    have hc : c ≠ '/' := fun e => h (by simp [e])
    have hcs : '/' ∉ cs := fun e => h (by simp [e])
    rw [splitSlash]; simp [hc, ih hcs]

theorem splitSlash_no_slash (l : List Char) : ∀ piece ∈ splitSlash l, '/' ∉ piece := by
  induction l with
  | nil => simp [splitSlash]
  | cons c cs ih =>
    by_cases hc : c = '/'
    · intro piece hp
      rw [splitSlash] at hp
      simp [hc] at hp
      rcases hp with rfl | hp
      · simp
      · exact ih piece hp
    · intro piece hp
      rw [splitSlash] at hp
      simp only [hc, if_false] at hp
      cases hs : splitSlash cs with
      | nil => exact absurd hs (splitSlash_ne_nil cs)
      | cons q qs =>
        rw [hs] at hp ih
        simp at hp
        rcases hp with rfl | hp
        · have := ih q (by simp)
          simp only [List.mem_cons, not_or]
          exact ⟨fun e => hc e.symm, this⟩
        · exact ih piece (by simp [hp])

theorem data_slash : ("/" : String).data = ['/'] := rfl

theorem String_eq_iff (a b : String) : a = b ↔ a.data = b.data :=
  ⟨fun h => by rw [h], fun h => String.ext h⟩

theorem data_empty_iff (a : String) : a = "" ↔ a.data = [] :=
  String_eq_iff a ""

theorem Split_append_slash (a b : String) : Split (a ++ "/" ++ b) = Split a ++ Split b := by
  simp [Split, String.data_append, data_slash, splitSlash_append_slash]

theorem Split_of_no_slash (s : String) (h : '/' ∉ s.data) : Split s = [s] := by
  simp [Split, splitSlash_of_no_slash s.data h]

theorem mem_Split_no_slash (s k : String) (h : k ∈ Split s) : '/' ∉ k.data := by
  simp only [Split, List.mem_map] at h
  obtain ⟨piece, hp, rfl⟩ := h
  exact splitSlash_no_slash s.data piece hp

theorem Split_ne_nil (s : String) : Split s ≠ [] := by
  simp [Split, splitSlash_ne_nil]

theorem Split_Join (names : List String) (hne : names ≠ [])
    (h : ∀ k ∈ names, '/' ∉ k.data) : Split (Join names) = names := by
  induction names with
  | nil => exact absurd rfl hne
  | cons a rest ih =>
    cases rest with
    | nil => exact Split_of_no_slash a (h a (by simp))
    | cons b rest =>
      rw [Join, Split_append_slash, Split_of_no_slash a (h a (by simp)),
        ih (by simp) (fun k hk => h k (by simp [hk]))]
      rfl

theorem Join_ne_empty (a : String) (rest : List String) (ha : a ≠ "") :
    Join (a :: rest) ≠ "" := by
  cases rest with
  | nil => simpa [Join] using ha
  | cons b rest =>
    rw [Join, Ne, data_empty_iff]
    simp [String.data_append, data_slash]

theorem startsWithSlash_slash_append (s : String) : startsWithSlash ("/" ++ s) = true := by
  simp [startsWithSlash, String.data_append, data_slash]

theorem trimLeadingSlash_slash_append (s : String) : trimLeadingSlash ("/" ++ s) = s := by
  simp [trimLeadingSlash, String.data_append, data_slash]

theorem slash_append_ne_empty (s : String) : "/" ++ s ≠ "" := by
  rw [Ne, data_empty_iff]; simp [String.data_append, data_slash]

theorem eq_slash_append_of_startsWithSlash (s : String) (h : startsWithSlash s = true) :
    s = "/" ++ trimLeadingSlash s := by
  rw [String_eq_iff]
  unfold startsWithSlash at h
  unfold trimLeadingSlash
  cases hs : s.data with
  | nil => rw [hs] at h; simp at h
  | cons c cs =>
    rw [hs] at h
    simp at h
    simp [h, String.data_append, data_slash]

theorem mapLookup_mem {m : ChildMap} {k : String} {v : Nat} (h : mapLookup m k = some v) :
    (k, v) ∈ m := by
  induction m with
  | nil => simp [mapLookup] at h
  | cons kv rest ih =>
    obtain ⟨k1, v1⟩ := kv
    rw [mapLookup] at h
    by_cases hk : k1 = k
    · simp [hk] at h; simp [hk, h]
    · simp [hk] at h; simp [ih h]

theorem mapLookup_of_mem {m : ChildMap} {k : String} {v : Nat}
    (hnd : (m.map Prod.fst).Nodup) (h : (k, v) ∈ m) : mapLookup m k = some v := by
  induction m with
  | nil => simp at h
  | cons kv rest ih =>
    obtain ⟨k1, v1⟩ := kv
    simp only [List.map_cons, List.nodup_cons] at hnd
    rw [mapLookup]
    simp only [List.mem_cons, Prod.mk.injEq] at h
    rcases h with ⟨rfl, rfl⟩ | h
    · simp
    · have : k1 ≠ k := by
        rintro rfl
        exact hnd.1 (List.mem_map.mpr ⟨(k1, v), h, rfl⟩)
      simp [this, ih hnd.2 h]

theorem mapLookup_eq_none_of_nil {m : ChildMap} (h : m = []) (k : String) :
    mapLookup m k = none := by
  subst h; rfl

theorem mem_mapDelete {m : ChildMap} {k k1 : String} {v : Nat} :
    (k1, v) ∈ mapDelete m k ↔ (k1, v) ∈ m ∧ k1 ≠ k := by
  simp [mapDelete]

theorem mapLookup_mapDelete (m : ChildMap) (k k1 : String) :
    mapLookup (mapDelete m k) k1 = if k1 = k then none else mapLookup m k1 := by
  induction m with
  | nil => simp [mapDelete, mapLookup]
  | cons kv rest ih =>
    obtain ⟨k2, v2⟩ := kv
    unfold mapDelete at ih ⊢
    by_cases h2 : k2 = k
    · subst h2
      simp only [List.filter_cons, ne_eq, not_true_eq_false, decide_False, Bool.false_eq_true,
        if_false, ih, mapLookup]
      by_cases h1 : k1 = k2
      · simp [h1]
      · have : k2 ≠ k1 := fun e => h1 e.symm
        simp [h1, this]
    · simp only [List.filter_cons, ne_eq, h2, not_false_eq_true, decide_True, if_true, mapLookup,
        ih]
      by_cases h1 : k2 = k1
      · subst h1; simp [h2]
      · simp [h1]

theorem mapLookup_append (m m1 : ChildMap) (k : String) :
    mapLookup (m ++ m1) k = match mapLookup m k with
      | some v => some v
      | none => mapLookup m1 k := by
  induction m with
  | nil => simp [mapLookup]
  | cons kv rest ih =>
    obtain ⟨k2, v2⟩ := kv
    simp only [List.cons_append, mapLookup]
    by_cases h : k2 = k
    · simp [h]
    · simp [h, ih]

theorem mapLookup_mapInsert (m : ChildMap) (k k1 : String) (v : Nat) :
    mapLookup (mapInsert m k v) k1 = if k1 = k then some v else mapLookup m k1 := by
  rw [mapInsert, mapLookup_append, mapLookup_mapDelete]
  by_cases h : k1 = k
  · simp [h, mapLookup]
  · have : k ≠ k1 := fun e => h e.symm
    simp only [h, if_false, mapLookup, this]
    cases mapLookup m k1 <;> rfl

theorem mem_mapInsert {m : ChildMap} {k k1 : String} {v v1 : Nat} :
    (k1, v1) ∈ mapInsert m k v ↔ ((k1, v1) ∈ m ∧ k1 ≠ k) ∨ (k1 = k ∧ v1 = v) := by
  simp [mapInsert, mem_mapDelete]

theorem keys_nodup_mapDelete {m : ChildMap} (k : String) (h : (m.map Prod.fst).Nodup) :
    ((mapDelete m k).map Prod.fst).Nodup := by
  unfold mapDelete
  exact (List.filter_sublist m).map Prod.fst |>.nodup h

theorem keys_nodup_mapInsert {m : ChildMap} (k : String) (v : Nat)
    (h : (m.map Prod.fst).Nodup) : ((mapInsert m k v).map Prod.fst).Nodup := by
  unfold mapInsert
  rw [List.map_append, List.nodup_append]
  refine ⟨keys_nodup_mapDelete k h, by simp, ?_⟩
  intro a ha hb
  simp only [List.map_cons, List.map_nil, List.mem_singleton] at hb
  subst hb
  obtain ⟨⟨k2, v2⟩, hm, rfl⟩ := List.mem_map.mp ha
  exact (mem_mapDelete.mp hm).2 rfl

/-! ## The heap -/

theorem node_eq_getElem (s : VirtualFS) (i : Nat) (h : i < s.heap.length) :
    s.node i = s.heap[i] := by
  simp [VirtualFS.node, List.getElem?_eq_getElem h]

theorem node_setNode_self (s : VirtualFS) (p : Nat) (x : FSNode) (h : p < s.heap.length) :
    (s.setNode p x).node p = x := by
  simp [VirtualFS.node, VirtualFS.setNode, List.getElem?_set, h]

theorem node_setNode_ne (s : VirtualFS) (p i : Nat) (x : FSNode) (h : i ≠ p) :
    (s.setNode p x).node i = s.node i := by
  have : p ≠ i := fun e => h e.symm
  simp [VirtualFS.node, VirtualFS.setNode, List.getElem?_set, this]

theorem node_alloc_lt (s : VirtualFS) (x : FSNode) (i : Nat) (h : i < s.heap.length) :
    (s.alloc x).1.node i = s.node i := by
  simp [VirtualFS.node, VirtualFS.alloc, List.getElem?_append_left h]

theorem node_alloc_fresh (s : VirtualFS) (x : FSNode) :
    (s.alloc x).1.node s.heap.length = x := by
  simp [VirtualFS.node, VirtualFS.alloc]

@[simp] theorem record_heap (s : VirtualFS) (ev : FileSystemEvent) :
    (s.record ev).heap = s.heap := by
  unfold VirtualFS.record; split <;> rfl

@[simp] theorem record_Root (s : VirtualFS) (ev : FileSystemEvent) :
    (s.record ev).Root = s.Root := by
  unfold VirtualFS.record; split <;> rfl

@[simp] theorem record_Cwd (s : VirtualFS) (ev : FileSystemEvent) :
    (s.record ev).Cwd = s.Cwd := by
  unfold VirtualFS.record; split <;> rfl

@[simp] theorem record_IsRestoring (s : VirtualFS) (ev : FileSystemEvent) :
    (s.record ev).IsRestoring = s.IsRestoring := by
  unfold VirtualFS.record; split <;> rfl

@[simp] theorem record_node (s : VirtualFS) (ev : FileSystemEvent) (i : Nat) :
    (s.record ev).node i = s.node i := by
  simp [VirtualFS.node]

theorem record_EventLog (s : VirtualFS) (ev : FileSystemEvent) :
    (s.record ev).EventLog = if s.IsRestoring then s.EventLog else s.EventLog ++ [ev] := by
  unfold VirtualFS.record Append; cases s.IsRestoring <;> rfl

@[simp] theorem setNode_Root (s : VirtualFS) (p : Nat) (x : FSNode) :
    (s.setNode p x).Root = s.Root := rfl

@[simp] theorem setNode_Cwd (s : VirtualFS) (p : Nat) (x : FSNode) :
    (s.setNode p x).Cwd = s.Cwd := rfl

@[simp] theorem setNode_IsRestoring (s : VirtualFS) (p : Nat) (x : FSNode) :
    (s.setNode p x).IsRestoring = s.IsRestoring := rfl

@[simp] theorem setNode_EventLog (s : VirtualFS) (p : Nat) (x : FSNode) :
    (s.setNode p x).EventLog = s.EventLog := rfl

@[simp] theorem setNode_length (s : VirtualFS) (p : Nat) (x : FSNode) :
    (s.setNode p x).heap.length = s.heap.length := by
  simp [VirtualFS.setNode]

/-! ### The state after `link` -/

@[simp] theorem link_Root (s : VirtualFS) (parent : Nat) (name : String) (d : Bool)
    (ev : FileSystemEvent) : (s.link parent name d ev).Root = s.Root := by
  simp [VirtualFS.link, VirtualFS.alloc]

@[simp] theorem link_Cwd (s : VirtualFS) (parent : Nat) (name : String) (d : Bool)
    (ev : FileSystemEvent) : (s.link parent name d ev).Cwd = s.Cwd := by
  simp [VirtualFS.link, VirtualFS.alloc]

@[simp] theorem link_IsRestoring (s : VirtualFS) (parent : Nat) (name : String) (d : Bool)
    (ev : FileSystemEvent) : (s.link parent name d ev).IsRestoring = s.IsRestoring := by
  simp [VirtualFS.link, VirtualFS.alloc]

@[simp] theorem link_length (s : VirtualFS) (parent : Nat) (name : String) (d : Bool)
    (ev : FileSystemEvent) : (s.link parent name d ev).heap.length = s.heap.length + 1 := by
  simp [VirtualFS.link, VirtualFS.alloc, VirtualFS.setNode]

theorem link_EventLog (s : VirtualFS) (parent : Nat) (name : String) (d : Bool)
    (ev : FileSystemEvent) :
    (s.link parent name d ev).EventLog =
      if s.IsRestoring then s.EventLog else s.EventLog ++ [ev] := by
  simp [VirtualFS.link, record_EventLog, VirtualFS.alloc]

theorem link_node_parent (s : VirtualFS) (parent : Nat) (name : String) (d : Bool)
    (ev : FileSystemEvent) (h : parent < s.heap.length) :
    (s.link parent name d ev).node parent =
      { s.node parent with
        Children := mapInsert (s.node parent).Children name s.heap.length } := by
  simp only [VirtualFS.link, record_node]
  rw [node_setNode_self _ _ _ (by simp [VirtualFS.alloc]; omega), node_alloc_lt _ _ _ h]
  rfl

theorem link_node_fresh (s : VirtualFS) (parent : Nat) (name : String) (d : Bool)
    (ev : FileSystemEvent) (h : parent < s.heap.length) :
    (s.link parent name d ev).node s.heap.length = ⟨name, d, "", [], some parent⟩ := by
  simp only [VirtualFS.link, record_node]
  rw [node_setNode_ne _ _ _ _ (by omega), node_alloc_fresh]

theorem link_node_other (s : VirtualFS) (parent : Nat) (name : String) (d : Bool)
    (ev : FileSystemEvent) (i : Nat) (hi : i < s.heap.length) (hp : i ≠ parent) :
    (s.link parent name d ev).node i = s.node i := by
  simp only [VirtualFS.link, record_node]
  rw [node_setNode_ne _ _ _ _ hp, node_alloc_lt _ _ _ hi]

theorem node_setNode_oor (s : VirtualFS) (p i : Nat) (x : FSNode) (h : ¬ p < s.heap.length) :
    (s.setNode p x).node i = s.node i := by
  simp only [VirtualFS.node, VirtualFS.setNode, List.getElem?_set, h, if_false]
  by_cases hpi : p = i
  · subst hpi
    simp [List.getElem?_eq_none (Nat.le_of_not_lt h)]
  · simp [hpi]

/-- For an existing node, `link` changes at most the `Children` map. -/
theorem link_node_fields (s : VirtualFS) (parent : Nat) (name : String) (d : Bool)
    (ev : FileSystemEvent) (i : Nat) (hi : i < s.heap.length) :
    ((s.link parent name d ev).node i).Name = (s.node i).Name ∧
    ((s.link parent name d ev).node i).Parent = (s.node i).Parent ∧
    ((s.link parent name d ev).node i).IsDir = (s.node i).IsDir ∧
    ((s.link parent name d ev).node i).Content = (s.node i).Content := by
  by_cases hp : i = parent
  · subst hp
    rw [link_node_parent _ _ _ _ _ hi]
    exact ⟨rfl, rfl, rfl, rfl⟩
  · rw [link_node_other _ _ _ _ _ _ hi hp]
    exact ⟨rfl, rfl, rfl, rfl⟩

theorem link_children_other (s : VirtualFS) (parent : Nat) (name : String) (d : Bool)
    (ev : FileSystemEvent) (i : Nat) (hi : i < s.heap.length) (hp : i ≠ parent) :
    ((s.link parent name d ev).node i).Children = (s.node i).Children := by
  rw [link_node_other _ _ _ _ _ _ hi hp]

theorem link_children_parent (s : VirtualFS) (parent : Nat) (name : String) (d : Bool)
    (ev : FileSystemEvent) (h : parent < s.heap.length) :
    ((s.link parent name d ev).node parent).Children =
      mapInsert (s.node parent).Children name s.heap.length := by
  rw [link_node_parent _ _ _ _ _ h]

theorem WellFormed.wf_link {s : VirtualFS} (wf : WellFormed s) (parent : Nat) (name : String)
    (d : Bool) (ev : FileSystemEvent) (hp : parent < s.heap.length)
    (hdir : (s.node parent).IsDir = true) : WellFormed (s.link parent name d ev) := by
  have fresh := link_node_fresh s parent name d ev hp
  have fields := link_node_fields s parent name d ev
  refine ⟨?_, ?_, ?_, ?_, ?_, ?_, ?_, ?_⟩
  · simp; exact Nat.lt_succ_of_lt wf.root_lt
  · simp; exact Nat.lt_succ_of_lt wf.cwd_lt
  · rw [link_Root, (fields _ wf.root_lt).2.1]; exact wf.root_parent
  · intro i p hi hpar
    rw [link_length] at hi
    rcases Nat.lt_or_ge i s.heap.length with h | h
    · rw [(fields i h).2.1] at hpar
      exact wf.parent_lt i p h hpar
    · have : i = s.heap.length := by omega
      subst this
      rw [fresh] at hpar
      simp at hpar
      omega
  · intro i hi hroot
    rw [link_length] at hi
    rw [link_Root] at hroot
    rcases Nat.lt_or_ge i s.heap.length with h | h
    · rw [(fields i h).2.1]
      exact wf.parent_some i h hroot
    · have : i = s.heap.length := by omega
      subst this
      rw [fresh]; simp
  · intro i k c hi hmem
    rw [link_length] at hi
    rcases Nat.lt_or_ge i s.heap.length with h | h
    · have old : (k, c) ∈ (s.node i).Children →
          c < (s.link parent name d ev).heap.length ∧
          ((s.link parent name d ev).node c).Name = k ∧
          ((s.link parent name d ev).node c).Parent = some i := by
        intro hm
        obtain ⟨hc, hn, hpa⟩ := wf.child_ok i k c h hm
        rw [link_length, (fields c hc).1, (fields c hc).2.1]
        exact ⟨Nat.lt_succ_of_lt hc, hn, hpa⟩
      by_cases hip : i = parent
      · subst hip
        rw [link_children_parent _ _ _ _ _ h] at hmem
        rcases mem_mapInsert.mp hmem with ⟨hm, _⟩ | ⟨rfl, rfl⟩
        · exact old hm
        · rw [fresh, link_length]
          exact ⟨Nat.lt_succ_self _, rfl, rfl⟩
      · rw [link_children_other _ _ _ _ _ _ h hip] at hmem
        exact old hmem
    · have : i = s.heap.length := by omega
      subst this
      rw [fresh] at hmem
      simp at hmem
  · intro i hi
    rw [link_length] at hi
    rcases Nat.lt_or_ge i s.heap.length with h | h
    · by_cases hip : i = parent
      · subst hip
        rw [link_children_parent _ _ _ _ _ h]
        exact keys_nodup_mapInsert _ _ (wf.keys_nodup i h)
      · rw [link_children_other _ _ _ _ _ _ h hip]
        exact wf.keys_nodup i h
    · have : i = s.heap.length := by omega
      subst this
      rw [fresh]; simp
  · intro i hi hfile
    rw [link_length] at hi
    rcases Nat.lt_or_ge i s.heap.length with h | h
    · rw [(fields i h).2.2.1] at hfile
      by_cases hip : i = parent
      · subst hip
        rw [hdir] at hfile
        exact absurd hfile (by simp)
      · rw [link_children_other _ _ _ _ _ _ h hip]
        exact wf.file_leaf i h hfile
    · have : i = s.heap.length := by omega
      subst this
      rw [fresh]

/-- Well-formedness survives any change that keeps the heap size, `Root`, every `Name`,
`Parent` and `IsDir`, and only removes entries from `Children` maps. -/
theorem WellFormed.wf_of_shrink {s t : VirtualFS} (wf : WellFormed s)
    (hlen : t.heap.length = s.heap.length) (hroot : t.Root = s.Root)
    (hcwd : t.Cwd < t.heap.length)
    (hname : ∀ i, i < s.heap.length → (t.node i).Name = (s.node i).Name)
    (hpar : ∀ i, i < s.heap.length → (t.node i).Parent = (s.node i).Parent)
    (hdir : ∀ i, i < s.heap.length → (t.node i).IsDir = (s.node i).IsDir)
    (hsub : ∀ i, i < s.heap.length → ∀ kc ∈ (t.node i).Children, kc ∈ (s.node i).Children)
    (hnd : ∀ i, i < s.heap.length → ((t.node i).Children.map Prod.fst).Nodup) :
    WellFormed t := by
  refine ⟨?_, hcwd, ?_, ?_, ?_, ?_, ?_, ?_⟩
  · rw [hlen, hroot]; exact wf.root_lt
  · rw [hroot, hpar _ wf.root_lt]; exact wf.root_parent
  · intro i p hi h
    rw [hlen] at hi
    rw [hpar i hi] at h
    exact wf.parent_lt i p hi h
  · intro i hi h
    rw [hlen] at hi
    rw [hroot] at h
    rw [hpar i hi]
    exact wf.parent_some i hi h
  · intro i k c hi hm
    rw [hlen] at hi
    obtain ⟨hc, hn, hp⟩ := wf.child_ok i k c hi (hsub i hi _ hm)
    rw [hlen, hname c hc, hpar c hc]
    exact ⟨hc, hn, hp⟩
  · intro i hi
    rw [hlen] at hi
    exact hnd i hi
  · intro i hi h
    rw [hlen] at hi
    rw [hdir i hi] at h
    have := wf.file_leaf i hi h
    cases hc : (t.node i).Children with
    | nil => rfl
    | cons kc rest =>
      have := hsub i hi kc (by rw [hc]; simp)
      rw [wf.file_leaf i hi h] at this
      simp at this

theorem WellFormed.wf_record {s : VirtualFS} (wf : WellFormed s) (ev : FileSystemEvent) :
    WellFormed (s.record ev) := by
  refine wf.wf_of_shrink (by simp) (by simp) (by simpa using wf.cwd_lt) ?_ ?_ ?_ ?_ ?_ <;>
    intro i hi <;> simp
  exact wf.keys_nodup i hi

theorem WellFormed.wf_setCwd {s : VirtualFS} (wf : WellFormed s) (c : Nat)
    (hc : c < s.heap.length) : WellFormed { s with Cwd := c } :=
  wf.wf_of_shrink rfl rfl hc (fun _ _ => rfl) (fun _ _ => rfl) (fun _ _ => rfl)
    (fun _ _ _ h => h) wf.keys_nodup

theorem WellFormed.wf_setRestoring {s : VirtualFS} (wf : WellFormed s) (b : Bool) :
    WellFormed { s with IsRestoring := b } :=
  wf.wf_of_shrink rfl rfl wf.cwd_lt (fun _ _ => rfl) (fun _ _ => rfl) (fun _ _ => rfl)
    (fun _ _ _ h => h) wf.keys_nodup

/-- The write of `WriteFile`: only `Content` changes. -/
theorem WellFormed.wf_setContent {s : VirtualFS} (wf : WellFormed s) (n : Nat) (c : String) :
    WellFormed (s.setNode n { s.node n with Content := c }) := by
  have key : ∀ i, (s.setNode n { s.node n with Content := c }).node i =
      s.node i ∨ (s.setNode n { s.node n with Content := c }).node i =
        { s.node i with Content := c } := by
    intro i
    by_cases h : i = n
    · subst h
      by_cases hl : i < s.heap.length
      · right; exact node_setNode_self _ _ _ hl
      · left; exact node_setNode_oor _ _ _ _ hl
    · left; exact node_setNode_ne _ _ _ _ h
  refine wf.wf_of_shrink (by simp) rfl (by simpa using wf.cwd_lt) ?_ ?_ ?_ ?_ ?_ <;>
    intro i hi <;> rcases key i with h | h <;> rw [h]
  · intro kc hkc; exact hkc
  · intro kc hkc; exact hkc
  · exact wf.keys_nodup i hi
  · exact wf.keys_nodup i hi

/-- The unlinking of `Remove`: one key leaves one `Children` map. -/
theorem WellFormed.wf_unlink {s : VirtualFS} (wf : WellFormed s) (parent : Nat) (k : String) :
    WellFormed (s.setNode parent
      { s.node parent with Children := mapDelete (s.node parent).Children k }) := by
  have key : ∀ i, (s.setNode parent
      { s.node parent with Children := mapDelete (s.node parent).Children k }).node i =
      s.node i ∨ (s.setNode parent
      { s.node parent with Children := mapDelete (s.node parent).Children k }).node i =
        { s.node i with Children := mapDelete (s.node i).Children k } := by
    intro i
    by_cases h : i = parent
    · subst h
      by_cases hl : i < s.heap.length
      · right; exact node_setNode_self _ _ _ hl
      · left; exact node_setNode_oor _ _ _ _ hl
    · left; exact node_setNode_ne _ _ _ _ h
  refine wf.wf_of_shrink (by simp) rfl (by simpa using wf.cwd_lt) ?_ ?_ ?_ ?_ ?_ <;>
    intro i hi <;> rcases key i with h | h <;> rw [h]
  · intro kc hkc; exact hkc
  · intro kc hkc
    obtain ⟨k1, v1⟩ := kc
    exact (mem_mapDelete.mp hkc).1
  · exact wf.keys_nodup i hi
  · exact keys_nodup_mapDelete k (wf.keys_nodup i hi)

/-! ## Resolution stays inside the heap -/

theorem node_default_of_ge (s : VirtualFS) (n : Nat) (h : ¬ n < s.heap.length) :
    s.node n = default := by
  simp [VirtualFS.node, List.getElem?_eq_none (Nat.le_of_not_lt h)]

theorem lt_of_parent_some {s : VirtualFS} {n p : Nat} (h : (s.node n).Parent = some p) :
    n < s.heap.length := by
  by_contra hn
  rw [node_default_of_ge s n hn] at h
  have hd : (default : FSNode).Parent = none := rfl
  rw [hd] at h
  cases h

theorem lt_of_lookup_some {s : VirtualFS} {n c : Nat} {k : String}
    (h : mapLookup (s.node n).Children k = some c) : n < s.heap.length := by
  by_contra hn
  rw [node_default_of_ge s n hn] at h
  exact absurd h (by simp [default, mapLookup])

theorem WellFormed.wf_lookup {s : VirtualFS} (wf : WellFormed s) {i c : Nat} {k : String}
    (h : mapLookup (s.node i).Children k = some c) :
    c < s.heap.length ∧ (s.node c).Name = k ∧ (s.node c).Parent = some i ∧ c ≠ s.Root := by
  obtain ⟨h1, h2, h3⟩ := wf.child_ok i k c (lt_of_lookup_some h) (mapLookup_mem h)
  refine ⟨h1, h2, h3, ?_⟩
  rintro rfl
  rw [wf.root_parent] at h3
  exact absurd h3 (by simp)

theorem resolveStep_lt {s : VirtualFS} (wf : WellFormed s) {node n : Nat} {part : String}
    (hn : node < s.heap.length) (h : resolveStep s node part = .ok n) : n < s.heap.length := by
  unfold resolveStep at h
  split at h
  · cases h; exact hn
  · split at h
    · split at h
      · rename_i p hp
        cases h
        exact Nat.lt_trans (wf.parent_lt node _ hn hp) hn
      · cases h; exact hn
    · split at h
      · cases h
      · rename_i c hc
        cases h
        exact (wf.wf_lookup hc).1

theorem resolveLoop_lt {s : VirtualFS} (wf : WellFormed s) (parts : List String) :
    ∀ {node n : Nat}, node < s.heap.length → resolveLoop s node parts = .ok n →
      n < s.heap.length := by
  induction parts with
  | nil => intro node n hn h; simp [resolveLoop] at h; cases h; exact hn
  | cons part rest ih =>
    intro node n hn h
    rw [resolveLoop] at h
    cases hs : resolveStep s node part with
    | error e => rw [hs] at h; cases h
    | ok next =>
      rw [hs] at h
      exact ih (resolveStep_lt wf hn hs) h

theorem startsWithSlash_ne_empty {path : String} (h : startsWithSlash path = true) :
    path ≠ "" := by
  rintro rfl
  simp [startsWithSlash] at h

theorem resolvePath_empty (s : VirtualFS) : resolvePath s "" = .ok s.Cwd := by
  simp [resolvePath]

theorem resolvePath_abs (s : VirtualFS) {path : String} (h : startsWithSlash path = true) :
    resolvePath s path =
      if trimLeadingSlash path = "" then .ok s.Root
      else resolveLoop s s.Root (Split (trimLeadingSlash path)) := by
  simp [resolvePath, h, startsWithSlash_ne_empty h]

theorem resolvePath_rel (s : VirtualFS) {path : String} (hne : path ≠ "")
    (h : startsWithSlash path = false) :
    resolvePath s path = resolveLoop s s.Cwd (Split path) := by
  simp [resolvePath, h, hne]

theorem resolvePath_lt {s : VirtualFS} (wf : WellFormed s) {path : String} {n : Nat}
    (h : resolvePath s path = .ok n) : n < s.heap.length := by
  by_cases he : path = ""
  · subst he
    rw [resolvePath_empty] at h
    cases h; exact wf.cwd_lt
  · cases hs : startsWithSlash path with
    | true =>
      rw [resolvePath_abs s hs] at h
      split at h
      · cases h; exact wf.root_lt
      · exact resolveLoop_lt wf _ wf.root_lt h
    | false =>
      rw [resolvePath_rel s he hs] at h
      exact resolveLoop_lt wf _ wf.cwd_lt h

/-! ## `traverseToParent` through `parentPathOf` and `baseNameOf` -/

theorem traverseToParent_eq (s : VirtualFS) (path : String) :
    traverseToParent s path =
      match resolvePath s (parentPathOf path) with
      | .error e => .error e
      | .ok parent =>
        if !(s.node parent).IsDir then .error (.notADirectory (parentPathOf path))
        else .ok (parent, baseNameOf path) := by
  unfold traverseToParent parentPathOf baseNameOf
  have : (Split (trimTrailingSlash path)).length ≠ 0 := by
    intro h
    exact Split_ne_nil _ (List.length_eq_zero.mp h)
  simp only [this, if_false]

theorem traverseToParent_ok {s : VirtualFS} {path name : String} {parent : Nat}
    (h : traverseToParent s path = .ok (parent, name)) :
    resolvePath s (parentPathOf path) = .ok parent ∧ (s.node parent).IsDir = true ∧
      name = baseNameOf path := by
  rw [traverseToParent_eq] at h
  cases hr : resolvePath s (parentPathOf path) with
  | error e => rw [hr] at h; cases h
  | ok q =>
    rw [hr] at h
    simp only at h
    cases hd : (s.node q).IsDir with
    | false => rw [hd] at h; simp at h
    | true =>
      rw [hd] at h
      simp at h
      obtain ⟨rfl, rfl⟩ := h
      exact ⟨rfl, hd, rfl⟩

/-! ## Parent chains -/

theorem Chain.chain_of_root {s : VirtualFS} {names : List String} (h : Chain s s.Root names) :
    names = [] := by
  cases h with
  | root => rfl
  | step hne _ _ => exact absurd rfl hne

theorem Chain.chain_unique {s : VirtualFS} {n : Nat} {l1 : List String} (h1 : Chain s n l1) :
    ∀ {l2 : List String}, Chain s n l2 → l1 = l2 := by
  induction h1 with
  | root => intro l2 h2; exact (Chain.chain_of_root h2).symm
  | step hne hp _ ih =>
    intro l2 h2
    cases h2 with
    | root => exact absurd rfl hne
    | step _ hp2 hc2 =>
      rw [hp] at hp2
      cases hp2
      rw [ih hc2]

theorem Chain.chain_length_le {s : VirtualFS} (wf : WellFormed s) {n : Nat} {names : List String}
    (h : Chain s n names) : names.length ≤ n := by
  induction h with
  | root => simp
  | step _ hp _ ih =>
    have := wf.parent_lt _ _ (lt_of_parent_some hp) hp
    simp only [List.length_append, List.length_singleton]
    omega

theorem Chain.chain_transfer {s t : VirtualFS} (ext : Extends s t) {n : Nat} {names : List String}
    (h : Chain s n names) : Chain t n names := by
  induction h with
  | root => rw [← ext.1]; exact Chain.root
  | step hne hp _ ih =>
    have hl := lt_of_parent_some hp
    obtain ⟨hname, hpar, _⟩ := ext.2.2 _ hl
    rw [← hname]
    exact Chain.step (by rw [ext.1]; exact hne) (by rw [hpar]; exact hp) ih

theorem GoodNode.good_transfer {s t : VirtualFS} (ext : Extends s t) {n : Nat}
    (h : GoodNode s n) : GoodNode t n := by
  obtain ⟨names, hc, hp⟩ := h
  exact ⟨names, hc.chain_transfer ext, hp⟩

theorem pwdLoop_of_chain {s : VirtualFS} {n : Nat} {names : List String} (h : Chain s n names) :
    ∀ (fuel : Nat) (acc : List String), names.length ≤ fuel →
      pwdLoop s fuel (some n) acc = some (names ++ acc) := by
  induction h with
  | root =>
    intro fuel acc _
    unfold pwdLoop
    simp
  | step hne hp _ ih =>
    intro fuel acc hf
    simp only [List.length_append, List.length_singleton] at hf
    obtain ⟨f, rfl⟩ : ∃ f, fuel = f + 1 := ⟨fuel - 1, by omega⟩
    rw [pwdLoop]
    simp only [hne, if_false, hp]
    rw [ih f _ (by omega)]
    simp

theorem PrintWorkingDir_of_chain {s : VirtualFS} (wf : WellFormed s) {names : List String}
    (h : Chain s s.Cwd names) : PrintWorkingDir s = some ("/" ++ Join names) := by
  unfold PrintWorkingDir
  rw [pwdLoop_of_chain h _ _ (Nat.le_trans (h.chain_length_le wf) (Nat.le_of_lt wf.cwd_lt))]
  simp

/-! ## Frames of the primitive state changes -/

theorem Extends.ext_refl (s : VirtualFS) : Extends s s :=
  ⟨rfl, Nat.le_refl _, fun _ _ => ⟨rfl, rfl, rfl⟩⟩

theorem Extends.ext_trans {s t u : VirtualFS} (h1 : Extends s t) (h2 : Extends t u) :
    Extends s u := by
  refine ⟨h2.1.trans h1.1, Nat.le_trans h1.2.1 h2.2.1, ?_⟩
  intro i hi
  obtain ⟨a1, a2, a3⟩ := h1.2.2 i hi
  obtain ⟨b1, b2, b3⟩ := h2.2.2 i (Nat.lt_of_lt_of_le hi h1.2.1)
  exact ⟨b1.trans a1, b2.trans a2, b3.trans a3⟩

theorem Extends.ext_link (s : VirtualFS) (parent : Nat) (name : String) (d : Bool)
    (ev : FileSystemEvent) : Extends s (s.link parent name d ev) := by
  refine ⟨by simp, by simp, ?_⟩
  intro i hi
  obtain ⟨h1, h2, h3, _⟩ := link_node_fields s parent name d ev i hi
  exact ⟨h1, h2, h3⟩

theorem Extends.ext_record (s : VirtualFS) (ev : FileSystemEvent) : Extends s (s.record ev) :=
  ⟨by simp, by simp, fun i _ => by simp⟩

theorem Extends.ext_setCwd (s : VirtualFS) (c : Nat) : Extends s { s with Cwd := c } :=
  ⟨rfl, Nat.le_refl _, fun _ _ => ⟨rfl, rfl, rfl⟩⟩

theorem Extends.ext_setRestoring (s : VirtualFS) (b : Bool) :
    Extends s { s with IsRestoring := b } :=
  ⟨rfl, Nat.le_refl _, fun _ _ => ⟨rfl, rfl, rfl⟩⟩

theorem setContent_node (s : VirtualFS) (n : Nat) (c : String) (i : Nat) :
    (s.setNode n { s.node n with Content := c }).node i = s.node i ∨
    (i = n ∧ n < s.heap.length ∧
      (s.setNode n { s.node n with Content := c }).node i = { s.node i with Content := c }) := by
  by_cases h : i = n
  · subst h
    by_cases hl : i < s.heap.length
    · right; exact ⟨rfl, hl, node_setNode_self _ _ _ hl⟩
    · left; exact node_setNode_oor _ _ _ _ hl
  · left; exact node_setNode_ne _ _ _ _ h

theorem setContent_links (s : VirtualFS) (n : Nat) (c : String) (i : Nat) :
    ((s.setNode n { s.node n with Content := c }).node i).Name = (s.node i).Name ∧
    ((s.setNode n { s.node n with Content := c }).node i).Parent = (s.node i).Parent ∧
    ((s.setNode n { s.node n with Content := c }).node i).IsDir = (s.node i).IsDir ∧
    ((s.setNode n { s.node n with Content := c }).node i).Children = (s.node i).Children := by
  rcases setContent_node s n c i with h | ⟨_, _, h⟩ <;> rw [h] <;> exact ⟨rfl, rfl, rfl, rfl⟩

theorem Extends.ext_setContent (s : VirtualFS) (n : Nat) (c : String) :
    Extends s (s.setNode n { s.node n with Content := c }) := by
  refine ⟨rfl, by simp, ?_⟩
  intro i _
  obtain ⟨h1, h2, h3, _⟩ := setContent_links s n c i
  exact ⟨h1, h2, h3⟩

theorem unlink_node (s : VirtualFS) (parent : Nat) (k : String) (i : Nat) :
    (s.setNode parent
      { s.node parent with Children := mapDelete (s.node parent).Children k }).node i =
      s.node i ∨
    (i = parent ∧ parent < s.heap.length ∧
      (s.setNode parent
        { s.node parent with Children := mapDelete (s.node parent).Children k }).node i =
        { s.node i with Children := mapDelete (s.node i).Children k }) := by
  by_cases h : i = parent
  · subst h
    by_cases hl : i < s.heap.length
    · right; exact ⟨rfl, hl, node_setNode_self _ _ _ hl⟩
    · left; exact node_setNode_oor _ _ _ _ hl
  · left; exact node_setNode_ne _ _ _ _ h

theorem Extends.ext_unlink (s : VirtualFS) (parent : Nat) (k : String) :
    Extends s (s.setNode parent
      { s.node parent with Children := mapDelete (s.node parent).Children k }) := by
  refine ⟨rfl, by simp, ?_⟩
  intro i _
  rcases unlink_node s parent k i with h | ⟨_, _, h⟩ <;> rw [h] <;> exact ⟨rfl, rfl, rfl⟩

theorem KeepsChildren.keeps_link (s : VirtualFS) (parent : Nat) (name : String) (d : Bool)
    (ev : FileSystemEvent)
    (hnone : mapLookup (s.node parent).Children name = none) :
    KeepsChildren s (s.link parent name d ev) := by
  intro i k c hi h
  by_cases hip : i = parent
  · subst hip
    rw [link_children_parent _ _ _ _ _ hi, mapLookup_mapInsert]
    have : k ≠ name := by
      rintro rfl
      rw [hnone] at h
      cases h
    simp [this, h]
  · rw [link_children_other _ _ _ _ _ _ hi hip]
    exact h

/-! ## Resolution under a change of state -/

/-- Resolution reads only `Parent` and `Children`. -/
theorem resolveStep_congr {s t : VirtualFS} {node : Nat}
    (hp : (t.node node).Parent = (s.node node).Parent)
    (hc : (t.node node).Children = (s.node node).Children) (part : String) :
    resolveStep t node part = resolveStep s node part := by
  unfold resolveStep
  rw [hp, hc]

theorem resolveLoop_congr {s t : VirtualFS}
    (h : ∀ i, (t.node i).Parent = (s.node i).Parent ∧
      (t.node i).Children = (s.node i).Children) (parts : List String) :
    ∀ node, resolveLoop t node parts = resolveLoop s node parts := by
  induction parts with
  | nil => intro node; rfl
  | cons part rest ih =>
    intro node
    rw [resolveLoop, resolveLoop, resolveStep_congr (h node).1 (h node).2]
    cases resolveStep s node part with
    | error e => rfl
    | ok next => exact ih next

theorem resolvePath_congr {s t : VirtualFS} (hroot : t.Root = s.Root) (hcwd : t.Cwd = s.Cwd)
    (h : ∀ i, (t.node i).Parent = (s.node i).Parent ∧
      (t.node i).Children = (s.node i).Children) (path : String) :
    resolvePath t path = resolvePath s path := by
  unfold resolvePath
  simp only [hroot, hcwd, resolveLoop_congr h]

theorem resolveStep_skip (s : VirtualFS) (node : Nat) {part : String}
    (h : part = "" ∨ part = ".") : resolveStep s node part = .ok node := by
  simp [resolveStep, h]

theorem resolveStep_up (s : VirtualFS) (node : Nat) :
    resolveStep s node ".." =
      match (s.node node).Parent with
      | some p => .ok p
      | none => .ok node := by
  simp [resolveStep]

theorem resolveStep_name (s : VirtualFS) (node : Nat) {part : String}
    (h1 : part ≠ "") (h2 : part ≠ ".") (h3 : part ≠ "..") :
    resolveStep s node part =
      match mapLookup (s.node node).Children part with
      | none => .error (.pathNotFound part)
      | some child => .ok child := by
  simp [resolveStep, h1, h2, h3]

/-- A successful step stays successful, with the same result, when bindings are only
added. -/
theorem resolveStep_mono {s t : VirtualFS} (ext : Extends s t) (keep : KeepsChildren s t)
    {node n : Nat} {part : String} (hn : node < s.heap.length)
    (h : resolveStep s node part = .ok n) : resolveStep t node part = .ok n := by
  by_cases h1 : part = "" ∨ part = "."
  · rw [resolveStep_skip _ _ h1] at h ⊢; exact h
  · by_cases h2 : part = ".."
    · subst h2
      rw [resolveStep_up] at h ⊢
      rw [(ext.2.2 node hn).2.1]; exact h
    · simp only [not_or] at h1
      rw [resolveStep_name _ _ h1.1 h1.2 h2] at h ⊢
      cases hl : mapLookup (s.node node).Children part with
      | none => rw [hl] at h; cases h
      | some c =>
        rw [hl] at h
        rw [keep node part c hn hl]
        exact h

theorem resolveLoop_mono {s t : VirtualFS} (wf : WellFormed s) (ext : Extends s t)
    (keep : KeepsChildren s t) (parts : List String) :
    ∀ {node n : Nat}, node < s.heap.length → resolveLoop s node parts = .ok n →
      resolveLoop t node parts = .ok n := by
  induction parts with
  | nil => intro node n _ h; exact h
  | cons part rest ih =>
    intro node n hn h
    rw [resolveLoop] at h ⊢
    cases hs : resolveStep s node part with
    | error e => rw [hs] at h; cases h
    | ok next =>
      rw [hs] at h
      rw [resolveStep_mono ext keep hn hs]
      exact ih (resolveStep_lt wf hn hs) h

theorem resolvePath_mono {s t : VirtualFS} (wf : WellFormed s) (ext : Extends s t)
    (keep : KeepsChildren s t) (hcwd : t.Cwd = s.Cwd) {path : String} {n : Nat}
    (h : resolvePath s path = .ok n) : resolvePath t path = .ok n := by
  by_cases he : path = ""
  · subst he
    rw [resolvePath_empty] at h ⊢
    rw [hcwd]; exact h
  · cases hs : startsWithSlash path with
    | true =>
      rw [resolvePath_abs s hs] at h
      rw [resolvePath_abs t hs, ext.1]
      split
      · rename_i h1; simpa [h1] using h
      · rename_i h1
        simp only [h1, if_false] at h
        exact resolveLoop_mono wf ext keep _ wf.root_lt h
    | false =>
      rw [resolvePath_rel s he hs] at h
      rw [resolvePath_rel t he hs, hcwd]
      exact resolveLoop_mono wf ext keep _ wf.cwd_lt h

/-! ## `AbsolutePath` -/

theorem AbsolutePath_abs (s : VirtualFS) {p : String} (h : startsWithSlash p = true) :
    AbsolutePath s p = some (.ok p) := by
  simp [AbsolutePath, h]

theorem AbsolutePath_rel (s : VirtualFS) {p : String} (h : startsWithSlash p = false) :
    AbsolutePath s p =
      match PrintWorkingDir s with
      | none => none
      | some cwd =>
        if cwd = "/" then some (.ok ("/" ++ p)) else some (.ok (cwd ++ "/" ++ p)) := by
  simp [AbsolutePath, h]

theorem PrintWorkingDir_startsWithSlash {s : VirtualFS} {cwd : String}
    (h : PrintWorkingDir s = some cwd) : startsWithSlash cwd = true := by
  unfold PrintWorkingDir at h
  split at h
  · cases h
  · cases h
    exact startsWithSlash_slash_append _

theorem startsWithSlash_append {a : String} (h : startsWithSlash a = true) (b : String) :
    startsWithSlash (a ++ b) = true := by
  rw [eq_slash_append_of_startsWithSlash a h, String.append_assoc]
  exact startsWithSlash_slash_append _

theorem AbsolutePath_ne_error (s : VirtualFS) (p : String) (e : FSError) :
    AbsolutePath s p ≠ some (.error e) := by
  unfold AbsolutePath
  split
  · simp
  · split
    · simp
    · split <;> simp

theorem AbsolutePath_startsWithSlash {s : VirtualFS} {p abs : String}
    (h : AbsolutePath s p = some (.ok abs)) : startsWithSlash abs = true := by
  cases hp : startsWithSlash p with
  | true =>
    rw [AbsolutePath_abs s hp] at h
    cases h; exact hp
  | false =>
    rw [AbsolutePath_rel s hp] at h
    cases hc : PrintWorkingDir s with
    | none => rw [hc] at h; cases h
    | some cwd =>
      rw [hc] at h
      simp only at h
      split at h
      · cases h; exact startsWithSlash_slash_append _
      · cases h
        rw [String.append_assoc]
        exact startsWithSlash_append (PrintWorkingDir_startsWithSlash hc) _

/-! ## What a call returns, case by case -/

theorem Mkdir_ok {s t : VirtualFS} {p : String} (h : Mkdir s p = some (t, none)) :
    ∃ abs parent, AbsolutePath s p = some (.ok abs) ∧
      traverseToParent s abs = .ok (parent, baseNameOf abs) ∧
      mapLookup (s.node parent).Children (baseNameOf abs) = none ∧
      t = s.link parent (baseNameOf abs) true ⟨EventCreateDir, abs, ""⟩ := by
  unfold Mkdir at h
  cases ha : AbsolutePath s p with
  | none => rw [ha] at h; cases h
  | some r =>
    cases r with
    | error e => rw [ha] at h; cases h
    | ok abs =>
      rw [ha] at h
      simp only at h
      cases ht : traverseToParent s abs with
      | error e => rw [ht] at h; cases h
      | ok pn =>
        obtain ⟨parent, name⟩ := pn
        rw [ht] at h
        simp only at h
        obtain ⟨_, _, hname⟩ := traverseToParent_ok ht
        subst hname
        cases hl : mapLookup (s.node parent).Children (baseNameOf abs) with
        | some c => rw [hl] at h; simp at h
        | none =>
          rw [hl] at h
          simp at h
          exact ⟨abs, parent, rfl, ht, hl, h.symm⟩

theorem Mkdir_err {s t : VirtualFS} {p : String} {e : FSError}
    (h : Mkdir s p = some (t, some e)) : t = s := by
  unfold Mkdir at h
  cases ha : AbsolutePath s p with
  | none => rw [ha] at h; cases h
  | some r =>
    cases r with
    | error e => rw [ha] at h; cases h; rfl
    | ok abs =>
      rw [ha] at h
      simp only at h
      cases ht : traverseToParent s abs with
      | error e => rw [ht] at h; cases h; rfl
      | ok pn =>
        obtain ⟨parent, name⟩ := pn
        rw [ht] at h
        simp only at h
        split at h
        · cases h; rfl
        · cases h

theorem CreateFile_ok {s t : VirtualFS} {p : String} (h : CreateFile s p = some (t, none)) :
    ∃ abs parent, AbsolutePath s p = some (.ok abs) ∧
      traverseToParent s abs = .ok (parent, baseNameOf abs) ∧
      mapLookup (s.node parent).Children (baseNameOf abs) = none ∧
      t = s.link parent (baseNameOf abs) false ⟨EventCreateFile, abs, ""⟩ := by
  unfold CreateFile at h
  cases ha : AbsolutePath s p with
  | none => rw [ha] at h; cases h
  | some r =>
    cases r with
    | error e => rw [ha] at h; cases h
    | ok abs =>
      rw [ha] at h
      simp only at h
      cases ht : traverseToParent s abs with
      | error e => rw [ht] at h; cases h
      | ok pn =>
        obtain ⟨parent, name⟩ := pn
        rw [ht] at h
        simp only at h
        obtain ⟨_, _, hname⟩ := traverseToParent_ok ht
        subst hname
        cases hl : mapLookup (s.node parent).Children (baseNameOf abs) with
        | some c => rw [hl] at h; simp at h
        | none =>
          rw [hl] at h
          simp at h
          exact ⟨abs, parent, rfl, ht, hl, h.symm⟩

theorem CreateFile_err {s t : VirtualFS} {p : String} {e : FSError}
    (h : CreateFile s p = some (t, some e)) : t = s := by
  unfold CreateFile at h
  cases ha : AbsolutePath s p with
  | none => rw [ha] at h; cases h
  | some r =>
    cases r with
    | error e => rw [ha] at h; cases h; rfl
    | ok abs =>
      rw [ha] at h
      simp only at h
      cases ht : traverseToParent s abs with
      | error e => rw [ht] at h; cases h; rfl
      | ok pn =>
        obtain ⟨parent, name⟩ := pn
        rw [ht] at h
        simp only at h
        split at h
        · cases h; rfl
        · cases h

theorem Remove_ok {s t : VirtualFS} {p : String} (h : Remove s p = some (t, none)) :
    ∃ n parent, resolvePath s p = .ok n ∧ n ≠ s.Root ∧
      ¬ ((s.node n).IsDir = true ∧ (s.node n).Children.length > 0) ∧
      (s.node n).Parent = some parent ∧
      t = (s.setNode parent { s.node parent with
            Children := mapDelete (s.node parent).Children (s.node n).Name }).record
            ⟨EventDelete, p, ""⟩ := by
  unfold Remove at h
  cases hr : resolvePath s p with
  | error e => rw [hr] at h; cases h
  | ok n =>
    rw [hr] at h
    simp only at h
    by_cases hroot : n = s.Root
    · simp [hroot] at h
    · simp only [hroot, if_false] at h
      by_cases hne : (s.node n).IsDir = true ∧ (s.node n).Children.length > 0
      · simp [hne] at h
      · simp only [hne, if_false] at h
        cases hp : (s.node n).Parent with
        | none => rw [hp] at h; cases h
        | some parent =>
          rw [hp] at h
          simp at h
          exact ⟨n, parent, rfl, hroot, hne, hp, h.symm⟩

theorem Remove_err {s t : VirtualFS} {p : String} {e : FSError}
    (h : Remove s p = some (t, some e)) : t = s := by
  unfold Remove at h
  cases hr : resolvePath s p with
  | error e => rw [hr] at h; cases h; rfl
  | ok n =>
    rw [hr] at h
    simp only at h
    split at h
    · cases h; rfl
    · split at h
      · cases h; rfl
      · split at h
        · cases h
        · cases h

/-! ## The invariant of the reachable states -/

theorem GoodNode.good_root (s : VirtualFS) : GoodNode s s.Root :=
  ⟨[], Chain.root, by simp⟩

theorem GoodNode.good_step {s : VirtualFS} (wf : WellFormed s) {node n : Nat} {part : String}
    (hg : GoodNode s node) (hslash : '/' ∉ part.data)
    (h : resolveStep s node part = .ok n) : GoodNode s n := by
  by_cases h1 : part = "" ∨ part = "."
  · rw [resolveStep_skip _ _ h1] at h
    cases h; exact hg
  · by_cases h2 : part = ".."
    · subst h2
      rw [resolveStep_up] at h
      cases hp : (s.node node).Parent with
      | none => rw [hp] at h; cases h; exact hg
      | some q =>
        rw [hp] at h
        cases h
        obtain ⟨names, hc, hprop⟩ := hg
        cases hc with
        | root => rw [wf.root_parent] at hp; cases hp
        | step _ hp2 hc2 =>
          rw [hp] at hp2
          cases hp2
          exact ⟨_, hc2, fun k hk => hprop k (by simp [hk])⟩
    · simp only [not_or] at h1
      rw [resolveStep_name _ _ h1.1 h1.2 h2] at h
      cases hl : mapLookup (s.node node).Children part with
      | none => rw [hl] at h; cases h
      | some c =>
        rw [hl] at h
        cases h
        obtain ⟨_, hname, hpar, hroot⟩ := wf.wf_lookup hl
        obtain ⟨names, hc, hprop⟩ := hg
        refine ⟨names ++ [part], ?_, ?_⟩
        · have := Chain.step hroot hpar hc
          rw [hname] at this
          exact this
        · intro k hk
          simp only [List.mem_append, List.mem_singleton] at hk
          rcases hk with hk | rfl
          · exact hprop k hk
          · exact ⟨h1.1, h1.2, h2, hslash⟩

theorem GoodNode.good_loop {s : VirtualFS} (wf : WellFormed s) (parts : List String) :
    ∀ {node n : Nat}, GoodNode s node → (∀ part ∈ parts, '/' ∉ part.data) →
      resolveLoop s node parts = .ok n → GoodNode s n := by
  induction parts with
  | nil => intro node n hg _ h; simp [resolveLoop] at h; cases h; exact hg
  | cons part rest ih =>
    intro node n hg hs h
    rw [resolveLoop] at h
    cases hstep : resolveStep s node part with
    | error e => rw [hstep] at h; cases h
    | ok next =>
      rw [hstep] at h
      exact ih (hg.good_step wf (hs part (by simp)) hstep) (fun q hq => hs q (by simp [hq])) h

theorem GoodNode.good_of_resolvePath {s : VirtualFS} (inv : Inv s) {path : String} {n : Nat}
    (h : resolvePath s path = .ok n) : GoodNode s n := by
  by_cases he : path = ""
  · subst he
    rw [resolvePath_empty] at h
    cases h; exact inv.cwd_good
  · cases hs : startsWithSlash path with
    | true =>
      rw [resolvePath_abs s hs] at h
      split at h
      · cases h; exact GoodNode.good_root s
      · exact GoodNode.good_loop inv.wf _ (GoodNode.good_root s) (fun q hq => mem_Split_no_slash _ q hq) h
    | false =>
      rw [resolvePath_rel s he hs] at h
      exact GoodNode.good_loop inv.wf _ inv.cwd_good (fun q hq => mem_Split_no_slash _ q hq) h

theorem Inv.inv_of_extends {s t : VirtualFS} (inv : Inv s) (wf : WellFormed t) (ext : Extends s t)
    (hcwd : t.Cwd = s.Cwd) : Inv t := by
  refine ⟨wf, ?_, ?_⟩
  · rw [hcwd, (ext.2.2 _ inv.wf.cwd_lt).2.2]; exact inv.cwd_dir
  · rw [hcwd]; exact inv.cwd_good.good_transfer ext

theorem Inv.inv_fresh : Inv NewVirtualFS := by
  refine ⟨⟨by decide, by decide, by decide, ?_, ?_, ?_, ?_, ?_⟩, by decide, GoodNode.good_root _⟩
  all_goals
    intro i
    have hlen : NewVirtualFS.heap.length = 1 := rfl
    rw [hlen]
  · intro p hi; have : i = 0 := by omega
    subst this; intro h; cases h
  · intro hi hne; have : i = 0 := by omega
    subst this; exact absurd rfl hne
  · intro k c hi; have : i = 0 := by omega
    subst this; intro h; simp [NewVirtualFS, VirtualFS.node] at h
  · intro hi; have : i = 0 := by omega
    subst this; simp [NewVirtualFS, VirtualFS.node]
  · intro hi; have : i = 0 := by omega
    subst this; intro h; simp [NewVirtualFS, VirtualFS.node] at h

theorem Inv.inv_link {s : VirtualFS} (inv : Inv s) {abs : String} {parent : Nat} {name : String}
    (ht : traverseToParent s abs = .ok (parent, name)) (d : Bool) (ev : FileSystemEvent) :
    Inv (s.link parent name d ev) := by
  obtain ⟨hr, hd, _⟩ := traverseToParent_ok ht
  exact inv.inv_of_extends (inv.wf.wf_link parent name d ev (resolvePath_lt inv.wf hr) hd)
    (Extends.ext_link s parent name d ev) (by simp)

theorem Inv.inv_record {s : VirtualFS} (inv : Inv s) (ev : FileSystemEvent) : Inv (s.record ev) :=
  inv.inv_of_extends (inv.wf.wf_record ev) (Extends.ext_record s ev) (by simp)

theorem Inv.inv_mkdir {s t : VirtualFS} {p : String} {e : Option FSError} (inv : Inv s)
    (h : Mkdir s p = some (t, e)) : Inv t := by
  cases e with
  | some e => rw [Mkdir_err h]; exact inv
  | none =>
    obtain ⟨abs, parent, _, ht, _, rfl⟩ := Mkdir_ok h
    exact inv.inv_link ht _ _

theorem Inv.inv_createFile {s t : VirtualFS} {p : String} {e : Option FSError} (inv : Inv s)
    (h : CreateFile s p = some (t, e)) : Inv t := by
  cases e with
  | some e => rw [CreateFile_err h]; exact inv
  | none =>
    obtain ⟨abs, parent, _, ht, _, rfl⟩ := CreateFile_ok h
    exact inv.inv_link ht _ _

theorem Inv.inv_write {s : VirtualFS} (inv : Inv s) (p abs c : String) (n : Nat) :
    Inv (writeNode s p abs c n).1 := by
  unfold writeNode
  split
  · exact inv
  · exact (inv.inv_of_extends (inv.wf.wf_setContent n c) (Extends.ext_setContent s n c) rfl).inv_record _

theorem Inv.inv_writeFile {s t : VirtualFS} {p c : String} {e : Option FSError} (inv : Inv s)
    (h : WriteFile s p c = some (t, e)) : Inv t := by
  unfold WriteFile at h
  cases ha : AbsolutePath s p with
  | none => rw [ha] at h; cases h
  | some r =>
    cases r with
    | error e => rw [ha] at h; cases h; exact inv
    | ok abs =>
      rw [ha] at h
      simp only at h
      cases hr : resolvePath s abs with
      | ok n =>
        rw [hr] at h
        simp only [Option.some.injEq] at h
        have := inv.inv_write p abs c n
        rw [h] at this
        exact this
      | error err =>
        rw [hr] at h
        simp only at h
        cases hc : CreateFile s abs with
        | none => rw [hc] at h; cases h
        | some r1 =>
          obtain ⟨s1, e1⟩ := r1
          have inv1 : Inv s1 := inv.inv_createFile hc
          rw [hc] at h
          cases e1 with
          | some e1 => simp only at h; cases h; exact inv1
          | none =>
            simp only at h
            cases hr1 : resolvePath s1 abs with
            | error err1 => rw [hr1] at h; cases h; exact inv1
            | ok n =>
              rw [hr1] at h
              simp only [Option.some.injEq] at h
              have := inv1.inv_write p abs c n
              rw [h] at this
              exact this

theorem Inv.inv_remove {s t : VirtualFS} {p : String} {e : Option FSError} (inv : Inv s)
    (h : Remove s p = some (t, e)) : Inv t := by
  cases e with
  | some e => rw [Remove_err h]; exact inv
  | none =>
    obtain ⟨n, parent, _, _, _, _, rfl⟩ := Remove_ok h
    exact (inv.inv_of_extends (inv.wf.wf_unlink parent _) (Extends.ext_unlink s parent _) rfl).inv_record _

theorem Inv.inv_changeDir {s : VirtualFS} (inv : Inv s) (p : String) : Inv (ChangeDir s p).1 := by
  unfold ChangeDir
  cases hr : resolvePath s p with
  | error e => exact inv
  | ok n =>
    simp only
    cases hd : (s.node n).IsDir with
    | false => exact inv
    | true =>
      exact ⟨inv.wf.wf_setCwd n (resolvePath_lt inv.wf hr), hd,
        (GoodNode.good_of_resolvePath inv hr).good_transfer (Extends.ext_setCwd s n)⟩

theorem Inv.inv_setRestoring {s : VirtualFS} (inv : Inv s) (b : Bool) :
    Inv { s with IsRestoring := b } :=
  inv.inv_of_extends (inv.wf.wf_setRestoring b) (Extends.ext_setRestoring s b) rfl

theorem Inv.inv_replayStep {s t : VirtualFS} {ev : FileSystemEvent} {e : Option FSError}
    (inv : Inv s) (h : replayEvent s ev = some (t, e)) : Inv t := by
  unfold replayEvent at h
  split at h
  · exact inv.inv_createFile h
  · split at h
    · exact inv.inv_mkdir h
    · split at h
      · exact inv.inv_writeFile h
      · split at h
        · exact inv.inv_remove h
        · cases h; exact inv

theorem Inv.inv_replay (log : EventLog) : ∀ {s t : VirtualFS} {e : Option FSError}, Inv s →
    Replay log s = some (t, e) → Inv t := by
  induction log with
  | nil => intro s t e inv h; simp [Replay] at h; rw [← h.1]; exact inv
  | cons ev rest ih =>
    intro s t e inv h
    rw [Replay] at h
    cases hr : replayEvent s ev with
    | none => rw [hr] at h; cases h
    | some r =>
      obtain ⟨s1, e1⟩ := r
      have inv1 := inv.inv_replayStep hr
      rw [hr] at h
      cases e1 with
      | some err => simp only at h; cases h; exact inv1
      | none => exact ih inv1 h

theorem Reachable.reach_inv {s : VirtualFS} (h : Reachable s) : Inv s := by
  induction h with
  | fresh => exact Inv.inv_fresh
  | mkdir _ h ih => exact ih.inv_mkdir h
  | createFile _ h ih => exact ih.inv_createFile h
  | writeFile _ h ih => exact ih.inv_writeFile h
  | remove _ h ih => exact ih.inv_remove h
  | changeDir p _ ih => exact ih.inv_changeDir p
  | replay _ h ih => exact ih.inv_replay _ h
  | restoring b _ ih => exact ih.inv_setRestoring b

/-! ## Nodes in the tree, and the absolute path of the working directory -/

theorem Located.loc_chain {s : VirtualFS} (wf : WellFormed s) {names : List String} {n : Nat}
    (h : Located s names n) : Chain s n names := by
  induction h with
  | root => exact Chain.root
  | child _ hl ih =>
    obtain ⟨_, hname, hpar, hroot⟩ := wf.wf_lookup hl
    have := Chain.step hroot hpar ih
    rw [hname] at this
    exact this

theorem Located.loc_of_nil {s : VirtualFS} {n : Nat} (h : Located s [] n) : n = s.Root := by
  generalize hl : ([] : List String) = l at h
  cases h with
  | root => rfl
  | child _ _ => simp at hl

theorem Located.loc_lt {s : VirtualFS} (wf : WellFormed s) {names : List String} {n : Nat}
    (h : Located s names n) : n < s.heap.length := by
  cases h with
  | root => exact wf.root_lt
  | child _ hl => exact (wf.wf_lookup hl).1

theorem Located.loc_resolveLoop {s : VirtualFS} {names : List String} {n : Nat}
    (h : Located s names n) : (∀ k ∈ names, ProperName k) → ∀ rest : List String,
      resolveLoop s s.Root (names ++ rest) = resolveLoop s n rest := by
  induction h with
  | root => intro _ rest; rfl
  | @child p c k names _ hl ih =>
    intro hprop rest
    rw [List.append_assoc, ih (fun q hq => hprop q (by simp [hq]))]
    obtain ⟨h1, h2, h3, _⟩ := hprop k (by simp)
    simp only [List.singleton_append]
    rw [Fraktal.resolveLoop, resolveStep_name _ _ h1 h2 h3, hl]

theorem resolveLoop_setCwd (s : VirtualFS) (c : Nat) (parts : List String) (node : Nat) :
    resolveLoop { s with Cwd := c } node parts = resolveLoop s node parts :=
  @resolveLoop_congr s { s with Cwd := c } (fun _ => ⟨rfl, rfl⟩) parts node

/-- An absolute path resolves the same way whatever the working directory is. -/
theorem resolvePath_abs_setCwd (s : VirtualFS) (c : Nat) {path : String}
    (h : startsWithSlash path = true) :
    resolvePath { s with Cwd := c } path = resolvePath s path := by
  rw [resolvePath_abs _ h, resolvePath_abs _ h, resolveLoop_setCwd]

theorem resolveLoop_empty_seg (s : VirtualFS) (node : Nat) :
    resolveLoop s node [""] = .ok node := by
  simp [resolveLoop, resolveStep_skip _ _ (Or.inl rfl)]

theorem Split_empty : Split "" = [""] := by decide

theorem InTree.inTree_names {s : VirtualFS} (inv : Inv s) (hin : InTree s s.Cwd) :
    ∃ names, Located s names s.Cwd ∧ Chain s s.Cwd names ∧ (∀ k ∈ names, ProperName k) ∧
      PrintWorkingDir s = some ("/" ++ Join names) := by
  obtain ⟨names, hloc⟩ := hin
  have hc := hloc.loc_chain inv.wf
  obtain ⟨names1, hc1, hprop⟩ := inv.cwd_good
  have := hc.chain_unique hc1
  subst this
  exact ⟨names, hloc, hc, hprop, PrintWorkingDir_of_chain inv.wf hc⟩

/-- The absolute path of a relative `p`, when the working directory is located at `names`. -/
theorem AbsolutePath_of_names {s : VirtualFS} {names : List String}
    (hprop : ∀ k ∈ names, ProperName k)
    (hpwd : PrintWorkingDir s = some ("/" ++ Join names)) {p : String}
    (hp : startsWithSlash p = false) :
    AbsolutePath s p = some (.ok ("/" ++ (if names = [] then p else Join names ++ "/" ++ p))) := by
  rw [AbsolutePath_rel s hp, hpwd]
  simp only
  cases names with
  | nil => simp [Join]
  | cons a rest =>
    have hne : Join (a :: rest) ≠ "" := Join_ne_empty a rest (hprop a (by simp)).1
    have : "/" ++ Join (a :: rest) ≠ "/" := by
      intro h
      apply hne
      rw [String_eq_iff] at h ⊢
      simpa [String.data_append, data_slash] using h
    simp only [this, if_false, String.append_assoc]
    simp

/-- While the working directory is in the tree, the absolute form of a path resolves to what
the path itself resolves to, from every working directory. -/
theorem resolvePath_AbsolutePath {s : VirtualFS} (inv : Inv s) (hin : InTree s s.Cwd)
    (p : String) :
    ∃ abs, AbsolutePath s p = some (.ok abs) ∧
      ∀ c, resolvePath { s with Cwd := c } abs = resolvePath s p := by
  cases hp : startsWithSlash p with
  | true => exact ⟨p, AbsolutePath_abs s hp, fun c => resolvePath_abs_setCwd s c hp⟩
  | false =>
    obtain ⟨names, hloc, _, hprop, hpwd⟩ := hin.inTree_names inv
    refine ⟨_, AbsolutePath_of_names hprop hpwd hp, fun c => ?_⟩
    rw [resolvePath_abs _ (startsWithSlash_slash_append _), trimLeadingSlash_slash_append,
      resolveLoop_setCwd]
    show (if _ then Except.ok s.Root else _) = _
    cases names with
    | nil =>
      have hroot : s.Cwd = s.Root := hloc.loc_of_nil
      simp only [if_true]
      by_cases he : p = ""
      · subst he
        rw [resolvePath_empty, hroot]; simp
      · rw [resolvePath_rel s he hp, hroot]; simp [he]
    | cons a rest =>
      simp only [List.cons_ne_nil, if_false]
      have hne : Join (a :: rest) ++ "/" ++ p ≠ "" := by
        rw [Ne, data_empty_iff]; simp [String.data_append, data_slash]
      simp only [hne, if_false]
      rw [Split_append_slash, Split_Join _ (by simp) (fun k hk => (hprop k hk).2.2.2),
        hloc.loc_resolveLoop hprop]
      by_cases he : p = ""
      · subst he
        rw [resolvePath_empty, Split_empty, resolveLoop_empty_seg]
      · rw [resolvePath_rel s he hp]

/-! ## Reachability of the example states -/

theorem Reachable.reach_run {s t : VirtualFS} {c : Call} {e : Option FSError} (h : Reachable s)
    (hc : c.run s = some (t, e)) : Reachable t := by
  cases c with
  | mkdir p => exact h.mkdir hc
  | createFile p => exact h.createFile hc
  | writeFile p c => exact h.writeFile hc
  | remove p => exact h.remove hc
  | changeDir p =>
    simp only [Call.run, Option.some.injEq] at hc
    have := h.changeDir p
    rw [hc] at this
    exact this

theorem Reachable.reach_runCalls (calls : List Call) : ∀ {s t : VirtualFS} {es : List (Option FSError)},
    Reachable s → runCalls calls s = some (t, es) → Reachable t := by
  induction calls with
  | nil => intro s t es h hc; simp [Fraktal.runCalls] at hc; rw [← hc.1]; exact h
  | cons c rest ih =>
    intro s t es h hc
    rw [Fraktal.runCalls] at hc
    cases h1 : c.run s with
    | none => rw [h1] at hc; cases hc
    | some r =>
      obtain ⟨s1, e⟩ := r
      rw [h1] at hc
      simp only at hc
      cases h2 : Fraktal.runCalls rest s1 with
      | none => rw [h2] at hc; cases hc
      | some r2 =>
        obtain ⟨s2, es2⟩ := r2
        rw [h2] at hc
        simp only [Option.some.injEq, Prod.mk.injEq] at hc
        rw [← hc.1]
        exact ih (h.reach_run h1) h2

theorem inFoo_trace :
    runCalls [.mkdir "foo", .changeDir "foo"] NewVirtualFS = some (inFoo, [none, none]) := by
  decide

theorem inFoo_reachable : Reachable inFoo :=
  Reachable.fresh.reach_runCalls _ inFoo_trace

theorem inFoo_inTree : InTree inFoo inFoo.Cwd :=
  ⟨["foo"], Located.child Located.root (by decide)⟩

theorem cwdRemoved_trace :
    runCalls [.mkdir "a", .changeDir "a", .remove "/a"] NewVirtualFS =
      some (cwdRemoved, [none, none, none]) := by
  decide

theorem cwdRemoved_reachable : Reachable cwdRemoved :=
  Reachable.fresh.reach_runCalls _ cwdRemoved_trace

theorem staleCwd_trace :
    runCalls [.mkdir "a", .mkdir "a/b", .changeDir "a/b", .remove "/a/b", .mkdir "/a/b",
      .mkdir "/a/b/c"] NewVirtualFS = some (staleCwd, [none, none, none, none, none, none]) := by
  decide

theorem staleCwd_reachable : Reachable staleCwd :=
  Reachable.fresh.reach_runCalls _ staleCwd_trace

/-! ## The segments of an absolute path -/

theorem Split_mk_slash_cons (r : List Char) :
    Split (String.mk ('/' :: r)) = "" :: Split (String.mk r) := by
  simp [Split, splitSlash]

theorem Split_mk_append_slash (r : List Char) :
    Split (String.mk (r ++ ['/'])) = Split (String.mk r) ++ [""] := by
  simp [Split, splitSlash_append_slash, splitSlash]

theorem exists_data_of_startsWithSlash {abs : String} (h : startsWithSlash abs = true) :
    ∃ r, abs = String.mk ('/' :: r) := by
  refine ⟨(trimLeadingSlash abs).data, ?_⟩
  have := eq_slash_append_of_startsWithSlash abs h
  rw [String_eq_iff] at this ⊢
  simpa [String.data_append, data_slash] using this

/-- The segments of an absolute path other than "/": the segments `init` of the parent path,
then the final element name, then possibly the empty segment left by a trailing "/". -/
theorem path_split {abs : String} (habs : startsWithSlash abs = true) (hne : abs ≠ "/") :
    ∃ (init tail : List String),
      (∀ k ∈ init, '/' ∉ k.data) ∧
      (tail = [baseNameOf abs] ∨ tail = [baseNameOf abs, ""]) ∧
      Split (trimLeadingSlash abs) = init ++ tail ∧
      trimLeadingSlash abs ≠ "" ∧
      parentPathOf abs = Join ("" :: init) := by
  obtain ⟨r, rfl⟩ := exists_data_of_startsWithSlash habs
  have hr : r ≠ [] := by
    rintro rfl
    exact hne rfl
  have htl : trimLeadingSlash (String.mk ('/' :: r)) = String.mk r := by
    simp [trimLeadingSlash]
  have htl_ne : String.mk r ≠ "" := by
    rw [Ne, data_empty_iff]; exact hr
  -- the segments `Q` of the trimmed path, and how the two splits relate to them
  have key : ∃ Q : List String, Q ≠ [] ∧ (∀ k ∈ Q, '/' ∉ k.data) ∧
      Split (trimTrailingSlash (String.mk ('/' :: r))) = "" :: Q ∧
      (Split (String.mk r) = Q ∨ Split (String.mk r) = Q ++ [""]) := by
    by_cases hl : ('/' :: r).getLast? = some '/'
    · obtain ⟨ys, hys⟩ := List.getLast?_eq_some_iff.mp hl
      cases ys with
      | nil => simp at hys; exact absurd hys hr
      | cons y r0 =>
        simp only [List.cons_append, List.cons.injEq] at hys
        obtain ⟨rfl, rfl⟩ := hys
        refine ⟨Split (String.mk r0), Split_ne_nil _, fun k hk => mem_Split_no_slash _ k hk,
          ?_, Or.inr (Split_mk_append_slash r0)⟩
        have : trimTrailingSlash (String.mk ('/' :: (r0 ++ ['/']))) = String.mk ('/' :: r0) := by
          unfold trimTrailingSlash
          simp only [hl, if_true]
          rw [← List.cons_append, List.dropLast_concat]
        rw [this, Split_mk_slash_cons]
    · refine ⟨Split (String.mk r), Split_ne_nil _, fun k hk => mem_Split_no_slash _ k hk,
        ?_, Or.inl rfl⟩
      have : trimTrailingSlash (String.mk ('/' :: r)) = String.mk ('/' :: r) := by
        unfold trimTrailingSlash
        simp only [hl, if_false]
      rw [this, Split_mk_slash_cons]
  obtain ⟨Q, hQ, hfree, hsplit, hrest⟩ := key
  obtain ⟨init, nm, rfl⟩ : ∃ init nm, Q = init ++ [nm] := by
    rcases List.eq_nil_or_concat Q with h | ⟨L, b, h⟩
    · exact absurd h hQ
    · exact ⟨L, b, by simpa using h⟩
  have hbase : baseNameOf (String.mk ('/' :: r)) = nm := by
    unfold baseNameOf
    rw [hsplit, ← List.cons_append, List.getLastD_concat]
  have hparent : parentPathOf (String.mk ('/' :: r)) = Join ("" :: init) := by
    unfold parentPathOf
    rw [hsplit, ← List.cons_append, List.dropLast_concat]
  refine ⟨init, if Split (String.mk r) = init ++ [nm] then [nm] else [nm, ""],
    fun k hk => hfree k (by simp [hk]), ?_, ?_, ?_, hparent⟩
  · rw [hbase]; split
    · exact Or.inl rfl
    · exact Or.inr rfl
  · rw [htl]
    split
    · assumption
    · rename_i hn
      rcases hrest with h | h
      · exact absurd h hn
      · rw [h]; simp
  · rw [htl]; exact htl_ne

theorem resolveLoop_append (s : VirtualFS) (l1 l2 : List String) :
    ∀ node, resolveLoop s node (l1 ++ l2) =
      match resolveLoop s node l1 with
      | .error e => .error e
      | .ok m => resolveLoop s m l2 := by
  induction l1 with
  | nil => intro node; rfl
  | cons a rest ih =>
    intro node
    simp only [List.cons_append, resolveLoop]
    cases resolveStep s node a with
    | error e => rfl
    | ok next => exact ih next

/-- How `traverseToParent` resolves the parent path `Join ("" :: init)`: an empty `init` is the
empty path, which is the working directory; otherwise the walk starts at the root. -/
theorem resolvePath_parentPath (s : VirtualFS) (init : List String)
    (hfree : ∀ k ∈ init, '/' ∉ k.data) :
    resolvePath s (Join ("" :: init)) =
      if init = [] then .ok s.Cwd else resolveLoop s s.Root init := by
  cases init with
  | nil => simp [Join, resolvePath_empty]
  | cons b rest =>
    simp only [List.cons_ne_nil, if_false]
    have hj : Join ("" :: b :: rest) = "/" ++ Join (b :: rest) := by
      rw [Join, String_eq_iff]; simp [String.data_append]
    rw [hj, resolvePath_abs s (startsWithSlash_slash_append _), trimLeadingSlash_slash_append]
    have hs := Split_Join (b :: rest) (by simp) hfree
    split
    · rename_i he
      rw [he, Split_empty] at hs
      rw [← hs, resolveLoop_empty_seg]
    · rw [hs]

/-! ## Termination of `PrintWorkingDir`, and states with the same parent chains -/

theorem WellFormed.wf_chain_exists {s : VirtualFS} (wf : WellFormed s) :
    ∀ n, n < s.heap.length → ∃ names, Chain s n names := by
  intro n
  induction n using Nat.strong_induction_on with
  | _ n ih =>
    intro hn
    by_cases hroot : n = s.Root
    · subst hroot; exact ⟨[], Chain.root⟩
    · cases hp : (s.node n).Parent with
      | none => exact absurd hp (wf.parent_some n hn hroot)
      | some p =>
        have hlt := wf.parent_lt n p hn hp
        obtain ⟨names, hc⟩ := ih p hlt (Nat.lt_trans hlt hn)
        exact ⟨_, Chain.step hroot hp hc⟩

/-- In a well-formed state the walk of `PrintWorkingDir` terminates within its fuel. -/
theorem PrintWorkingDir_some {s : VirtualFS} (wf : WellFormed s) :
    ∃ names, Chain s s.Cwd names ∧ PrintWorkingDir s = some ("/" ++ Join names) := by
  obtain ⟨names, hc⟩ := wf.wf_chain_exists s.Cwd wf.cwd_lt
  exact ⟨names, hc, PrintWorkingDir_of_chain wf hc⟩

theorem PrintWorkingDir_transfer {s t : VirtualFS} (wf : WellFormed s) (wft : WellFormed t)
    (ext : Extends s t) (hcwd : t.Cwd = s.Cwd) : PrintWorkingDir t = PrintWorkingDir s := by
  obtain ⟨names, hc, hp⟩ := PrintWorkingDir_some wf
  have hct : Chain t t.Cwd names := by rw [hcwd]; exact hc.chain_transfer ext
  rw [hp, PrintWorkingDir_of_chain wft hct]

theorem AbsolutePath_transfer {s t : VirtualFS} (wf : WellFormed s) (wft : WellFormed t)
    (ext : Extends s t) (hcwd : t.Cwd = s.Cwd) (p : String) :
    AbsolutePath t p = AbsolutePath s p := by
  unfold AbsolutePath
  rw [PrintWorkingDir_transfer wf wft ext hcwd]

/-- In a well-formed state `AbsolutePath` returns, and returns no error. -/
theorem AbsolutePath_some {s : VirtualFS} (wf : WellFormed s) (p : String) :
    ∃ abs, AbsolutePath s p = some (.ok abs) := by
  cases hp : startsWithSlash p with
  | true => exact ⟨p, AbsolutePath_abs s hp⟩
  | false =>
    obtain ⟨names, _, hpwd⟩ := PrintWorkingDir_some wf
    rw [AbsolutePath_rel s hp, hpwd]
    simp only
    split
    · exact ⟨_, rfl⟩
    · exact ⟨_, rfl⟩

/-! ## Nodes in the tree under a change of state -/

theorem Located.loc_transfer {s t : VirtualFS} (hroot : t.Root = s.Root)
    (keep : KeepsChildren s t) {names : List String} {n : Nat} (h : Located s names n) :
    Located t names n := by
  induction h with
  | root => rw [← hroot]; exact Located.root
  | child _ hl ih => exact Located.child ih (keep _ _ _ (lt_of_lookup_some hl) hl)

theorem InTree.inTree_link {s : VirtualFS} {n : Nat} (h : InTree s n) (parent : Nat)
    (name : String) (d : Bool) (ev : FileSystemEvent)
    (hnone : mapLookup (s.node parent).Children name = none) :
    InTree (s.link parent name d ev) n := by
  obtain ⟨names, hl⟩ := h
  exact ⟨names, hl.loc_transfer (by simp) (KeepsChildren.keeps_link s parent name d ev hnone)⟩

theorem KeepsChildren.keeps_of_eq {s t : VirtualFS}
    (h : ∀ i, (t.node i).Children = (s.node i).Children) : KeepsChildren s t := by
  intro i k c _ hl
  rw [h i]; exact hl

theorem InTree.inTree_write {s : VirtualFS} {n : Nat} (h : InTree s n) (p abs c : String)
    (m : Nat) : InTree (writeNode s p abs c m).1 n := by
  unfold writeNode
  split
  · exact h
  · obtain ⟨names, hl⟩ := h
    refine ⟨names, hl.loc_transfer (by simp) (KeepsChildren.keeps_of_eq ?_)⟩
    intro i
    simp only [record_node]
    exact (setContent_links s m c i).2.2.2

/-! ## Resolving an absolute path through its parent -/

theorem resolveLoop_tail (t : VirtualFS) (parent : Nat) (name : String) (tail : List String)
    (htail : tail = [name] ∨ tail = [name, ""]) :
    resolveLoop t parent tail = resolveStep t parent name := by
  rcases htail with rfl | rfl
  · rw [resolveLoop]
    cases resolveStep t parent name <;> rfl
  · rw [resolveLoop]
    cases resolveStep t parent name with
    | error e => rfl
    | ok c => exact resolveLoop_empty_seg t c

/-- If the parent path of the absolute path `abs` resolves to `parent` in `s`, and that parent
path is not the empty one unless the working directory is the root, then in every state `t`
in which the walk to `parent` is the same, `abs` resolves to what its final element name
resolves to from `parent`. -/
theorem resolvePath_through_parent {s : VirtualFS} {abs : String} {parent : Nat}
    (habs : startsWithSlash abs = true) (hne : abs ≠ "/")
    (hp : resolvePath s (parentPathOf abs) = .ok parent)
    (hslip : parentPathOf abs ≠ "" ∨ s.Cwd = s.Root) :
    ∃ init, resolveLoop s s.Root init = .ok parent ∧
      ∀ t : VirtualFS, t.Root = s.Root → resolveLoop t s.Root init = .ok parent →
        resolvePath t abs = resolveStep t parent (baseNameOf abs) := by
  obtain ⟨init, tail, hfree, htail, hsplit, hrest, hparent⟩ := path_split habs hne
  rw [hparent, resolvePath_parentPath s init hfree] at hp
  have hinit : resolveLoop s s.Root init = .ok parent := by
    by_cases hi : init = []
    · subst hi
      simp only [if_true] at hp
      have hcwd : s.Cwd = s.Root := by
        rcases hslip with h | h
        · exact absurd (by rw [hparent]; rfl) h
        · exact h
      rw [hcwd] at hp
      exact hp
    · simpa [hi] using hp
  refine ⟨init, hinit, fun t hroot ht => ?_⟩
  rw [resolvePath_abs t habs]
  simp only [hrest, if_false]
  rw [hsplit, resolveLoop_append, hroot, ht]
  exact resolveLoop_tail t parent _ tail htail

/-- After `link`, the absolute path of the new node resolves to it. -/
theorem resolvePath_link {s : VirtualFS} (wf : WellFormed s) {abs : String} {parent : Nat}
    (habs : startsWithSlash abs = true)
    (ht : traverseToParent s abs = .ok (parent, baseNameOf abs))
    (hnone : mapLookup (s.node parent).Children (baseNameOf abs) = none)
    (h1 : baseNameOf abs ≠ "") (h2 : baseNameOf abs ≠ ".") (h3 : baseNameOf abs ≠ "..")
    (hslip : parentPathOf abs ≠ "" ∨ s.Cwd = s.Root) (d : Bool) (ev : FileSystemEvent) :
    resolvePath (s.link parent (baseNameOf abs) d ev) abs = .ok s.heap.length := by
  obtain ⟨hp, _, _⟩ := traverseToParent_ok ht
  have hne : abs ≠ "/" := by
    rintro rfl
    exact h1 (by decide)
  obtain ⟨init, hinit, hres⟩ := resolvePath_through_parent habs hne hp hslip
  have hplt := resolvePath_lt wf hp
  rw [hres _ (by simp)
    (resolveLoop_mono wf (Extends.ext_link s parent _ d ev)
      (KeepsChildren.keeps_link s parent _ d ev hnone) init wf.root_lt hinit),
    resolveStep_name _ _ h1 h2 h3, link_children_parent _ _ _ _ _ hplt, mapLookup_mapInsert]
  simp

/-! ## Creating a path that has just been created -/

/-- Right after `link` put `baseNameOf abs` under `parent`, both creation calls on the same
path find the name taken. -/
theorem create_again {s : VirtualFS} (wf : WellFormed s) {p abs : String} {parent : Nat}
    (ha : AbsolutePath s p = some (.ok abs))
    (ht : traverseToParent s abs = .ok (parent, baseNameOf abs))
    (hnone : mapLookup (s.node parent).Children (baseNameOf abs) = none)
    (d : Bool) (ev : FileSystemEvent) :
    Mkdir (s.link parent (baseNameOf abs) d ev) p =
        some (s.link parent (baseNameOf abs) d ev, some (.dirOrFileExists (baseNameOf abs))) ∧
      CreateFile (s.link parent (baseNameOf abs) d ev) p =
        some (s.link parent (baseNameOf abs) d ev, some (.fileOrDirExists (baseNameOf abs))) := by
  obtain ⟨hp, hd, _⟩ := traverseToParent_ok ht
  have hplt := resolvePath_lt wf hp
  have ext := Extends.ext_link s parent (baseNameOf abs) d ev
  have wf1 := wf.wf_link parent (baseNameOf abs) d ev hplt hd
  have ha1 : AbsolutePath (s.link parent (baseNameOf abs) d ev) p = some (.ok abs) := by
    rw [AbsolutePath_transfer wf wf1 ext (by simp), ha]
  have hp1 : resolvePath (s.link parent (baseNameOf abs) d ev) (parentPathOf abs) =
      .ok parent :=
    resolvePath_mono wf ext (KeepsChildren.keeps_link s parent _ d ev hnone) (by simp) hp
  have hd1 : ((s.link parent (baseNameOf abs) d ev).node parent).IsDir = true := by
    rw [(ext.2.2 parent hplt).2.2]; exact hd
  have ht1 : traverseToParent (s.link parent (baseNameOf abs) d ev) abs =
      .ok (parent, baseNameOf abs) := by
    rw [traverseToParent_eq, hp1]
    simp [hd1]
  have hl : mapLookup ((s.link parent (baseNameOf abs) d ev).node parent).Children
      (baseNameOf abs) = some s.heap.length := by
    rw [link_children_parent _ _ _ _ _ hplt, mapLookup_mapInsert]
    simp
  constructor
  · simp [Mkdir, ha1, ht1, hl]
  · simp [CreateFile, ha1, ht1, hl]

/-! ## Relative paths while the working directory is in the tree -/

/-- For an absolute path, or while the working directory is in the tree, the absolute form
of `p` resolves to what `p` resolves to. -/
theorem resolvePath_eq_abs {s : VirtualFS} (inv : Inv s) {p abs : String}
    (hcwd : startsWithSlash p = true ∨ InTree s s.Cwd)
    (ha : AbsolutePath s p = some (.ok abs)) : resolvePath s abs = resolvePath s p := by
  rcases hcwd with hp | hin
  · rw [AbsolutePath_abs s hp] at ha
    cases ha; rfl
  · obtain ⟨abs1, ha1, hres⟩ := resolvePath_AbsolutePath inv hin p
    rw [ha] at ha1
    cases ha1
    exact hres s.Cwd

/-! ## Resolving a path that has just been created -/

/-- After `link`, the path `p` itself resolves to the new node. -/
theorem resolvePath_after_link {s : VirtualFS} (inv : Inv s) {p abs : String} {parent : Nat}
    (hcwd : startsWithSlash p = true ∨ InTree s s.Cwd)
    (ha : AbsolutePath s p = some (.ok abs))
    (ht : traverseToParent s abs = .ok (parent, baseNameOf abs))
    (hnone : mapLookup (s.node parent).Children (baseNameOf abs) = none)
    (h1 : baseNameOf abs ≠ "") (h2 : baseNameOf abs ≠ ".") (h3 : baseNameOf abs ≠ "..")
    (hslip : parentPathOf abs ≠ "" ∨ s.Cwd = s.Root) (d : Bool) (ev : FileSystemEvent) :
    resolvePath (s.link parent (baseNameOf abs) d ev) p = .ok s.heap.length := by
  obtain ⟨hp, hd, _⟩ := traverseToParent_ok ht
  have ext := Extends.ext_link s parent (baseNameOf abs) d ev
  have inv1 : Inv (s.link parent (baseNameOf abs) d ev) := inv.inv_link ht d ev
  have ha1 : AbsolutePath (s.link parent (baseNameOf abs) d ev) p = some (.ok abs) := by
    rw [AbsolutePath_transfer inv.wf inv1.wf ext (by simp), ha]
  have hcwd1 : startsWithSlash p = true ∨
      InTree (s.link parent (baseNameOf abs) d ev) (s.link parent (baseNameOf abs) d ev).Cwd := by
    rcases hcwd with h | h
    · exact Or.inl h
    · right
      rw [link_Cwd]
      exact h.inTree_link parent _ d ev hnone
  rw [← resolvePath_eq_abs inv1 hcwd1 ha1]
  exact resolvePath_link inv.wf (AbsolutePath_startsWithSlash ha) ht hnone h1 h2 h3 hslip d ev

/-! ## `WriteFile` followed by `ReadFile` -/

theorem writeNode_ok {s s1 : VirtualFS} {p abs c : String} {n : Nat}
    (h : writeNode s p abs c n = (s1, none)) :
    (s.node n).IsDir = false ∧
      s1 = (s.setNode n { s.node n with Content := c }).record ⟨EventWriteFile, abs, c⟩ := by
  unfold writeNode at h
  cases hd : (s.node n).IsDir with
  | true => rw [hd] at h; simp at h
  | false =>
    rw [hd] at h
    simp at h
    exact ⟨rfl, h.symm⟩

theorem writeNode_file {s : VirtualFS} (p abs c : String) {n : Nat}
    (hd : (s.node n).IsDir = false) :
    writeNode s p abs c n =
      ((s.setNode n { s.node n with Content := c }).record ⟨EventWriteFile, abs, c⟩, none) := by
  simp [writeNode, hd]

theorem readFile_after_writeNode {s s1 : VirtualFS} (wf : WellFormed s) {p p0 abs c : String}
    {n : Nat} (hres : resolvePath s p = .ok n) (h : writeNode s p0 abs c n = (s1, none)) :
    ReadFile s1 p = .ok c := by
  obtain ⟨hd, rfl⟩ := writeNode_ok h
  have hn := resolvePath_lt wf hres
  have hr1 : resolvePath ((s.setNode n { s.node n with Content := c }).record
      ⟨EventWriteFile, abs, c⟩) p = .ok n := by
    have hc := @resolvePath_congr s ((s.setNode n { s.node n with Content := c }).record
      ⟨EventWriteFile, abs, c⟩) (by simp) (by simp) (fun i => by
        simp only [record_node]
        exact ⟨(setContent_links s n c i).2.1, (setContent_links s n c i).2.2.2⟩) p
    rw [hc, hres]
  unfold ReadFile
  rw [hr1]
  simp only [record_node, node_setNode_self _ _ _ hn, hd]
  rfl

theorem WriteFile_ok {s s1 : VirtualFS} {p c : String} (h : WriteFile s p c = some (s1, none)) :
    ∃ abs, AbsolutePath s p = some (.ok abs) ∧
      ((∃ n, resolvePath s abs = .ok n ∧ writeNode s p abs c n = (s1, none)) ∨
        (∃ e s2 n, resolvePath s abs = .error e ∧ CreateFile s abs = some (s2, none) ∧
          resolvePath s2 abs = .ok n ∧ writeNode s2 p abs c n = (s1, none))) := by
  unfold WriteFile at h
  cases ha : AbsolutePath s p with
  | none => rw [ha] at h; cases h
  | some r =>
    cases r with
    | error e => rw [ha] at h; cases h
    | ok abs =>
      rw [ha] at h
      simp only at h
      refine ⟨abs, rfl, ?_⟩
      cases hr : resolvePath s abs with
      | ok n =>
        rw [hr] at h
        simp only [Option.some.injEq] at h
        exact Or.inl ⟨n, rfl, h⟩
      | error err =>
        rw [hr] at h
        simp only at h
        cases hc : CreateFile s abs with
        | none => rw [hc] at h; cases h
        | some r1 =>
          obtain ⟨s2, e1⟩ := r1
          rw [hc] at h
          cases e1 with
          | some e1 => simp only at h; cases h
          | none =>
            simp only at h
            cases hr1 : resolvePath s2 abs with
            | error err1 => rw [hr1] at h; cases h
            | ok n =>
              rw [hr1] at h
              simp only [Option.some.injEq] at h
              exact Or.inr ⟨err, s2, n, rfl, rfl, hr1, h⟩

/-- After a successful `WriteFile(p, c)`, `ReadFile(p)` returns `c`, for an absolute `p` or
while the working directory is in the tree. -/
theorem readFile_after_writeFile {s s1 : VirtualFS} (inv : Inv s) {p c : String}
    (hcwd : startsWithSlash p = true ∨ InTree s s.Cwd)
    (h : WriteFile s p c = some (s1, none)) : ReadFile s1 p = .ok c := by
  obtain ⟨abs, ha, hcase⟩ := WriteFile_ok h
  rcases hcase with ⟨n, hres, hw⟩ | ⟨e, s2, n, _, hc, hres, hw⟩
  · rw [resolvePath_eq_abs inv hcwd ha] at hres
    exact readFile_after_writeNode inv.wf hres hw
  · have inv2 : Inv s2 := inv.inv_createFile hc
    obtain ⟨abs2, parent, ha2, ht, hnone, rfl⟩ := CreateFile_ok hc
    have ha1 : AbsolutePath (s.link parent (baseNameOf abs2) false
        ⟨EventCreateFile, abs2, ""⟩) p = some (.ok abs) := by
      rw [AbsolutePath_transfer inv.wf inv2.wf (Extends.ext_link _ _ _ _ _) (by simp), ha]
    have hcwd1 : startsWithSlash p = true ∨
        InTree (s.link parent (baseNameOf abs2) false ⟨EventCreateFile, abs2, ""⟩)
          (s.link parent (baseNameOf abs2) false ⟨EventCreateFile, abs2, ""⟩).Cwd := by
      rcases hcwd with h | h
      · exact Or.inl h
      · right
        rw [link_Cwd]
        exact h.inTree_link parent _ _ _ hnone
    rw [resolvePath_eq_abs inv2 hcwd1 ha1] at hres
    exact readFile_after_writeNode inv2.wf hres hw

/-! ## `WriteFile` on a path that does not resolve -/

theorem resolveStep_error {s : VirtualFS} {node : Nat} {part : String} {e : FSError}
    (h : resolveStep s node part = .error e) :
    part ≠ "" ∧ part ≠ "." ∧ part ≠ ".." ∧
      mapLookup (s.node node).Children part = none := by
  by_cases h1 : part = "" ∨ part = "."
  · rw [resolveStep_skip _ _ h1] at h; cases h
  · by_cases h2 : part = ".."
    · subst h2
      rw [resolveStep_up] at h
      cases hp : (s.node node).Parent with
      | none => rw [hp] at h; cases h
      | some q => rw [hp] at h; cases h
    · simp only [not_or] at h1
      rw [resolveStep_name _ _ h1.1 h1.2 h2] at h
      cases hl : mapLookup (s.node node).Children part with
      | none => exact ⟨h1.1, h1.2, h2, rfl⟩
      | some c => rw [hl] at h; cases h

theorem withFoo_trace :
    runCalls [.mkdir "foo"] NewVirtualFS = some (withFoo, [none]) := by
  decide

theorem withFoo_reachable : Reachable withFoo :=
  Reachable.fresh.reach_runCalls _ withFoo_trace

theorem resolvePath_slash (s : VirtualFS) : resolvePath s "/" = .ok s.Root := by
  rw [resolvePath_abs s (by decide)]
  have : trimLeadingSlash "/" = "" := by decide
  simp [this]

/-! ## Walks through the tree, before and after an unlink -/

theorem InTree.inTree_root (s : VirtualFS) : InTree s s.Root := ⟨[], Located.root⟩

/-- A node in the tree other than the root is bound, under its own name, in the `Children`
map of its parent, and that parent is in the tree. -/
theorem InTree.inTree_parent {s : VirtualFS} (wf : WellFormed s) {n q : Nat}
    (h : InTree s n) (hq : (s.node n).Parent = some q) :
    InTree s q ∧ mapLookup (s.node q).Children (s.node n).Name = some n := by
  obtain ⟨names, hl⟩ := h
  cases hl with
  | root => rw [wf.root_parent] at hq; cases hq
  | @child p c k names hloc hlook =>
    obtain ⟨_, hname, hpar, _⟩ := wf.wf_lookup hlook
    rw [hpar] at hq
    cases hq
    rw [hname]
    exact ⟨⟨_, hloc⟩, hlook⟩

theorem InTree.inTree_step {s : VirtualFS} (wf : WellFormed s) {node next : Nat}
    {part : String} (h : InTree s node) (hs : resolveStep s node part = .ok next) :
    InTree s next := by
  by_cases h1 : part = "" ∨ part = "."
  · rw [resolveStep_skip _ _ h1] at hs
    cases hs; exact h
  · by_cases h2 : part = ".."
    · subst h2
      rw [resolveStep_up] at hs
      cases hp : (s.node node).Parent with
      | none => rw [hp] at hs; cases hs; exact h
      | some q =>
        rw [hp] at hs
        cases hs
        exact (h.inTree_parent wf hp).1
    · simp only [not_or] at h1
      rw [resolveStep_name _ _ h1.1 h1.2 h2] at hs
      cases hl : mapLookup (s.node node).Children part with
      | none => rw [hl] at hs; cases hs
      | some c =>
        rw [hl] at hs
        cases hs
        obtain ⟨names, hloc⟩ := h
        exact ⟨_, Located.child hloc hl⟩

theorem InTree.inTree_loop {s : VirtualFS} (wf : WellFormed s) (parts : List String) :
    ∀ {node n : Nat}, InTree s node → resolveLoop s node parts = .ok n → InTree s n := by
  induction parts with
  | nil => intro node n h hr; simp [resolveLoop] at hr; cases hr; exact h
  | cons part rest ih =>
    intro node n h hr
    rw [resolveLoop] at hr
    cases hs : resolveStep s node part with
    | error e => rw [hs] at hr; cases hr
    | ok next =>
      rw [hs] at hr
      exact ih (h.inTree_step wf hs) hr

/-- Once `n`, a node of the tree without children, has been unlinked from its parent, a walk
that used to end at `n` from another node of the tree fails at the segment that named `n`. -/
theorem resolveLoop_unlinked {s t : VirtualFS} (wf : WellFormed s) {n parent : Nat}
    (hn : InTree s n) (hleaf : (s.node n).Children = [])
    (hnp : (s.node n).Parent = some parent)
    (hpar : ∀ i, (t.node i).Parent = (s.node i).Parent)
    (hch : ∀ i, i ≠ parent → (t.node i).Children = (s.node i).Children)
    (hdel : (t.node parent).Children = mapDelete (s.node parent).Children (s.node n).Name)
    (parts : List String) :
    ∀ node, InTree s node → node ≠ n → resolveLoop s node parts = .ok n →
      ∃ part, resolveLoop t node parts = .error (.pathNotFound part) := by
  have hself := (hn.inTree_parent wf hnp).2
  induction parts with
  | nil =>
    intro node _ hne hr
    simp [resolveLoop] at hr
    exact absurd hr hne
  | cons part rest ih =>
    intro node hin hne hr
    rw [resolveLoop] at hr ⊢
    cases hs : resolveStep s node part with
    | error e => rw [hs] at hr; cases hr
    | ok next =>
      rw [hs] at hr
      simp only at hr
      by_cases h1 : part = "" ∨ part = "."
      · rw [resolveStep_skip _ _ h1] at hs ⊢
        cases hs
        exact ih node hin hne hr
      · by_cases h2 : part = ".."
        · subst h2
          rw [resolveStep_up] at hs ⊢
          rw [hpar node]
          cases hp : (s.node node).Parent with
          | none =>
            rw [hp] at hs
            cases hs
            exact ih node hin hne hr
          | some q =>
            rw [hp] at hs
            cases hs
            have hq := hin.inTree_parent wf hp
            refine ih next hq.1 ?_ hr
            rintro rfl
            rw [hleaf] at hq
            exact absurd hq.2 (by simp [mapLookup])
        · simp only [not_or] at h1
          rw [resolveStep_name _ _ h1.1 h1.2 h2] at hs ⊢
          cases hl : mapLookup (s.node node).Children part with
          | none => rw [hl] at hs; cases hs
          | some c =>
            rw [hl] at hs
            cases hs
            obtain ⟨_, hname, hcpar, _⟩ := wf.wf_lookup hl
            by_cases hc : next = n
            · subst hc
              rw [hnp] at hcpar
              cases hcpar
              rw [hdel, mapLookup_mapDelete, hname]
              exact ⟨part, by simp⟩
            · have hlt : mapLookup (t.node node).Children part = some next := by
                by_cases hnode : node = parent
                · subst hnode
                  rw [hdel, mapLookup_mapDelete]
                  have : part ≠ (s.node n).Name := by
                    intro he
                    rw [he, hself] at hl
                    cases hl
                    exact hc rfl
                  simp [this, hl]
                · rw [hch node hnode, hl]
              rw [hlt]
              exact ih next ⟨_, Located.child hin.choose_spec hl⟩ hc hr

theorem inFooBar_trace :
    runCalls [.mkdir "foo", .changeDir "foo", .mkdir "bar"] NewVirtualFS =
      some (inFooBar, [none, none, none]) := by
  decide

theorem inFooBar_reachable : Reachable inFooBar :=
  Reachable.fresh.reach_runCalls _ inFooBar_trace

theorem inFooBar_inTree : InTree inFooBar inFooBar.Cwd :=
  ⟨["foo"], Located.child Located.root (by decide)⟩

/-! ## Runs of `Remove` calls -/

theorem lt_of_mem_children {s : VirtualFS} {i : Nat} {kc : String × Nat}
    (h : kc ∈ (s.node i).Children) : i < s.heap.length := by
  by_contra hn
  rw [node_default_of_ge s i hn] at h
  exact absurd h (by simp [default])

/-- What a successful `Remove` does to the heap: the name of the resolved node leaves the
`Children` map of its parent, and nothing else changes. -/
theorem Remove_children {s t : VirtualFS} (wf : WellFormed s) {p : String} {n : Nat}
    (hres : resolvePath s p = .ok n) (h : Remove s p = some (t, none)) :
    WellFormed t ∧ t.Root = s.Root ∧ t.Cwd = s.Cwd ∧ n ≠ s.Root ∧
      (s.node n).Children = [] ∧
      ∃ parent, (s.node n).Parent = some parent ∧ parent < s.heap.length ∧
        (t.node parent).Children = mapDelete (s.node parent).Children (s.node n).Name ∧
        (∀ i, i ≠ parent → (t.node i).Children = (s.node i).Children) ∧
        (∀ i, (t.node i).Parent = (s.node i).Parent ∧ (t.node i).Name = (s.node i).Name ∧
          (t.node i).IsDir = (s.node i).IsDir ∧ (t.node i).Content = (s.node i).Content) := by
  obtain ⟨n1, parent, hres1, hroot, hempty, hnp, rfl⟩ := Remove_ok h
  rw [hres] at hres1
  cases hres1
  have hnlt := resolvePath_lt wf hres
  have hleaf : (s.node n).Children = [] := by
    cases hd : (s.node n).IsDir with
    | false => exact wf.file_leaf n hnlt hd
    | true =>
      have : ¬ (s.node n).Children.length > 0 := fun hl => hempty ⟨hd, hl⟩
      exact List.length_eq_zero.mp (by omega)
  have hplt : parent < s.heap.length := Nat.lt_trans (wf.parent_lt n parent hnlt hnp) hnlt
  refine ⟨(wf.wf_unlink parent _).wf_record _, by simp, by simp, hroot, hleaf, parent, hnp,
    hplt, ?_, ?_, ?_⟩
  · simp only [record_node]
    rw [node_setNode_self _ _ _ hplt]
  · intro i hi
    simp only [record_node]
    rw [node_setNode_ne _ _ _ _ hi]
  · intro i
    simp only [record_node]
    rcases unlink_node s parent (s.node n).Name i with h | ⟨_, _, h⟩ <;> rw [h] <;>
      exact ⟨rfl, rfl, rfl, rfl⟩

/-- `Remove` on a path that resolves to a node other than the root, with an empty `Children`
map, returns no error. -/
theorem Remove_leaf_succeeds {s : VirtualFS} (wf : WellFormed s) {p : String} {d : Nat}
    (hres : resolvePath s p = .ok d) (hroot : d ≠ s.Root)
    (hleaf : (s.node d).Children = []) : ∃ t, Remove s p = some (t, none) := by
  have hlt := resolvePath_lt wf hres
  cases hp : (s.node d).Parent with
  | none => exact absurd hp (wf.parent_some d hlt hroot)
  | some parent =>
    simp only [Remove, hres, hroot, if_false, hleaf, List.length_nil, gt_iff_lt,
      Nat.lt_irrefl, and_false, hp]
    exact ⟨_, rfl⟩

/-- After a run of successful `Remove` calls that resolved to every child of `d`, the
`Children` map of `d` is empty. -/
theorem removeAll_children (d : Nat) (paths : List String) :
    ∀ (s t : VirtualFS) (nodes : List Nat), WellFormed s →
      removeAll paths s = some (t, nodes) →
      (∀ kc ∈ (s.node d).Children, kc.2 ∈ nodes) →
      WellFormed t ∧ t.Root = s.Root ∧ (t.node d).Children = [] := by
  induction paths with
  | nil =>
    intro s t nodes wf h hall
    simp only [removeAll, Option.some.injEq, Prod.mk.injEq] at h
    obtain ⟨rfl, rfl⟩ := h
    refine ⟨wf, rfl, ?_⟩
    cases hc : (s.node d).Children with
    | nil => rfl
    | cons kc rest =>
      have := hall kc (by rw [hc]; simp)
      simp at this
  | cons q rest ih =>
    intro s t nodes wf h hall
    rw [removeAll] at h
    cases hres : resolvePath s q with
    | error e => rw [hres] at h; simp at h
    | ok n =>
      cases hrem : Remove s q with
      | none => rw [hres, hrem] at h; simp at h
      | some r =>
        obtain ⟨s1, e⟩ := r
        cases e with
        | some err => rw [hres, hrem] at h; simp at h
        | none =>
          rw [hres, hrem] at h
          simp only at h
          cases hrest : removeAll rest s1 with
          | none => rw [hrest] at h; cases h
          | some r2 =>
            obtain ⟨t2, ns⟩ := r2
            rw [hrest] at h
            simp only [Option.some.injEq, Prod.mk.injEq] at h
            obtain ⟨rfl, rfl⟩ := h
            obtain ⟨wf1, hroot1, _, _, _, parent, hnp, hplt, hdel, hother, _⟩ :=
              Remove_children wf hres hrem
            have hall1 : ∀ kc ∈ (s1.node d).Children, kc.2 ∈ ns := by
              intro kc hkc
              obtain ⟨k, c⟩ := kc
              by_cases hd : d = parent
              · subst hd
                rw [hdel] at hkc
                obtain ⟨hmem, hne⟩ := mem_mapDelete.mp hkc
                have hin := hall (k, c) hmem
                simp only [List.mem_cons] at hin
                rcases hin with hc | hc
                · exfalso
                  have hc : c = n := hc
                  subst hc
                  exact hne (wf.child_ok d k c hplt hmem).2.1.symm
                · exact hc
              · rw [hother d hd] at hkc
                have hin := hall (k, c) hkc
                simp only [List.mem_cons] at hin
                rcases hin with hc | hc
                · exfalso
                  have hc : c = n := hc
                  subst hc
                  have := (wf.child_ok d k c (lt_of_mem_children hkc) hkc).2.2
                  rw [hnp] at this
                  cases this
                  exact hd rfl
                · exact hc
            obtain ⟨wf2, hroot2, hempty⟩ := ih s1 t2 ns wf1 hrest hall1
            exact ⟨wf2, hroot2.trans hroot1, hempty⟩

theorem withTwoChildren_trace :
    runCalls [.mkdir "d", .mkdir "d/x", .createFile "d/y"] NewVirtualFS =
      some (withTwoChildren, [none, none, none]) := by
  decide

theorem withTwoChildren_reachable : Reachable withTwoChildren :=
  Reachable.fresh.reach_runCalls _ withTwoChildren_trace

/-! ## More on what a call returns -/

/-- A failed `ChangeDir` returns the state unchanged. -/
theorem ChangeDir_err {s t : VirtualFS} {p : String} {e : FSError}
    (h : ChangeDir s p = (t, some e)) : t = s := by
  unfold ChangeDir at h
  cases hr : resolvePath s p with
  | error err => rw [hr] at h; cases h; rfl
  | ok n =>
    rw [hr] at h
    simp only at h
    split at h
    · cases h; rfl
    · cases h

/-- Every `WriteFile` call is one of: nothing; the write on the resolved node; the implicit
`CreateFile` alone; the implicit `CreateFile` followed by the write. -/
theorem WriteFile_cases {s t : VirtualFS} {p c : String} {e : Option FSError}
    (h : WriteFile s p c = some (t, e)) :
    t = s ∨ (∃ abs n, t = (writeNode s p abs c n).1) ∨
      ∃ abs s1 e1, CreateFile s abs = some (s1, e1) ∧
        (t = s1 ∨ ∃ n, t = (writeNode s1 p abs c n).1) := by
  unfold WriteFile at h
  cases ha : AbsolutePath s p with
  | none => rw [ha] at h; cases h
  | some r =>
    cases r with
    | error err => rw [ha] at h; cases h; exact Or.inl rfl
    | ok abs =>
      rw [ha] at h
      simp only at h
      cases hr : resolvePath s abs with
      | ok n =>
        rw [hr] at h
        simp only [Option.some.injEq] at h
        exact Or.inr (Or.inl ⟨abs, n, by rw [h]⟩)
      | error err =>
        rw [hr] at h
        simp only at h
        cases hc : CreateFile s abs with
        | none => rw [hc] at h; cases h
        | some r1 =>
          obtain ⟨s1, e1⟩ := r1
          rw [hc] at h
          refine Or.inr (Or.inr ⟨abs, s1, e1, hc, ?_⟩)
          cases e1 with
          | some e1 => simp only at h; cases h; exact Or.inl rfl
          | none =>
            simp only at h
            cases hr1 : resolvePath s1 abs with
            | error err1 => rw [hr1] at h; cases h; exact Or.inl rfl
            | ok n =>
              rw [hr1] at h
              simp only [Option.some.injEq] at h
              exact Or.inr ⟨n, by rw [h]⟩

/-! ## The frame of every operation -/

theorem Extends.ext_write (s : VirtualFS) (p abs c : String) (n : Nat) :
    Extends s (writeNode s p abs c n).1 := by
  unfold writeNode
  split
  · exact Extends.ext_refl s
  · exact (Extends.ext_setContent s n c).ext_trans (Extends.ext_record _ _)

theorem Extends.ext_mkdir {s t : VirtualFS} {p : String} {e : Option FSError}
    (h : Mkdir s p = some (t, e)) : Extends s t := by
  cases e with
  | some e => rw [Mkdir_err h]; exact Extends.ext_refl s
  | none =>
    obtain ⟨abs, parent, _, _, _, rfl⟩ := Mkdir_ok h
    exact Extends.ext_link _ _ _ _ _

theorem Extends.ext_createFile {s t : VirtualFS} {p : String} {e : Option FSError}
    (h : CreateFile s p = some (t, e)) : Extends s t := by
  cases e with
  | some e => rw [CreateFile_err h]; exact Extends.ext_refl s
  | none =>
    obtain ⟨abs, parent, _, _, _, rfl⟩ := CreateFile_ok h
    exact Extends.ext_link _ _ _ _ _

theorem Extends.ext_writeFile {s t : VirtualFS} {p c : String} {e : Option FSError}
    (h : WriteFile s p c = some (t, e)) : Extends s t := by
  rcases WriteFile_cases h with rfl | ⟨abs, n, rfl⟩ | ⟨abs, s1, e1, hc, rfl | ⟨n, rfl⟩⟩
  · exact Extends.ext_refl _
  · exact Extends.ext_write _ _ _ _ _
  · exact Extends.ext_createFile hc
  · exact (Extends.ext_createFile hc).ext_trans (Extends.ext_write _ _ _ _ _)

theorem Extends.ext_remove {s t : VirtualFS} {p : String} {e : Option FSError}
    (h : Remove s p = some (t, e)) : Extends s t := by
  cases e with
  | some e => rw [Remove_err h]; exact Extends.ext_refl s
  | none =>
    obtain ⟨n, parent, _, _, _, _, rfl⟩ := Remove_ok h
    exact (Extends.ext_unlink s parent _).ext_trans (Extends.ext_record _ _)

theorem Extends.ext_changeDir (s : VirtualFS) (p : String) : Extends s (ChangeDir s p).1 := by
  unfold ChangeDir
  cases resolvePath s p with
  | error e => exact Extends.ext_refl s
  | ok n =>
    simp only
    split
    · exact Extends.ext_refl s
    · exact Extends.ext_setCwd s n

theorem Extends.ext_run {s t : VirtualFS} {c : Call} {e : Option FSError}
    (h : c.run s = some (t, e)) : Extends s t := by
  cases c with
  | mkdir p => exact Extends.ext_mkdir h
  | createFile p => exact Extends.ext_createFile h
  | writeFile p c => exact Extends.ext_writeFile h
  | remove p => exact Extends.ext_remove h
  | changeDir p =>
    simp only [Call.run, Option.some.injEq] at h
    have := Extends.ext_changeDir s p
    rw [h] at this
    exact this

theorem Extends.ext_replayStep {s t : VirtualFS} {ev : FileSystemEvent} {e : Option FSError}
    (h : replayEvent s ev = some (t, e)) : Extends s t := by
  unfold replayEvent at h
  split at h
  · exact Extends.ext_createFile h
  · split at h
    · exact Extends.ext_mkdir h
    · split at h
      · exact Extends.ext_writeFile h
      · split at h
        · exact Extends.ext_remove h
        · cases h; exact Extends.ext_refl s

theorem Extends.ext_replay (log : EventLog) : ∀ {s t : VirtualFS} {e : Option FSError},
    Replay log s = some (t, e) → Extends s t := by
  induction log with
  | nil => intro s t e h; simp [Replay] at h; rw [← h.1]; exact Extends.ext_refl s
  | cons ev rest ih =>
    intro s t e h
    rw [Replay] at h
    cases hr : replayEvent s ev with
    | none => rw [hr] at h; cases h
    | some r =>
      obtain ⟨s1, e1⟩ := r
      have ext1 := Extends.ext_replayStep hr
      rw [hr] at h
      cases e1 with
      | some err => simp only at h; cases h; exact ext1
      | none => exact ext1.ext_trans (ih h)

/-- Every reachable state extends the fresh one: the root is still node 0 and still the
directory allocated by `NewVirtualFS`. -/
theorem Reachable.reach_extends {s : VirtualFS} (h : Reachable s) : Extends NewVirtualFS s := by
  induction h with
  | fresh => exact Extends.ext_refl _
  | mkdir _ h ih => exact ih.ext_trans (Extends.ext_mkdir h)
  | createFile _ h ih => exact ih.ext_trans (Extends.ext_createFile h)
  | writeFile _ h ih => exact ih.ext_trans (Extends.ext_writeFile h)
  | remove _ h ih => exact ih.ext_trans (Extends.ext_remove h)
  | changeDir p _ ih => exact ih.ext_trans (Extends.ext_changeDir _ p)
  | replay _ h ih => exact ih.ext_trans (Extends.ext_replay _ h)
  | restoring b _ ih => exact ih.ext_trans (Extends.ext_setRestoring _ b)

/-! ## The working directory stays in the tree unless it is removed -/

theorem InTree.inTree_of_eq {s t : VirtualFS} (hroot : t.Root = s.Root)
    (hch : ∀ i, (t.node i).Children = (s.node i).Children) {n : Nat} (h : InTree s n) :
    InTree t n := by
  obtain ⟨names, hl⟩ := h
  exact ⟨names, hl.loc_transfer hroot (KeepsChildren.keeps_of_eq hch)⟩

theorem InTree.inTree_resolvePath {s : VirtualFS} (wf : WellFormed s) (hcwd : InTree s s.Cwd)
    {p : String} {n : Nat} (h : resolvePath s p = .ok n) : InTree s n := by
  by_cases he : p = ""
  · subst he
    rw [resolvePath_empty] at h
    cases h; exact hcwd
  · cases hs : startsWithSlash p with
    | true =>
      rw [resolvePath_abs s hs] at h
      split at h
      · cases h; exact InTree.inTree_root s
      · exact (InTree.inTree_root s).inTree_loop wf _ h
    | false =>
      rw [resolvePath_rel s he hs] at h
      exact hcwd.inTree_loop wf _ h

/-- Unlinking a node of the tree that has no children leaves every other node of the tree
in the tree. -/
theorem Located.loc_unlink {s t : VirtualFS} (wf : WellFormed s) {n parent : Nat}
    (hn : InTree s n) (hleaf : (s.node n).Children = [])
    (hnp : (s.node n).Parent = some parent) (hroot : t.Root = s.Root)
    (hch : ∀ i, i ≠ parent → (t.node i).Children = (s.node i).Children)
    (hdel : (t.node parent).Children = mapDelete (s.node parent).Children (s.node n).Name)
    {names : List String} {m : Nat} (h : Located s names m) (hm : m ≠ n) :
    Located t names m := by
  have hself := (hn.inTree_parent wf hnp).2
  induction h with
  | root => rw [← hroot]; exact Located.root
  | @child p c k names hloc hl ih =>
    have hp : p ≠ n := by
      rintro rfl
      rw [hleaf] at hl
      simp [mapLookup] at hl
    refine Located.child (ih hp) ?_
    by_cases hpp : p = parent
    · subst hpp
      rw [hdel, mapLookup_mapDelete]
      have : k ≠ (s.node n).Name := by
        rintro rfl
        rw [hself] at hl
        cases hl
        exact hm rfl
      simp [this, hl]
    · rw [hch p hpp, hl]

theorem InTree.inTree_remove {s t : VirtualFS} (wf : WellFormed s) (hcwd : InTree s s.Cwd)
    {p : String} {e : Option FSError} (h : Remove s p = some (t, e))
    (hne : resolvePath s p ≠ .ok s.Cwd) : InTree t t.Cwd := by
  cases e with
  | some e => rw [Remove_err h]; exact hcwd
  | none =>
    obtain ⟨n, parent, hres, _, _, _, _⟩ := Remove_ok h
    obtain ⟨_, hroot, hc, _, hleaf, parent, hnp, _, hdel, hother, _⟩ :=
      Remove_children wf hres h
    have hn : InTree s n := InTree.inTree_resolvePath wf hcwd hres
    have hmn : s.Cwd ≠ n := by
      rintro heq
      exact hne (by rw [hres, heq])
    obtain ⟨names, hl⟩ := hcwd
    rw [hc]
    exact ⟨names, hl.loc_unlink wf hn hleaf hnp hroot hother hdel hmn⟩

theorem InTree.inTree_createFile {s t : VirtualFS} {n : Nat} (h : InTree s n) {p : String}
    {e : Option FSError} (hc : CreateFile s p = some (t, e)) : InTree t n := by
  cases e with
  | some e => rw [CreateFile_err hc]; exact h
  | none =>
    obtain ⟨abs, parent, _, _, hnone, rfl⟩ := CreateFile_ok hc
    exact h.inTree_link parent _ _ _ hnone

theorem InTree.inTree_mkdir {s t : VirtualFS} {n : Nat} (h : InTree s n) {p : String}
    {e : Option FSError} (hc : Mkdir s p = some (t, e)) : InTree t n := by
  cases e with
  | some e => rw [Mkdir_err hc]; exact h
  | none =>
    obtain ⟨abs, parent, _, _, hnone, rfl⟩ := Mkdir_ok hc
    exact h.inTree_link parent _ _ _ hnone

theorem InTree.inTree_writeFile {s t : VirtualFS} {n : Nat} (h : InTree s n) {p c : String}
    {e : Option FSError} (hw : WriteFile s p c = some (t, e)) : InTree t n := by
  rcases WriteFile_cases hw with rfl | ⟨abs, m, rfl⟩ | ⟨abs, s1, e1, hc, rfl | ⟨m, rfl⟩⟩
  · exact h
  · exact h.inTree_write _ _ _ _
  · exact h.inTree_createFile hc
  · exact (h.inTree_createFile hc).inTree_write _ _ _ _

theorem Cwd_writeNode (s : VirtualFS) (p abs c : String) (n : Nat) :
    (writeNode s p abs c n).1.Cwd = s.Cwd := by
  unfold writeNode
  split <;> simp

theorem Cwd_createFile {s t : VirtualFS} {p : String} {e : Option FSError}
    (h : CreateFile s p = some (t, e)) : t.Cwd = s.Cwd := by
  cases e with
  | some e => rw [CreateFile_err h]
  | none =>
    obtain ⟨abs, parent, _, _, _, rfl⟩ := CreateFile_ok h
    simp

theorem Cwd_mkdir {s t : VirtualFS} {p : String} {e : Option FSError}
    (h : Mkdir s p = some (t, e)) : t.Cwd = s.Cwd := by
  cases e with
  | some e => rw [Mkdir_err h]
  | none =>
    obtain ⟨abs, parent, _, _, _, rfl⟩ := Mkdir_ok h
    simp

theorem Cwd_writeFile {s t : VirtualFS} {p c : String} {e : Option FSError}
    (h : WriteFile s p c = some (t, e)) : t.Cwd = s.Cwd := by
  rcases WriteFile_cases h with rfl | ⟨abs, m, rfl⟩ | ⟨abs, s1, e1, hc, rfl | ⟨m, rfl⟩⟩
  · rfl
  · exact Cwd_writeNode _ _ _ _ _
  · exact Cwd_createFile hc
  · rw [Cwd_writeNode, Cwd_createFile hc]

theorem InTree.inTree_changeDir {s : VirtualFS} (wf : WellFormed s) (hcwd : InTree s s.Cwd)
    (p : String) : InTree (ChangeDir s p).1 (ChangeDir s p).1.Cwd := by
  unfold ChangeDir
  cases hr : resolvePath s p with
  | error e => exact hcwd
  | ok n =>
    simp only
    split
    · exact hcwd
    · exact @InTree.inTree_of_eq s { s with Cwd := n } rfl (fun _ => rfl) n
        (InTree.inTree_resolvePath wf hcwd hr)

/-- Every call keeps the working directory in the tree, except a `Remove` whose path
resolves to the working directory itself. -/
theorem InTree.inTree_run {s t : VirtualFS} (wf : WellFormed s) (hcwd : InTree s s.Cwd)
    {c : Call} {e : Option FSError} (h : c.run s = some (t, e))
    (hne : ∀ p, c = .remove p → resolvePath s p ≠ .ok s.Cwd) : InTree t t.Cwd := by
  cases c with
  | mkdir p => rw [Cwd_mkdir h]; exact hcwd.inTree_mkdir h
  | createFile p => rw [Cwd_createFile h]; exact hcwd.inTree_createFile h
  | writeFile p c => rw [Cwd_writeFile h]; exact hcwd.inTree_writeFile h
  | remove p => exact InTree.inTree_remove wf hcwd h (hne p rfl)
  | changeDir p =>
    simp only [Call.run, Option.some.injEq] at h
    have := InTree.inTree_changeDir wf hcwd p
    rw [h] at this
    exact this

/-- Every replayed event keeps the working directory in the tree, except a Delete event
whose path resolves to the working directory itself. -/
theorem InTree.inTree_replayStep {s t : VirtualFS} (wf : WellFormed s)
    (hcwd : InTree s s.Cwd) {ev : FileSystemEvent} {e : Option FSError}
    (h : replayEvent s ev = some (t, e))
    (hne : ev.EventType = EventDelete → resolvePath s ev.Path ≠ .ok s.Cwd) :
    InTree t t.Cwd := by
  unfold replayEvent at h
  split at h
  · rw [Cwd_createFile h]; exact hcwd.inTree_createFile h
  · split at h
    · rw [Cwd_mkdir h]; exact hcwd.inTree_mkdir h
    · split at h
      · rw [Cwd_writeFile h]; exact hcwd.inTree_writeFile h
      · split at h
        · rename_i hd
          exact InTree.inTree_remove wf hcwd h (hne hd)
        · cases h; exact hcwd

/-! ## `Replay` as a run of events -/

/-- A replay that succeeds on a first part of the log continues from the state it reached. -/
theorem Replay_append (done rest : EventLog) : ∀ {s sN : VirtualFS},
    Replay done s = some (sN, none) → Replay (done ++ rest) s = Replay rest sN := by
  induction done with
  | nil => intro s sN h; simp [Replay] at h; rw [h]; rfl
  | cons ev evs ih =>
    intro s sN h
    rw [Replay] at h
    rw [List.cons_append, Replay]
    cases hr : replayEvent s ev with
    | none => rw [hr] at h; cases h
    | some r =>
      obtain ⟨s1, e1⟩ := r
      rw [hr] at h
      cases e1 with
      | some err => simp only at h; cases h
      | none => exact ih h

/-- A replay that returns an error has applied the events before the failing one, and
returns what the call for the failing event returned. -/
theorem Replay_error (log : EventLog) : ∀ {s t : VirtualFS} {e : FSError},
    Replay log s = some (t, some e) →
    ∃ done ev rest sN, log = done ++ ev :: rest ∧ Replay done s = some (sN, none) ∧
      replayEvent sN ev = some (t, some e) := by
  induction log with
  | nil => intro s t e h; simp [Replay] at h
  | cons ev evs ih =>
    intro s t e h
    rw [Replay] at h
    cases hr : replayEvent s ev with
    | none => rw [hr] at h; cases h
    | some r =>
      obtain ⟨s1, e1⟩ := r
      rw [hr] at h
      cases e1 with
      | some err =>
        simp only [Option.some.injEq, Prod.mk.injEq] at h
        obtain ⟨rfl, h2⟩ := h
        cases h2
        exact ⟨[], ev, evs, s, rfl, rfl, hr⟩
      | none =>
        obtain ⟨done, ev1, rest, sN, hlog, hdone, hfail⟩ := ih h
        refine ⟨ev :: done, ev1, rest, sN, by rw [hlog]; rfl, ?_, hfail⟩
        rw [Replay, hr]
        exact hdone

/-! ## Calls under `IsRestoring` -/

@[simp] theorem restoring_node (t : VirtualFS) (L : EventLog) (i : Nat) :
    (t.restoring L).node i = t.node i := rfl

theorem pwdLoop_restoring (t : VirtualFS) (L : EventLog) (fuel : Nat) :
    ∀ (n : Option Nat) (acc : List String),
      pwdLoop (t.restoring L) fuel n acc = pwdLoop t fuel n acc := by
  induction fuel with
  | zero =>
    intro n acc
    cases n with
    | none => simp [pwdLoop]
    | some m => simp [pwdLoop, VirtualFS.restoring]
  | succ f ih =>
    intro n acc
    cases n with
    | none => simp [pwdLoop]
    | some m =>
      rw [pwdLoop, pwdLoop]
      simp only [restoring_node]
      rw [ih]
      rfl

theorem AbsolutePath_restoring (t : VirtualFS) (L : EventLog) (p : String) :
    AbsolutePath (t.restoring L) p = AbsolutePath t p := by
  unfold AbsolutePath PrintWorkingDir
  rw [pwdLoop_restoring]
  rfl

theorem resolvePath_restoring (t : VirtualFS) (L : EventLog) (p : String) :
    resolvePath (t.restoring L) p = resolvePath t p :=
  @resolvePath_congr t (t.restoring L) rfl rfl (fun _ => ⟨rfl, rfl⟩) p

theorem traverseToParent_restoring (t : VirtualFS) (L : EventLog) (p : String) :
    traverseToParent (t.restoring L) p = traverseToParent t p := by
  rw [traverseToParent_eq, traverseToParent_eq, resolvePath_restoring]
  rfl

theorem link_restoring (t : VirtualFS) (L : EventLog) (parent : Nat) (name : String)
    (d : Bool) (ev : FileSystemEvent) :
    (t.restoring L).link parent name d ev = (t.link parent name d ev).restoring L := by
  cases hr : t.IsRestoring <;>
    simp [VirtualFS.link, VirtualFS.restoring, VirtualFS.record, VirtualFS.alloc,
      VirtualFS.setNode, VirtualFS.node, hr]

theorem Mkdir_restoring (t : VirtualFS) (L : EventLog) (p : String) :
    Mkdir (t.restoring L) p = (Mkdir t p).map (fun r => (r.1.restoring L, r.2)) := by
  unfold Mkdir
  rw [AbsolutePath_restoring]
  cases AbsolutePath t p with
  | none => rfl
  | some r =>
    cases r with
    | error e => rfl
    | ok abs =>
      simp only [traverseToParent_restoring]
      cases traverseToParent t abs with
      | error e => rfl
      | ok pn =>
        obtain ⟨parent, name⟩ := pn
        simp only [restoring_node, link_restoring]
        split <;> rfl

theorem CreateFile_restoring (t : VirtualFS) (L : EventLog) (p : String) :
    CreateFile (t.restoring L) p = (CreateFile t p).map (fun r => (r.1.restoring L, r.2)) := by
  unfold CreateFile
  rw [AbsolutePath_restoring]
  cases AbsolutePath t p with
  | none => rfl
  | some r =>
    cases r with
    | error e => rfl
    | ok abs =>
      simp only [traverseToParent_restoring]
      cases traverseToParent t abs with
      | error e => rfl
      | ok pn =>
        obtain ⟨parent, name⟩ := pn
        simp only [restoring_node, link_restoring]
        split <;> rfl

theorem writeNode_restoring (t : VirtualFS) (L : EventLog) (p abs c : String) (n : Nat) :
    writeNode (t.restoring L) p abs c n =
      ((writeNode t p abs c n).1.restoring L, (writeNode t p abs c n).2) := by
  unfold writeNode
  simp only [restoring_node]
  split
  · rfl
  · cases hr : t.IsRestoring <;>
      simp [VirtualFS.restoring, VirtualFS.record, VirtualFS.setNode, VirtualFS.node, hr]

theorem WriteFile_restoring (t : VirtualFS) (L : EventLog) (p c : String) :
    WriteFile (t.restoring L) p c =
      (WriteFile t p c).map (fun r => (r.1.restoring L, r.2)) := by
  unfold WriteFile
  rw [AbsolutePath_restoring]
  cases AbsolutePath t p with
  | none => rfl
  | some r =>
    cases r with
    | error e => rfl
    | ok abs =>
      simp only [resolvePath_restoring, CreateFile_restoring]
      cases resolvePath t abs with
      | ok n => simp [writeNode_restoring]
      | error err =>
        simp only
        cases CreateFile t abs with
        | none => rfl
        | some r1 =>
          obtain ⟨s1, e1⟩ := r1
          cases e1 with
          | some e1 => rfl
          | none =>
            simp only [Option.map_some', resolvePath_restoring]
            cases resolvePath s1 abs with
            | error err1 => rfl
            | ok n => simp [writeNode_restoring]

theorem Remove_restoring (t : VirtualFS) (L : EventLog) (p : String) :
    Remove (t.restoring L) p = (Remove t p).map (fun r => (r.1.restoring L, r.2)) := by
  unfold Remove
  rw [resolvePath_restoring]
  cases resolvePath t p with
  | error e => rfl
  | ok n =>
    simp only [restoring_node]
    have hroot : (t.restoring L).Root = t.Root := rfl
    rw [hroot]
    split
    · rfl
    · split
      · rfl
      · cases (t.node n).Parent with
        | none => rfl
        | some parent =>
          cases hr : t.IsRestoring <;>
            simp [VirtualFS.restoring, VirtualFS.record, VirtualFS.setNode, VirtualFS.node, hr]

theorem restoring_self (s : VirtualFS) (h : s.IsRestoring = true) :
    ({ s with IsRestoring := false } : VirtualFS).restoring s.EventLog = s := by
  obtain ⟨heap, root, cwd, log, r⟩ := s
  simp only at h
  subst h
  rfl

/-! ## The paths recorded in the log -/

/-- With `IsRestoring` false, a successful `Mkdir` or `CreateFile` appends one event, which
carries the absolute path. -/
theorem create_logs_absolute {s t : VirtualFS} {p : String} (hrest : s.IsRestoring = false) :
    (Mkdir s p = some (t, none) → ∃ abs, AbsolutePath s p = some (.ok abs) ∧
      startsWithSlash abs = true ∧ t.EventLog = s.EventLog ++ [⟨EventCreateDir, abs, ""⟩]) ∧
    (CreateFile s p = some (t, none) → ∃ abs, AbsolutePath s p = some (.ok abs) ∧
      startsWithSlash abs = true ∧
      t.EventLog = s.EventLog ++ [⟨EventCreateFile, abs, ""⟩]) := by
  constructor
  · intro h
    obtain ⟨abs, parent, ha, _, _, rfl⟩ := Mkdir_ok h
    exact ⟨abs, ha, AbsolutePath_startsWithSlash ha, by simp [link_EventLog, hrest]⟩
  · intro h
    obtain ⟨abs, parent, ha, _, _, rfl⟩ := CreateFile_ok h
    exact ⟨abs, ha, AbsolutePath_startsWithSlash ha, by simp [link_EventLog, hrest]⟩

/-! ## `ChangeDir` into a child directory -/

theorem startsWithSlash_false_of_no_slash {n : String} (h : '/' ∉ n.data) :
    startsWithSlash n = false := by
  unfold startsWithSlash
  cases hd : n.data with
  | nil => rfl
  | cons c cs =>
    rw [hd] at h
    simp only [List.mem_cons, not_or] at h
    simp only [beq_eq_false_iff_ne, ne_eq]
    exact fun e => h.1 e.symm

/-- A proper name resolves, from the working directory, to the child bound under it. -/
theorem resolvePath_child {s : VirtualFS} {n : String} {d : Nat} (hname : ProperName n)
    (hchild : mapLookup (s.node s.Cwd).Children n = some d) : resolvePath s n = .ok d := by
  obtain ⟨h1, h2, h3, h4⟩ := hname
  rw [resolvePath_rel s h1 (startsWithSlash_false_of_no_slash h4), Split_of_no_slash n h4,
    resolveLoop, resolveStep_name _ _ h1 h2 h3, hchild]
  rfl

theorem ChangeDir_child {s : VirtualFS} {n : String} {d : Nat} (hname : ProperName n)
    (hchild : mapLookup (s.node s.Cwd).Children n = some d)
    (hdir : (s.node d).IsDir = true) : ChangeDir s n = ({ s with Cwd := d }, none) := by
  simp [ChangeDir, resolvePath_child hname hchild, hdir]

theorem Join_concat (names : List String) (n : String) :
    Join (names ++ [n]) = if names = [] then n else Join names ++ "/" ++ n := by
  induction names with
  | nil => simp [Join]
  | cons a rest ih =>
    simp only [List.cons_ne_nil, if_false]
    cases rest with
    | nil => simp [Join]
    | cons b rest =>
      simp only [List.cons_ne_nil, if_false, List.cons_append] at ih
      have e1 : Join (a :: b :: (rest ++ [n])) = a ++ "/" ++ Join (b :: (rest ++ [n])) := rfl
      have e2 : Join (a :: b :: rest) = a ++ "/" ++ Join (b :: rest) := rfl
      simp only [List.cons_append]
      rw [e1, ih, e2]
      simp [String.append_assoc]

/-- The path printed for a node located by proper names has no trailing "/", unless it is
the path "/" of the root. -/
theorem trimTrailingSlash_pwd (names : List String) (n : String) (hname : ProperName n) :
    trimTrailingSlash ("/" ++ Join (names ++ [n])) = "/" ++ Join (names ++ [n]) := by
  obtain ⟨h1, _, _, h4⟩ := hname
  have hne : n.data ≠ [] := fun h => h1 ((data_empty_iff n).mpr h)
  obtain ⟨front, last, hl⟩ : ∃ front last, n.data = front ++ [last] := by
    rcases List.eq_nil_or_concat n.data with h | ⟨L, b, h⟩
    · exact absurd h hne
    · exact ⟨L, b, by simpa using h⟩
  have hlast : last ≠ '/' := by
    rintro rfl
    exact h4 (by rw [hl]; simp)
  have hdata : ∃ pre, ("/" ++ Join (names ++ [n])).data = pre ++ [last] := by
    rw [Join_concat]
    split
    · exact ⟨'/' :: front, by simp [String.data_append, data_slash, hl]⟩
    · exact ⟨'/' :: ((Join names).data ++ '/' :: front), by
        simp [String.data_append, data_slash, hl]⟩
  obtain ⟨pre, hpre⟩ := hdata
  unfold trimTrailingSlash
  rw [hpre, List.getLast?_concat]
  have : ¬ (some last = some '/') := fun h => hlast (Option.some.inj h)
  simp only [this, if_false]

/-! ## Induction over the reachable states, by primitive state changes -/

/-- A property that holds in the fresh state and survives the primitive state changes the
operations are made of (linking a new node under the parent `traverseToParent` found,
writing a content, unlinking a name, recording an event, moving the working directory,
toggling `IsRestoring`) holds in every reachable state. -/
theorem Reachable.reach_induction {P : VirtualFS → Prop} (h0 : P NewVirtualFS)
    (hlink : ∀ (s : VirtualFS) (abs : String) (parent : Nat) (d : Bool) (ev : FileSystemEvent),
      Reachable s → P s → traverseToParent s abs = .ok (parent, baseNameOf abs) →
      P (s.link parent (baseNameOf abs) d ev))
    (hcontent : ∀ (s : VirtualFS) (n : Nat) (c : String), Reachable s → P s →
      P (s.setNode n { s.node n with Content := c }))
    (hunlink : ∀ (s : VirtualFS) (parent : Nat) (k : String), Reachable s → P s →
      P (s.setNode parent { s.node parent with
        Children := mapDelete (s.node parent).Children k }))
    (hrecord : ∀ (s : VirtualFS) (ev : FileSystemEvent), P s → P (s.record ev))
    (hcwd : ∀ (s : VirtualFS) (c : Nat), Reachable s → P s → P { s with Cwd := c })
    (hrest : ∀ (s : VirtualFS) (b : Bool), P s → P { s with IsRestoring := b }) :
    ∀ s, Reachable s → P s := by
  have hmk : ∀ {s t : VirtualFS} {p : String} {e : Option FSError}, Reachable s → P s →
      Mkdir s p = some (t, e) → P t := by
    intro s t p e hr hp h
    cases e with
    | some e => rw [Mkdir_err h]; exact hp
    | none =>
      obtain ⟨abs, parent, _, ht, _, rfl⟩ := Mkdir_ok h
      exact hlink s abs parent _ _ hr hp ht
  have hcf : ∀ {s t : VirtualFS} {p : String} {e : Option FSError}, Reachable s → P s →
      CreateFile s p = some (t, e) → P t := by
    intro s t p e hr hp h
    cases e with
    | some e => rw [CreateFile_err h]; exact hp
    | none =>
      obtain ⟨abs, parent, _, ht, _, rfl⟩ := CreateFile_ok h
      exact hlink s abs parent _ _ hr hp ht
  have hwn : ∀ (s : VirtualFS) (p abs c : String) (n : Nat), Reachable s → P s →
      P (writeNode s p abs c n).1 := by
    intro s p abs c n hr hp
    unfold writeNode
    split
    · exact hp
    · exact hrecord _ _ (hcontent s n c hr hp)
  have hwf : ∀ {s t : VirtualFS} {p c : String} {e : Option FSError}, Reachable s → P s →
      WriteFile s p c = some (t, e) → P t := by
    intro s t p c e hr hp h
    rcases WriteFile_cases h with rfl | ⟨abs, n, rfl⟩ | ⟨abs, s1, e1, hc, rfl | ⟨n, rfl⟩⟩
    · exact hp
    · exact hwn _ _ _ _ _ hr hp
    · exact hcf hr hp hc
    · exact hwn _ _ _ _ _ (hr.createFile hc) (hcf hr hp hc)
  have hrm : ∀ {s t : VirtualFS} {p : String} {e : Option FSError}, Reachable s → P s →
      Remove s p = some (t, e) → P t := by
    intro s t p e hr hp h
    cases e with
    | some e => rw [Remove_err h]; exact hp
    | none =>
      obtain ⟨n, parent, _, _, _, _, rfl⟩ := Remove_ok h
      exact hrecord _ _ (hunlink s parent _ hr hp)
  have hstep : ∀ {s t : VirtualFS} {ev : FileSystemEvent} {e : Option FSError},
      Reachable s → P s → replayEvent s ev = some (t, e) → Reachable t ∧ P t := by
    intro s t ev e hr hp h
    unfold replayEvent at h
    split at h
    · exact ⟨hr.createFile h, hcf hr hp h⟩
    · split at h
      · exact ⟨hr.mkdir h, hmk hr hp h⟩
      · split at h
        · exact ⟨hr.writeFile h, hwf hr hp h⟩
        · split at h
          · exact ⟨hr.remove h, hrm hr hp h⟩
          · cases h; exact ⟨hr, hp⟩
  have hreplay : ∀ (log : EventLog) {s t : VirtualFS} {e : Option FSError},
      Reachable s → P s → Replay log s = some (t, e) → P t := by
    intro log
    induction log with
    | nil => intro s t e _ hp h; simp [Replay] at h; rw [← h.1]; exact hp
    | cons ev rest ih =>
      intro s t e hr hp h
      rw [Replay] at h
      cases hre : replayEvent s ev with
      | none => rw [hre] at h; cases h
      | some r =>
        obtain ⟨s1, e1⟩ := r
        obtain ⟨hr1, hp1⟩ := hstep hr hp hre
        rw [hre] at h
        cases e1 with
        | some err => simp only at h; cases h; exact hp1
        | none => exact ih hr1 hp1 h
  intro s hr
  induction hr with
  | fresh => exact h0
  | mkdir hr h ih => exact hmk hr ih h
  | createFile hr h ih => exact hcf hr ih h
  | writeFile hr h ih => exact hwf hr ih h
  | remove hr h ih => exact hrm hr ih h
  | @changeDir s p hr ih =>
    unfold ChangeDir
    cases resolvePath s p with
    | error e => exact ih
    | ok n =>
      simp only
      split
      · exact ih
      · exact hcwd s n hr ih
  | replay hr h ih => exact hreplay _ hr ih h
  | restoring b _ ih => exact hrest _ b ih

/-! ## Node names contain no separator -/

theorem baseNameOf_no_slash (path : String) : '/' ∉ (baseNameOf path).data := by
  unfold baseNameOf
  rw [List.getLastD_eq_getLast?]
  cases h : (Split (trimTrailingSlash path)).getLast? with
  | none => simp
  | some k =>
    simp only [Option.getD_some]
    exact mem_Split_no_slash _ k (List.mem_of_getLast?_eq_some h)

/-- In every reachable state no node name contains "/". -/
theorem Reachable.reach_names_no_slash {s : VirtualFS} (hr : Reachable s) :
    ∀ i, '/' ∉ (s.node i).Name.data := by
  refine Reachable.reach_induction (P := fun s => ∀ i, '/' ∉ (s.node i).Name.data)
    ?_ ?_ ?_ ?_ ?_ ?_ ?_ s hr
  · intro i
    by_cases hi : i < NewVirtualFS.heap.length
    · have : i = 0 := by
        have : NewVirtualFS.heap.length = 1 := rfl
        omega
      subst this
      decide
    · rw [node_default_of_ge _ _ hi]
      simp [default]
  · intro s abs parent d ev hr hp ht i
    obtain ⟨hres, _, _⟩ := traverseToParent_ok ht
    have hplt := resolvePath_lt hr.reach_inv.wf hres
    rcases Nat.lt_trichotomy i s.heap.length with h | h | h
    · rw [(link_node_fields s parent _ d ev i h).1]; exact hp i
    · subst h
      rw [link_node_fresh _ _ _ _ _ hplt]
      exact baseNameOf_no_slash abs
    · rw [node_default_of_ge _ _ (by simp; omega)]
      simp [default]
  · intro s n c _ hp i
    rw [(setContent_links s n c i).1]; exact hp i
  · intro s parent k _ hp i
    rcases unlink_node s parent k i with h | ⟨_, _, h⟩ <;> rw [h] <;> exact hp i
  · intro s ev hp i
    rw [record_node]; exact hp i
  · intro s c _ hp i
    exact hp i
  · intro s b hp i
    exact hp i

/-! ## Calls that return an error -/

theorem writeNode_err {s t : VirtualFS} {p abs c : String} {n : Nat} {e : FSError}
    (h : writeNode s p abs c n = (t, some e)) : t = s := by
  unfold writeNode at h
  split at h
  · cases h; rfl
  · cases h

/-- A `WriteFile` that returns an error leaves the state as it was, unless the parent path
of the absolute form of its path is empty while the working directory is not the root. -/
theorem WriteFile_err {s t : VirtualFS} (wf : WellFormed s) {p c abs : String} {e : FSError}
    (ha : AbsolutePath s p = some (.ok abs))
    (hslip : parentPathOf abs ≠ "" ∨ s.Cwd = s.Root)
    (h : WriteFile s p c = some (t, some e)) : t = s := by
  have habs := AbsolutePath_startsWithSlash ha
  unfold WriteFile at h
  rw [ha] at h
  simp only at h
  cases hres : resolvePath s abs with
  | ok n =>
    rw [hres] at h
    simp only [Option.some.injEq] at h
    exact writeNode_err h
  | error e0 =>
    rw [hres] at h
    simp only at h
    cases hc : CreateFile s abs with
    | none => rw [hc] at h; cases h
    | some r =>
      obtain ⟨s1, e1⟩ := r
      rw [hc] at h
      cases e1 with
      | some err =>
        simp only [Option.some.injEq, Prod.mk.injEq] at h
        rw [← h.1]
        exact CreateFile_err hc
      | none =>
        exfalso
        obtain ⟨abs1, parent, ha1, ht, hnone, rfl⟩ := CreateFile_ok hc
        rw [AbsolutePath_abs s habs] at ha1
        cases ha1
        have hne : abs ≠ "/" := by
          rintro rfl
          rw [resolvePath_slash] at hres
          cases hres
        obtain ⟨hp, hd, _⟩ := traverseToParent_ok ht
        obtain ⟨init, hinit, hthrough⟩ := resolvePath_through_parent habs hne hp hslip
        have hstep : resolveStep s parent (baseNameOf abs) = .error e0 := by
          rw [← hthrough s rfl hinit]; exact hres
        obtain ⟨h1, h2, h3, _⟩ := resolveStep_error hstep
        have hplt := resolvePath_lt wf hp
        have hres2 := resolvePath_link wf habs ht hnone h1 h2 h3 hslip false
          ⟨EventCreateFile, abs, ""⟩
        have hfile : ((s.link parent (baseNameOf abs) false ⟨EventCreateFile, abs, ""⟩).node
            s.heap.length).IsDir = false := by
          rw [link_node_fresh _ _ _ _ _ hplt]
        simp only [hres2] at h
        rw [writeNode_file p abs c hfile] at h
        cases h

/-! ## The nodes `ListDir` returns -/

theorem withFiles_trace :
    runCalls [.createFile "file1.txt", .createFile "anotherfile.txt", .mkdir "folder1"]
      NewVirtualFS = some (withFiles, [none, none, none]) := by
  decide

theorem withFiles_reachable : Reachable withFiles :=
  Reachable.fresh.reach_runCalls _ withFiles_trace

theorem ListDir_ok {s : VirtualFS} {p : String} {d : Nat} (hres : resolvePath s p = .ok d)
    (hdir : (s.node d).IsDir = true) :
    ListDir s p = .ok ((s.node d).Children.map Prod.snd) := by
  simp [ListDir, hres, hdir]

/-- The nodes bound in the children map of an allocated node of a well-formed state are
pairwise distinct. -/
theorem WellFormed.wf_children_nodup {s : VirtualFS} (wf : WellFormed s) {d : Nat}
    (hd : d < s.heap.length) : ((s.node d).Children.map Prod.snd).Nodup := by
  have hkeys := wf.keys_nodup d hd
  have hname : (s.node d).Children.map Prod.fst =
      ((s.node d).Children.map Prod.snd).map (fun c => (s.node c).Name) := by
    rw [List.map_map]
    apply List.map_congr_left
    intro kc hkc
    exact ((wf.child_ok d kc.1 kc.2 hd hkc).2.1).symm
  rw [hname] at hkeys
  exact List.Nodup.of_map _ hkeys

theorem mem_children_iff {s : VirtualFS} (wf : WellFormed s) {d : Nat}
    (hd : d < s.heap.length) (c : Nat) :
    c ∈ (s.node d).Children.map Prod.snd ↔
      ∃ k, mapLookup (s.node d).Children k = some c := by
  constructor
  · intro h
    obtain ⟨kc, hkc, rfl⟩ := List.mem_map.mp h
    exact ⟨kc.1, mapLookup_of_mem (wf.keys_nodup d hd) hkc⟩
  · rintro ⟨k, hk⟩
    exact List.mem_map.mpr ⟨(k, c), mapLookup_mem hk, rfl⟩

/-! ## Paths made of empty, "." and ".." segments -/

theorem resolveStep_dots (s : VirtualFS) (node : Nat) {part : String}
    (h : part = "" ∨ part = "." ∨ part = "..") : ∃ n, resolveStep s node part = .ok n := by
  rcases h with h | h | h
  · exact ⟨node, resolveStep_skip s node (Or.inl h)⟩
  · exact ⟨node, resolveStep_skip s node (Or.inr h)⟩
  · subst h
    rw [resolveStep_up]
    cases (s.node node).Parent with
    | none => exact ⟨node, rfl⟩
    | some q => exact ⟨q, rfl⟩

theorem resolveLoop_dots (s : VirtualFS) (parts : List String) :
    (∀ seg ∈ parts, seg = "" ∨ seg = "." ∨ seg = "..") →
      ∀ node, ∃ n, resolveLoop s node parts = .ok n := by
  induction parts with
  | nil => intro _ node; exact ⟨node, rfl⟩
  | cons a rest ih =>
    intro h node
    obtain ⟨m, hm⟩ := resolveStep_dots s node (h a (by simp))
    obtain ⟨n, hn⟩ := ih (fun seg hseg => h seg (by simp [hseg])) m
    exact ⟨n, by simp [resolveLoop, hm, hn]⟩

theorem resolvePath_dots (s : VirtualFS) (p : String)
    (h : ∀ seg ∈ Split p, seg = "" ∨ seg = "." ∨ seg = "..") :
    ∃ n, resolvePath s p = .ok n := by
  by_cases he : p = ""
  · subst he; exact ⟨s.Cwd, resolvePath_empty s⟩
  · cases hs : startsWithSlash p with
    | false =>
      rw [resolvePath_rel s he hs]
      exact resolveLoop_dots s _ h s.Cwd
    | true =>
      rw [resolvePath_abs s hs]
      split
      · exact ⟨s.Root, rfl⟩
      · obtain ⟨r, hp⟩ := exists_data_of_startsWithSlash hs
        have htrim : trimLeadingSlash p = String.mk r := by
          subst hp; simp [trimLeadingSlash]
        rw [htrim]
        apply resolveLoop_dots
        intro seg hseg
        apply h
        rw [hp, Split_mk_slash_cons]
        simp [hseg]

/-- With ".." repeated at least as often as the parent chain of `d` is long, the loop of
`resolvePath` ends at the root. -/
theorem resolveLoop_up {s : VirtualFS} (hroot : (s.node s.Root).Parent = none) {d : Nat}
    {names : List String} (hc : Chain s d names) :
    ∀ k, names.length ≤ k → resolveLoop s d (List.replicate k "..") = .ok s.Root := by
  induction hc with
  | root =>
    intro k _
    induction k with
    | zero => rfl
    | succ k ih =>
      simp only [List.replicate_succ, resolveLoop, resolveStep_up, hroot]
      exact ih (Nat.zero_le k)
  | @step n q names hne hp _ ih =>
    intro k hk
    cases k with
    | zero => simp at hk
    | succ k =>
      simp only [List.length_append, List.length_singleton, Nat.add_le_add_iff_right] at hk
      simp only [List.replicate_succ, resolveLoop, resolveStep_up, hp]
      exact ih k hk

theorem Split_Join_up (k : Nat) :
    Split (Join (List.replicate (k + 1) "..")) = List.replicate (k + 1) ".." := by
  apply Split_Join
  · simp [List.replicate_succ]
  · intro seg hseg
    rw [List.eq_of_mem_replicate hseg]
    decide

theorem startsWithSlash_Join_up (k : Nat) :
    startsWithSlash (Join (List.replicate (k + 1) "..")) = false := by
  cases k with
  | zero => decide
  | succ k =>
    simp [List.replicate_succ, Join, startsWithSlash, String.data_append]

theorem Join_up_ne_empty (k : Nat) : Join (List.replicate (k + 1) "..") ≠ "" := by
  rw [List.replicate_succ]
  exact Join_ne_empty _ _ (by decide)

/-! ## The value of `PrintWorkingDir` at the root and elsewhere -/

theorem Chain.chain_nil {s : VirtualFS} {n : Nat} {names : List String}
    (h : Chain s n names) (hn : names = []) : n = s.Root := by
  cases h with
  | root => rfl
  | step _ _ _ => simp at hn

/-- In a reachable state `PrintWorkingDir` returns "/" exactly when the working directory is
the root. -/
theorem PrintWorkingDir_eq_slash_iff {s : VirtualFS} (inv : Inv s) {cwd : String}
    (h : PrintWorkingDir s = some cwd) : cwd = "/" ↔ s.Cwd = s.Root := by
  obtain ⟨names, hc, hgood⟩ := inv.cwd_good
  have hp := PrintWorkingDir_of_chain inv.wf hc
  rw [h] at hp
  cases hp
  constructor
  · intro hs
    cases names with
    | nil => exact hc.chain_nil rfl
    | cons a rest =>
      exfalso
      apply Join_ne_empty a rest (hgood a (by simp)).1
      rw [String_eq_iff] at hs ⊢
      simpa [String.data_append, data_slash] using hs
  · intro hroot
    rw [hroot] at hc
    rw [hc.chain_of_root]
    rfl

/-! ## The completer: fields, prefixes and the suggestion loop -/

theorem fieldsLoop_eq_nil_iff (cs cur : List Char) :
    fieldsLoop cs cur = [] ↔ cur = [] ∧ ∀ c ∈ cs, isSpace c = true := by
  induction cs generalizing cur with
  | nil =>
    by_cases h : cur = [] <;> simp [fieldsLoop, h]
  | cons c cs ih =>
    rw [fieldsLoop]
    by_cases hc : isSpace c = true
    · by_cases h : cur = []
      · simp [hc, h, ih]
      · simp [hc, h]
    · simp only [hc, if_false, Bool.false_eq_true]
      rw [ih]
      simp [hc]

/-- `Fields` returns no token exactly when every character of the string is white space. -/
theorem Fields_eq_nil_iff (s : String) :
    Fields s = [] ↔ ∀ c ∈ s.data, isSpace c = true := by
  simp [Fields, fieldsLoop_eq_nil_iff]

theorem fieldsLoop_mem (cs : List Char) :
    ∀ (cur : List Char) (t : String), (∀ c ∈ cur, isSpace c = false) →
      t ∈ fieldsLoop cs cur → t ≠ "" ∧ ∀ c ∈ t.data, isSpace c = false := by
  induction cs with
  | nil =>
    intro cur t hcur ht
    by_cases h : cur = []
    · simp [fieldsLoop, h] at ht
    · simp only [fieldsLoop, h, if_false, List.mem_singleton] at ht
      subst ht
      refine ⟨?_, ?_⟩
      · rw [Ne, data_empty_iff]
        simpa using h
      · intro c hc
        exact hcur c (by simpa using hc)
  | cons c cs ih =>
    intro cur t hcur ht
    rw [fieldsLoop] at ht
    by_cases hc : isSpace c = true
    · by_cases h : cur = []
      · simp only [hc, h, if_true] at ht
        exact ih [] t (by simp) ht
      · simp only [hc, h, if_true, if_false, List.mem_cons] at ht
        rcases ht with rfl | ht
        · refine ⟨?_, ?_⟩
          · rw [Ne, data_empty_iff]
            simpa using h
          · intro d hd
            exact hcur d (by simpa using hd)
        · exact ih [] t (by simp) ht
    · simp only [hc, if_false, Bool.false_eq_true] at ht
      refine ih (c :: cur) t ?_ ht
      intro d hd
      rcases List.mem_cons.mp hd with rfl | hd
      · simpa using hc
      · exact hcur d hd

/-- Every token `Fields` returns is non-empty and free of white space. -/
theorem mem_Fields (s t : String) (h : t ∈ Fields s) :
    t ≠ "" ∧ ∀ c ∈ t.data, isSpace c = false :=
  fieldsLoop_mem s.data [] t (by simp) h

/-- Where `pre` is a prefix of `name`, `pre` followed by the rest of `name` is `name`. -/
theorem HasPrefix_append_drop {name pre : String} (h : HasPrefix name pre = true) :
    pre ++ String.mk (name.data.drop pre.data.length) = name := by
  unfold HasPrefix at h
  rw [List.isPrefixOf_iff_prefix] at h
  obtain ⟨r, hr⟩ := h
  rw [String_eq_iff, String.data_append, ← hr]
  simp

theorem HasPrefix_append (pre rest : String) : HasPrefix (pre ++ rest) pre = true := by
  unfold HasPrefix
  rw [List.isPrefixOf_iff_prefix, String.data_append]
  exact List.prefix_append _ _

theorem suggestLoop_eq (pre : String) (names : List String) :
    ∀ acc, suggestLoop pre names acc =
      acc ++ (names.filter (fun name => HasPrefix name pre)).map
        (fun name => name.data.drop pre.data.length) := by
  induction names with
  | nil => intro acc; simp [suggestLoop]
  | cons a rest ih =>
    intro acc
    rw [suggestLoop]
    by_cases h : HasPrefix a pre = true
    · simp [h, ih]
    · simp [h, ih]

/-- Prepending `pre` to the suggestions the loop collects gives back, one for one, the names
that start with `pre`. -/
theorem suggestLoop_map (pre : String) (names : List String) :
    (suggestLoop pre names []).map (fun sug => pre ++ String.mk sug) =
      names.filter (fun name => HasPrefix name pre) := by
  rw [suggestLoop_eq, List.nil_append, List.map_map]
  conv_rhs => rw [← List.map_id (names.filter (fun name => HasPrefix name pre))]
  apply List.map_congr_left
  intro name hname
  have := (List.mem_filter.mp hname).2
  simp only [Function.comp, id]
  exact HasPrefix_append_drop this

theorem resolvePath_dot (s : VirtualFS) : resolvePath s "." = .ok s.Cwd := by
  rw [resolvePath_rel s (by decide) (by decide)]
  have : Split "." = ["."] := by decide
  rw [this]
  simp [resolveLoop, resolveStep_skip]

/-! ## The walk of `resolvePath`, before and after an unlink -/

theorem resolvePath_eq_walk (s : VirtualFS) (p : String) :
    resolvePath s p = resolveLoop s (walkStart s p) (walkParts p) := by
  unfold resolvePath walkStart walkParts
  by_cases he : p = ""
  · subst he
    have : startsWithSlash "" = false := by decide
    simp [this, resolveLoop]
  · simp only [he, if_false]
    split
    · split <;> simp [resolveLoop]
    · simp [he]

theorem inA_trace :
    runCalls [.mkdir "a", .changeDir "a"] NewVirtualFS = some (inA, [none, none]) := by
  decide

theorem inA_reachable : Reachable inA :=
  Reachable.fresh.reach_runCalls _ inA_trace

/-- A step of the walk is the same after the name of `n` has been deleted from the children
map of the parent of `n`, unless it is the lookup of that name in that map. -/
theorem resolveStep_unlinked {s t : VirtualFS} {n parent : Nat}
    (hnp : (s.node n).Parent = some parent)
    (hpar : ∀ i, (t.node i).Parent = (s.node i).Parent)
    (hch : ∀ i, i ≠ parent → (t.node i).Children = (s.node i).Children)
    (hdel : (t.node parent).Children = mapDelete (s.node parent).Children (s.node n).Name)
    (node : Nat) (part : String)
    (h : ¬ (part ≠ "" ∧ part ≠ "." ∧ part ≠ ".." ∧ (s.node n).Parent = some node ∧
      part = (s.node n).Name)) :
    resolveStep t node part = resolveStep s node part := by
  by_cases h1 : part = "" ∨ part = "."
  · rw [resolveStep_skip _ _ h1, resolveStep_skip _ _ h1]
  · by_cases h2 : part = ".."
    · subst h2
      rw [resolveStep_up, resolveStep_up, hpar]
    · simp only [not_or] at h1
      rw [resolveStep_name _ _ h1.1 h1.2 h2, resolveStep_name _ _ h1.1 h1.2 h2]
      by_cases hnode : node = parent
      · subst hnode
        rw [hdel, mapLookup_mapDelete]
        have : part ≠ (s.node n).Name := fun hp => h ⟨h1.1, h1.2, h2, hnp, hp⟩
        simp [this]
      · rw [hch node hnode]

/-- Where the walk looks up the name of `n` in the parent of `n`, it fails once that name has
been deleted there. -/
theorem resolveLoop_looksUp {s t : VirtualFS} {n parent : Nat}
    (hnp : (s.node n).Parent = some parent)
    (hpar : ∀ i, (t.node i).Parent = (s.node i).Parent)
    (hch : ∀ i, i ≠ parent → (t.node i).Children = (s.node i).Children)
    (hdel : (t.node parent).Children = mapDelete (s.node parent).Children (s.node n).Name)
    (parts : List String) :
    ∀ node, looksUpLoop s n node parts = true →
      ∃ part, resolveLoop t node parts = .error (.pathNotFound part) := by
  induction parts with
  | nil => intro node h; simp [looksUpLoop] at h
  | cons a rest ih =>
    intro node h
    rw [looksUpLoop] at h
    by_cases hc : a ≠ "" ∧ a ≠ "." ∧ a ≠ ".." ∧ (s.node n).Parent = some node ∧
        a = (s.node n).Name
    · obtain ⟨h1, h2, h3, hp, hname⟩ := hc
      have hnode : node = parent := by
        rw [hnp] at hp
        cases hp
        rfl
      subst hnode
      refine ⟨a, ?_⟩
      rw [resolveLoop, resolveStep_name _ _ h1 h2 h3, hdel, mapLookup_mapDelete]
      simp [hname]
    · rw [if_neg hc] at h
      rw [resolveLoop, resolveStep_unlinked hnp hpar hch hdel node a hc]
      cases hs : resolveStep s node a with
      | error e => rw [hs] at h; cases h
      | ok next =>
        rw [hs] at h
        exact ih next h

/-- Where the walk does not look up the name of `n` in the parent of `n`, it is the same once
that name has been deleted there. -/
theorem resolveLoop_not_looksUp {s t : VirtualFS} {n parent : Nat}
    (hnp : (s.node n).Parent = some parent)
    (hpar : ∀ i, (t.node i).Parent = (s.node i).Parent)
    (hch : ∀ i, i ≠ parent → (t.node i).Children = (s.node i).Children)
    (hdel : (t.node parent).Children = mapDelete (s.node parent).Children (s.node n).Name)
    (parts : List String) :
    ∀ node, looksUpLoop s n node parts = false →
      resolveLoop t node parts = resolveLoop s node parts := by
  induction parts with
  | nil => intro node _; rfl
  | cons a rest ih =>
    intro node h
    rw [looksUpLoop] at h
    by_cases hc : a ≠ "" ∧ a ≠ "." ∧ a ≠ ".." ∧ (s.node n).Parent = some node ∧
        a = (s.node n).Name
    · rw [if_pos hc] at h; cases h
    · rw [if_neg hc] at h
      rw [resolveLoop, resolveLoop, resolveStep_unlinked hnp hpar hch hdel node a hc]
      cases hs : resolveStep s node a with
      | error e => rfl
      | ok next =>
        rw [hs] at h
        exact ih next h

/-- The state a successful `Remove` returns, node by node: parent pointers are kept, and so
are the children maps, except that the name of the removed node is deleted from the map of
its parent; root and working directory are kept. -/
theorem Remove_frame {s s1 : VirtualFS} (wf : WellFormed s) {p : String} {n : Nat}
    (hres : resolvePath s p = .ok n) (h : Remove s p = some (s1, none)) :
    ∃ parent, (s.node n).Parent = some parent ∧ (s.node n).Children = [] ∧ n ≠ s.Root ∧
      s1.Root = s.Root ∧ s1.Cwd = s.Cwd ∧
      (∀ i, (s1.node i).Parent = (s.node i).Parent) ∧
      (∀ i, i ≠ parent → (s1.node i).Children = (s.node i).Children) ∧
      (s1.node parent).Children = mapDelete (s.node parent).Children (s.node n).Name := by
  obtain ⟨n1, parent, hres1, hroot, hempty, hnp, rfl⟩ := Remove_ok h
  rw [hres] at hres1
  cases hres1
  have hnlt := resolvePath_lt wf hres
  have hleaf : (s.node n).Children = [] := by
    cases hd : (s.node n).IsDir with
    | false => exact wf.file_leaf n hnlt hd
    | true =>
      have : ¬ (s.node n).Children.length > 0 := fun hl => hempty ⟨hd, hl⟩
      exact List.length_eq_zero.mp (by omega)
  have hplt : parent < s.heap.length := Nat.lt_trans (wf.parent_lt n parent hnlt hnp) hnlt
  refine ⟨parent, hnp, hleaf, hroot, by simp, by simp, ?_, ?_, ?_⟩
  · intro i
    simp only [record_node]
    rcases unlink_node s parent (s.node n).Name i with h | ⟨_, _, h⟩ <;> rw [h]
  · intro i hi
    simp only [record_node]
    rw [node_setNode_ne _ _ _ _ hi]
  · simp only [record_node]
    rw [node_setNode_self _ _ _ hplt]

/-- After a successful `Remove(p)`, the walk of an absolute `p`, and the walk of a `p` that
resolved to a node other than the working directory while the working directory was in the
tree, fails. -/
theorem resolvePath_removed_inTree {s s1 : VirtualFS} (wf : WellFormed s) {p : String}
    {n : Nat} (hres : resolvePath s p = .ok n)
    (hstart : startsWithSlash p = true ∨ (InTree s s.Cwd ∧ n ≠ s.Cwd))
    (h : Remove s p = some (s1, none)) :
    ∃ part, resolvePath s1 p = .error (.pathNotFound part) := by
  obtain ⟨parent, hnp, hleaf, hroot, hr1, hc1, hpar, hch, hdel⟩ := Remove_frame wf hres h
  have hin : InTree s (walkStart s p) ∧ walkStart s p ≠ n := by
    unfold walkStart
    cases hs : startsWithSlash p with
    | true => exact ⟨InTree.inTree_root s, fun e => hroot e.symm⟩
    | false =>
      rcases hstart with h | h
      · rw [hs] at h; cases h
      · exact ⟨h.1, fun e => h.2 e.symm⟩
  have hloop := hres
  rw [resolvePath_eq_walk] at hloop
  have hn : InTree s n := hin.1.inTree_loop wf _ hloop
  have hw : walkStart s1 p = walkStart s p := by
    unfold walkStart; rw [hr1, hc1]
  rw [resolvePath_eq_walk, hw]
  exact resolveLoop_unlinked wf hn hleaf hnp hpar hch hdel _ _ hin.1 hin.2 hloop

theorem cwdRemoved_not_inTree : ¬ InTree cwdRemoved cwdRemoved.Cwd := by
  intro h
  have hp : (cwdRemoved.node cwdRemoved.Cwd).Parent = some 0 := by decide
  have := (h.inTree_parent cwdRemoved_reachable.reach_inv.wf hp).2
  exact absurd this (by decide)

/-! # The claims -/

/-! ## C1: replaying the log of a successful call sequence -/

/-- C1 (the code departs from the claim): the four calls `Mkdir("foo")`, `ChangeDir("foo")`,
`CreateFile("bar.txt")`, `Remove("bar.txt")` all succeed on a fresh filesystem, `Remove` logs
the relative path "bar.txt", and replaying the resulting log against a fresh filesystem
fails at that Delete event with "path not found: bar.txt", leaving `/foo/bar.txt` in
place. -/
theorem C1_replay_fails_on_relative_delete :
    runCalls [.mkdir "foo", .changeDir "foo", .createFile "bar.txt", .remove "bar.txt"]
        NewVirtualFS = some (inFooRemoved, [none, none, none, none]) ∧
      inFooRemoved.EventLog = [⟨EventCreateDir, "/foo", ""⟩,
        ⟨EventCreateFile, "/foo/bar.txt", ""⟩, ⟨EventDelete, "bar.txt", ""⟩] ∧
      Replay inFooRemoved.EventLog NewVirtualFS =
        some (replayedFoo, some (.pathNotFound "bar.txt")) ∧
      resolvePath inFooRemoved "/foo/bar.txt" = .error (.pathNotFound "bar.txt") ∧
      resolvePath replayedFoo "/foo/bar.txt" = .ok 2 := by
  decide

/-! ## C2: `AbsolutePath` followed by `resolvePath` -/

/-- C2, counterexample: after `Mkdir("a")`, `ChangeDir("a")`, `Remove("/a")` the working
directory is the removed node 1; the empty path resolves to it, its absolute form is "/a/",
and "/a/" does not resolve. -/
theorem C2_counterexample :
    runCalls [.mkdir "a", .changeDir "a", .remove "/a"] NewVirtualFS =
        some (cwdRemoved, [none, none, none]) ∧
      resolvePath cwdRemoved "" = .ok 1 ∧
      AbsolutePath cwdRemoved "" = some (.ok "/a/") ∧
      resolvePath cwdRemoved "/a/" = .error (.pathNotFound "a") := by
  decide

/-- C2, amended: in every reachable state, for every path `p` that resolves to a node `n`,
where `p` is absolute or the working directory is still in the tree (reachable from the root
through children links), `AbsolutePath(p)` returns an absolute path that resolves to the same
node `n`, whichever node is the working directory when the absolute path is resolved. -/
theorem C2_absolutePath_resolves_alike (s : VirtualFS) (hr : Reachable s) (p : String)
    (n : Nat) (hcwd : startsWithSlash p = true ∨ InTree s s.Cwd)
    (h : resolvePath s p = .ok n) :
    ∃ abs, AbsolutePath s p = some (.ok abs) ∧
      ∀ c, resolvePath { s with Cwd := c } abs = .ok n := by
  rcases hcwd with hp | hin
  · exact ⟨p, AbsolutePath_abs s hp, fun c => by rw [resolvePath_abs_setCwd s c hp, h]⟩
  · obtain ⟨abs, ha, hres⟩ := resolvePath_AbsolutePath hr.reach_inv hin p
    exact ⟨abs, ha, fun c => by rw [hres c, h]⟩

/-- C2, amended, in the state `inFoo` for the relative path "..", which resolves to the
root, and in the state `cwdRemoved`, whose working directory has been removed, for the
absolute path "/.". -/
theorem C2_absolutePath_resolves_alike_witness :
    (Reachable inFoo ∧ (startsWithSlash ".." = true ∨ InTree inFoo inFoo.Cwd) ∧
      resolvePath inFoo ".." = .ok 0 ∧
      ∃ abs, AbsolutePath inFoo ".." = some (.ok abs) ∧
        ∀ c, resolvePath { inFoo with Cwd := c } abs = .ok 0) ∧
    (Reachable cwdRemoved ∧ ¬ InTree cwdRemoved cwdRemoved.Cwd ∧
      (startsWithSlash "/." = true ∨ InTree cwdRemoved cwdRemoved.Cwd) ∧
      resolvePath cwdRemoved "/." = .ok 0 ∧
      ∃ abs, AbsolutePath cwdRemoved "/." = some (.ok abs) ∧
        ∀ c, resolvePath { cwdRemoved with Cwd := c } abs = .ok 0) :=
  ⟨⟨inFoo_reachable, Or.inr inFoo_inTree, by decide,
      C2_absolutePath_resolves_alike inFoo inFoo_reachable ".." 0 (Or.inr inFoo_inTree)
        (by decide)⟩,
    ⟨cwdRemoved_reachable, cwdRemoved_not_inTree, Or.inl (by decide), by decide,
      C2_absolutePath_resolves_alike cwdRemoved cwdRemoved_reachable "/." 0
        (Or.inl (by decide)) (by decide)⟩⟩

/-! ## C3: `WriteFile` on a path that does not exist yet -/

/-- C3, counterexample, in two parts.  (1) With the working directory in `/foo` and
`IsRestoring` false, "/new.txt" does not resolve and its parent directory "/" exists, but
`WriteFile("/new.txt", "hi")` returns "path not found: new.txt" after having created an
empty `/foo/new.txt` and logged a single CreateFile event; "/new.txt" still does not
resolve.  (2) In the reachable state `staleCwd`, whose working directory is the removed
`/a/b`, "f" does not resolve; `WriteFile("f", "hi")` returns no error and logs two events,
but `ReadFile("f")` fails. -/
theorem C3_counterexample :
    (runCalls [.mkdir "foo", .changeDir "foo"] NewVirtualFS = some (inFoo, [none, none]) ∧
      inFoo.IsRestoring = false ∧
      resolvePath inFoo "/new.txt" = .error (.pathNotFound "new.txt") ∧
      resolvePath inFoo "/" = .ok 0 ∧
      WriteFile inFoo "/new.txt" "hi" = some (inFooNew, some (.pathNotFound "new.txt")) ∧
      inFooNew.EventLog = inFoo.EventLog ++ [⟨EventCreateFile, "/new.txt", ""⟩] ∧
      ReadFile inFooNew "/new.txt" = .error (.pathNotFound "new.txt")) ∧
    (runCalls [.mkdir "a", .mkdir "a/b", .changeDir "a/b", .remove "/a/b", .mkdir "/a/b",
        .mkdir "/a/b/c"] NewVirtualFS =
        some (staleCwd, [none, none, none, none, none, none]) ∧
      staleCwd.IsRestoring = false ∧
      resolvePath staleCwd "f" = .error (.pathNotFound "f") ∧
      resolvePath staleCwd "" = .ok 2 ∧ resolvePath staleCwd "/a/b" = .ok 3 ∧
      WriteFile staleCwd "f" "hi" = some (staleCwdF, none) ∧
      staleCwdF.EventLog = staleCwd.EventLog ++
        [⟨EventCreateFile, "/a/b/f", ""⟩, ⟨EventWriteFile, "/a/b/f", "hi"⟩] ∧
      ReadFile staleCwdF "f" = .error (.pathNotFound "f")) := by
  decide

/-- C3, amended: in every reachable state with `IsRestoring` false, for every content `c` and
every path `p` that is absolute or is used while the working directory is still in the tree,
such that `p` does not resolve, `traverseToParent` finds the parent directory of the absolute
form `abs` of `p`, and the parent path of `abs` is not empty unless the working directory is
the root: `WriteFile(p, c)` returns no error, appends exactly two events to the log, a
CreateFile event for `abs` followed by a WriteFile event for `abs` carrying `c`, and
afterwards `ReadFile(p)` returns `c`. -/
theorem C3_write_new_file (s : VirtualFS) (hr : Reachable s) (hrest : s.IsRestoring = false)
    (p c abs : String) (parent : Nat) (name : String) (e : FSError)
    (hcwd : startsWithSlash p = true ∨ InTree s s.Cwd)
    (hnot : resolvePath s p = .error e)
    (ha : AbsolutePath s p = some (.ok abs))
    (hparent : traverseToParent s abs = .ok (parent, name))
    (hslip : parentPathOf abs ≠ "" ∨ s.Cwd = s.Root) :
    ∃ s1, WriteFile s p c = some (s1, none) ∧
      s1.EventLog = s.EventLog ++
        [⟨EventCreateFile, abs, ""⟩, ⟨EventWriteFile, abs, c⟩] ∧
      ReadFile s1 p = .ok c := by
  have inv := hr.reach_inv
  have habs := AbsolutePath_startsWithSlash ha
  have hres : resolvePath s abs = .error e := by
    rw [resolvePath_eq_abs inv hcwd ha]; exact hnot
  have hne : abs ≠ "/" := by
    rintro rfl
    rw [resolvePath_slash] at hres
    cases hres
  obtain ⟨hp, hd, rfl⟩ := traverseToParent_ok hparent
  obtain ⟨init, hinit, hthrough⟩ := resolvePath_through_parent habs hne hp hslip
  have hstep : resolveStep s parent (baseNameOf abs) = .error e := by
    rw [← hthrough s rfl hinit]; exact hres
  obtain ⟨h1, h2, h3, hnone⟩ := resolveStep_error hstep
  have hplt := resolvePath_lt inv.wf hp
  have hcreate : CreateFile s abs =
      some (s.link parent (baseNameOf abs) false ⟨EventCreateFile, abs, ""⟩, none) := by
    simp [CreateFile, AbsolutePath_abs s habs, hparent, hnone]
  have hres2 := resolvePath_link inv.wf habs hparent hnone h1 h2 h3 hslip false
    ⟨EventCreateFile, abs, ""⟩
  have hfile : ((s.link parent (baseNameOf abs) false ⟨EventCreateFile, abs, ""⟩).node
      s.heap.length).IsDir = false := by
    rw [link_node_fresh _ _ _ _ _ hplt]
  have hwrite : WriteFile s p c = some (writeNode
      (s.link parent (baseNameOf abs) false ⟨EventCreateFile, abs, ""⟩) p abs c
      s.heap.length) := by
    simp [WriteFile, ha, hres, hcreate, hres2]
  rw [writeNode_file p abs c hfile] at hwrite
  refine ⟨_, hwrite, ?_, readFile_after_writeFile inv hcwd hwrite⟩
  simp [record_EventLog, link_EventLog, hrest]

/-- C3, amended, in the state `withFoo` for the path "foo/new.txt". -/
theorem C3_write_new_file_witness :
    Reachable withFoo ∧ withFoo.IsRestoring = false ∧
      (startsWithSlash "foo/new.txt" = true ∨ InTree withFoo withFoo.Cwd) ∧
      resolvePath withFoo "foo/new.txt" = .error (.pathNotFound "new.txt") ∧
      AbsolutePath withFoo "foo/new.txt" = some (.ok "/foo/new.txt") ∧
      traverseToParent withFoo "/foo/new.txt" = .ok (1, "new.txt") ∧
      (parentPathOf "/foo/new.txt" ≠ "" ∨ withFoo.Cwd = withFoo.Root) ∧
      ∃ s1, WriteFile withFoo "foo/new.txt" "hi" = some (s1, none) ∧
        s1.EventLog = withFoo.EventLog ++
          [⟨EventCreateFile, "/foo/new.txt", ""⟩, ⟨EventWriteFile, "/foo/new.txt", "hi"⟩] ∧
        ReadFile s1 "foo/new.txt" = .ok "hi" :=
  ⟨withFoo_reachable, by decide, Or.inr ⟨[], Located.root⟩, by decide, by decide, by decide,
    Or.inl (by decide),
    C3_write_new_file withFoo withFoo_reachable (by decide) "foo/new.txt" "hi" "/foo/new.txt"
      1 "new.txt" (.pathNotFound "new.txt") (Or.inr ⟨[], Located.root⟩) (by decide)
      (by decide) (by decide) (Or.inl (by decide))⟩

/-! ## C4: `WriteFile` followed by `ReadFile` -/

/-- C4, counterexample: in the reachable state `staleCwd`, whose working directory is the
removed `/a/b`, `WriteFile("f", "hi")` returns no error (it creates and writes the file
`/a/b/f` under the second `/a/b`), and `ReadFile("f")` called immediately afterwards fails
with "path not found: f". -/
theorem C4_counterexample :
    runCalls [.mkdir "a", .mkdir "a/b", .changeDir "a/b", .remove "/a/b", .mkdir "/a/b",
        .mkdir "/a/b/c"] NewVirtualFS =
        some (staleCwd, [none, none, none, none, none, none]) ∧
      WriteFile staleCwd "f" "hi" = some (staleCwdF, none) ∧
      ReadFile staleCwdF "f" = .error (.pathNotFound "f") ∧
      ReadFile staleCwdF "/a/b/f" = .ok "hi" := by
  decide

/-- C4, amended: in every reachable state, for every content `c` and every path `p` that is
absolute or is used while the working directory is still in the tree (reachable from the
root through children links): if `WriteFile(p, c)` returns no error, then `ReadFile(p)`
called immediately afterwards returns `c` without error. -/
theorem C4_write_then_read (s : VirtualFS) (hr : Reachable s) (p c : String) (s1 : VirtualFS)
    (hcwd : startsWithSlash p = true ∨ InTree s s.Cwd)
    (h : WriteFile s p c = some (s1, none)) : ReadFile s1 p = .ok c :=
  readFile_after_writeFile hr.reach_inv hcwd h

/-- C4, amended, in the state `inFoo` for the path "../foo/f". -/
theorem C4_write_then_read_witness :
    Reachable inFoo ∧ (startsWithSlash "../foo/f" = true ∨ InTree inFoo inFoo.Cwd) ∧
      (∃ s1, WriteFile inFoo "../foo/f" "hello" = some (s1, none) ∧
        ReadFile s1 "../foo/f" = .ok "hello") :=
  ⟨inFoo_reachable, Or.inr inFoo_inTree, _, rfl,
    C4_write_then_read inFoo inFoo_reachable "../foo/f" "hello" _ (Or.inr inFoo_inTree) rfl⟩

/-! ## C5: `Mkdir` followed by `resolvePath` -/

/-- C5, counterexample, in three parts.  (1) On a fresh filesystem `Mkdir(".")` returns no
error and inserts a directory named "." (node 1) under the root, but "." resolves to the
root, which is not the new node and has a child.  (2) With the working directory in `/foo`,
`Mkdir("/x")` returns no error, but the directory is inserted under `/foo` and "/x" does
not resolve.  (3) In the reachable state `staleCwd`, whose working directory has been
removed, `Mkdir("y")` returns no error and inserts `y` under the second `/a/b`, and "y" does
not resolve. -/
theorem C5_counterexample :
    (Mkdir NewVirtualFS "." = some (withDot, none) ∧ resolvePath withDot "." = .ok 0 ∧
      (withDot.node 0).Children = [(".", 1)] ∧ withDot.node 1 = ⟨".", true, "", [], some 0⟩) ∧
    (runCalls [.mkdir "foo", .changeDir "foo"] NewVirtualFS = some (inFoo, [none, none]) ∧
      Mkdir inFoo "/x" = some (inFooSlashX, none) ∧
      resolvePath inFooSlashX "/x" = .error (.pathNotFound "x") ∧
      resolvePath inFooSlashX "/foo/x" = .ok 2) ∧
    (runCalls [.mkdir "a", .mkdir "a/b", .changeDir "a/b", .remove "/a/b", .mkdir "/a/b",
        .mkdir "/a/b/c"] NewVirtualFS =
        some (staleCwd, [none, none, none, none, none, none]) ∧
      Mkdir staleCwd "y" = some (staleCwdY, none) ∧
      resolvePath staleCwdY "y" = .error (.pathNotFound "y") ∧
      resolvePath staleCwdY "/a/b/y" = .ok 5) := by
  decide

/-- C5, amended: in every reachable state, for every path `p` that is absolute or is used
while the working directory is still in the tree, with absolute form `abs`, such that the
final element name of `abs` is not empty, "." or "..", and such that the parent path of
`abs` is not empty unless the working directory is the root: if `Mkdir(p)` returns no error,
then `resolvePath(p)` called immediately afterwards succeeds and returns the newly allocated
node, which is a directory, has no children and bears the final element name. -/
theorem C5_mkdir_then_resolve (s : VirtualFS) (hr : Reachable s) (p abs : String)
    (s1 : VirtualFS) (hcwd : startsWithSlash p = true ∨ InTree s s.Cwd)
    (ha : AbsolutePath s p = some (.ok abs))
    (hname : baseNameOf abs ≠ "" ∧ baseNameOf abs ≠ "." ∧ baseNameOf abs ≠ "..")
    (hslip : parentPathOf abs ≠ "" ∨ s.Cwd = s.Root)
    (h : Mkdir s p = some (s1, none)) :
    resolvePath s1 p = .ok s.heap.length ∧ s1.heap.length = s.heap.length + 1 ∧
      (s1.node s.heap.length).IsDir = true ∧ (s1.node s.heap.length).Children = [] ∧
      (s1.node s.heap.length).Name = baseNameOf abs := by
  obtain ⟨abs1, parent, ha1, ht, hnone, rfl⟩ := Mkdir_ok h
  rw [ha] at ha1
  cases ha1
  obtain ⟨hp, _, _⟩ := traverseToParent_ok ht
  have hplt := resolvePath_lt hr.reach_inv.wf hp
  refine ⟨resolvePath_after_link hr.reach_inv hcwd ha ht hnone hname.1 hname.2.1 hname.2.2
    hslip _ _, by simp, ?_, ?_, ?_⟩ <;> rw [link_node_fresh _ _ _ _ _ hplt]

/-- C5, amended, in the state `inFoo` for the path "bar". -/
theorem C5_mkdir_then_resolve_witness :
    Reachable inFoo ∧ (startsWithSlash "bar" = true ∨ InTree inFoo inFoo.Cwd) ∧
      AbsolutePath inFoo "bar" = some (.ok "/foo/bar") ∧
      (baseNameOf "/foo/bar" ≠ "" ∧ baseNameOf "/foo/bar" ≠ "." ∧
        baseNameOf "/foo/bar" ≠ "..") ∧
      (parentPathOf "/foo/bar" ≠ "" ∨ inFoo.Cwd = inFoo.Root) ∧
      Mkdir inFoo "bar" = some (inFooBar, none) ∧
      (resolvePath inFooBar "bar" = .ok inFoo.heap.length ∧
        inFooBar.heap.length = inFoo.heap.length + 1 ∧
        (inFooBar.node inFoo.heap.length).IsDir = true ∧
        (inFooBar.node inFoo.heap.length).Children = [] ∧
        (inFooBar.node inFoo.heap.length).Name = baseNameOf "/foo/bar") :=
  ⟨inFoo_reachable, Or.inr inFoo_inTree, by decide, by decide, Or.inl (by decide), by decide,
    C5_mkdir_then_resolve inFoo inFoo_reachable "bar" "/foo/bar" inFooBar
      (Or.inr inFoo_inTree) (by decide) (by decide) (Or.inl (by decide)) (by decide)⟩

/-! ## C6: `CreateFile` with an absolute path -/

/-- C6 (the code departs from the claim): with the working directory in `/foo`,
`CreateFile("/bar.txt")` returns no error, but `traverseToParent` resolves the empty parent
path of "/bar.txt" to the working directory, so the file is created as `/foo/bar.txt`
and "/bar.txt" does not resolve. -/
theorem C6_top_level_file_lands_in_cwd :
    runCalls [.mkdir "foo", .changeDir "foo"] NewVirtualFS = some (inFoo, [none, none]) ∧
      parentPathOf "/bar.txt" = "" ∧ resolvePath inFoo "" = .ok inFoo.Cwd ∧
      CreateFile inFoo "/bar.txt" = some (inFooSlashBar, none) ∧
      resolvePath inFooSlashBar "/bar.txt" = .error (.pathNotFound "bar.txt") ∧
      resolvePath inFooSlashBar "/foo/bar.txt" = .ok 2 ∧
      inFooSlashBar.node 2 = ⟨"bar.txt", false, "", [], some 1⟩ := by
  decide

/-! ## C7: `Remove` followed by `resolvePath` -/

/-- C7, counterexample, in two parts.  (1) With the working directory in the empty `/a`,
`Remove("")` returns no error and unlinks the working directory, yet `resolvePath("")`
called immediately afterwards succeeds: it returns the working directory, the removed
node 1.  (2) In the reachable state `underGoneB`, whose working directory is the removed
`/a/b`, `Remove("..")` returns no error and unlinks `/a`, yet `resolvePath("..")` succeeds
afterwards: it follows the parent pointer of the working directory to the removed node 1. -/
theorem C7_counterexample :
    (runCalls [.mkdir "a", .changeDir "a"] NewVirtualFS = some (inA, [none, none]) ∧
      Remove inA "" = some (inAGone, none) ∧ resolvePath inAGone "" = .ok 1 ∧
      resolvePath inAGone "/a" = .error (.pathNotFound "a")) ∧
    (runCalls [.mkdir "a", .mkdir "a/b", .changeDir "a/b", .remove "/a/b"] NewVirtualFS =
        some (underGoneB, [none, none, none, none]) ∧
      resolvePath underGoneB ".." = .ok 1 ∧
      Remove underGoneB ".." = some (underGoneA, none) ∧
      resolvePath underGoneA ".." = .ok 1 ∧
      resolvePath underGoneA "/a" = .error (.pathNotFound "a")) := by
  decide

/-- C7, amended: in every reachable state, for every path `p` that resolves to a node `n`
and for which `Remove(p)` returns no error: if the walk of `resolvePath(p)` looks up the name
of `n` in the children map of the parent of `n`, then `resolvePath(p)` called immediately
afterwards fails with a "path not found" error, and only then; for every other `p` it still
returns `n`.  The walk looks that name up for every absolute `p`, and for every `p` that
resolves to a node other than the working directory while the working directory is in the
tree. -/
theorem C7_remove_then_resolve (s : VirtualFS) (hr : Reachable s) (p : String) (n : Nat)
    (s1 : VirtualFS) (hres : resolvePath s p = .ok n) (h : Remove s p = some (s1, none)) :
    (looksUp s p n = true ↔ ∃ part, resolvePath s1 p = .error (.pathNotFound part)) ∧
    (looksUp s p n = false → resolvePath s1 p = .ok n) ∧
    (startsWithSlash p = true ∨ (InTree s s.Cwd ∧ n ≠ s.Cwd) → looksUp s p n = true) := by
  have wf := hr.reach_inv.wf
  obtain ⟨parent, hnp, _, _, hr1, hc1, hpar, hch, hdel⟩ := Remove_frame wf hres h
  have hw : walkStart s1 p = walkStart s p := by
    unfold walkStart; rw [hr1, hc1]
  have hyes : looksUp s p n = true →
      ∃ part, resolvePath s1 p = .error (.pathNotFound part) := by
    intro hl
    rw [resolvePath_eq_walk, hw]
    exact resolveLoop_looksUp hnp hpar hch hdel _ _ hl
  have hno : looksUp s p n = false → resolvePath s1 p = .ok n := by
    intro hl
    rw [resolvePath_eq_walk, hw, resolveLoop_not_looksUp hnp hpar hch hdel _ _ hl,
      ← resolvePath_eq_walk, hres]
  have hiff : looksUp s p n = true ↔
      ∃ part, resolvePath s1 p = .error (.pathNotFound part) := by
    refine ⟨hyes, ?_⟩
    rintro ⟨part, hpart⟩
    cases hl : looksUp s p n with
    | true => rfl
    | false => rw [hno hl] at hpart; cases hpart
  exact ⟨hiff, hno, fun hstart => hiff.mpr (resolvePath_removed_inTree wf hres hstart h)⟩

/-- C7, amended, in the state `inA`, whose working directory is the empty `/a` (node 1).
The path "../a" resolves to the working directory and looks the name "a" up in the root:
after `Remove("../a")` it no longer resolves.  The empty path resolves to the working
directory without any lookup: after `Remove("")` it still does. -/
theorem C7_remove_then_resolve_witness :
    Reachable inA ∧ inA.Cwd = 1 ∧
      (resolvePath inA "../a" = .ok 1 ∧ Remove inA "../a" = some (inAGoneUp, none) ∧
        looksUp inA "../a" 1 = true ∧
        ∃ part, resolvePath inAGoneUp "../a" = .error (.pathNotFound part)) ∧
      (resolvePath inA "" = .ok 1 ∧ Remove inA "" = some (inAGone, none) ∧
        looksUp inA "" 1 = false ∧ resolvePath inAGone "" = .ok 1) :=
  ⟨inA_reachable, by decide,
    ⟨by decide, by decide, by decide,
      (C7_remove_then_resolve inA inA_reachable "../a" 1 inAGoneUp (by decide)
        (by decide)).1.mp (by decide)⟩,
    ⟨by decide, by decide, by decide,
      (C7_remove_then_resolve inA inA_reachable "" 1 inAGone (by decide)
        (by decide)).2.1 (by decide)⟩⟩

/-! ## C8: what `Remove` takes out of the tree -/

/-- C8 (the code departs from the claim): in the reachable state `staleCwd` the working
directory is the removed, empty `/a/b` (node 2), while the tree holds a second `/a/b` (node 3)
with the child `c`.  `Remove(".")` resolves to node 2, passes the emptiness check on node 2
and deletes the key "b" from its parent: the node taken out of the tree is node 3, a
directory that is not empty, and `/a/b/c` is no longer reachable. -/
theorem C8_remove_through_stale_cwd :
    runCalls [.mkdir "a", .mkdir "a/b", .changeDir "a/b", .remove "/a/b", .mkdir "/a/b",
        .mkdir "/a/b/c"] NewVirtualFS =
        some (staleCwd, [none, none, none, none, none, none]) ∧
      resolvePath staleCwd "." = .ok 2 ∧ resolvePath staleCwd "/a/b" = .ok 3 ∧
      resolvePath staleCwd "/a/b/c" = .ok 4 ∧
      (staleCwd.node 3).Children = [("c", 4)] ∧
      Remove staleCwd "." = some (staleCwdRemoved, none) ∧
      resolvePath staleCwdRemoved "/a/b" = .error (.pathNotFound "b") ∧
      resolvePath staleCwdRemoved "/a/b/c" = .error (.pathNotFound "b") := by
  decide

/-! ## C9: creating the same path twice -/

/-- C9: in every well-formed state (in particular every reachable one), if `Mkdir(p)` or
`CreateFile(p)` returns no error, then an immediately following `Mkdir(p)` fails with
"directory or file already exists" and an immediately following `CreateFile(p)` fails with
"file or directory already exists", both naming the final element of the absolute path, and
both return the state exactly as it was after the first call: same tree, same working
directory, same event log. -/
theorem C9_second_create_fails (s : VirtualFS) (wf : WellFormed s) (p : String)
    (s1 : VirtualFS)
    (h : Mkdir s p = some (s1, none) ∨ CreateFile s p = some (s1, none)) :
    ∃ abs, AbsolutePath s p = some (.ok abs) ∧
      Mkdir s1 p = some (s1, some (.dirOrFileExists (baseNameOf abs))) ∧
      CreateFile s1 p = some (s1, some (.fileOrDirExists (baseNameOf abs))) := by
  rcases h with h | h
  · obtain ⟨abs, parent, ha, ht, hnone, rfl⟩ := Mkdir_ok h
    exact ⟨abs, ha, create_again wf ha ht hnone _ _⟩
  · obtain ⟨abs, parent, ha, ht, hnone, rfl⟩ := CreateFile_ok h
    exact ⟨abs, ha, create_again wf ha ht hnone _ _⟩

/-- C9 on a fresh filesystem for the path "foo". -/
theorem C9_second_create_fails_witness :
    WellFormed NewVirtualFS ∧
      (Mkdir NewVirtualFS "foo" = some (withFoo, none) ∨
        CreateFile NewVirtualFS "foo" = some (withFoo, none)) ∧
      ∃ abs, AbsolutePath NewVirtualFS "foo" = some (.ok abs) ∧
        Mkdir withFoo "foo" = some (withFoo, some (.dirOrFileExists (baseNameOf abs))) ∧
        CreateFile withFoo "foo" =
          some (withFoo, some (.fileOrDirExists (baseNameOf abs))) :=
  ⟨Inv.inv_fresh.wf, Or.inl (by decide),
    C9_second_create_fails NewVirtualFS Inv.inv_fresh.wf "foo" withFoo (Or.inl (by decide))⟩

/-! ## C10: the root cannot be removed -/

/-- C10: for every state and every path `p` that resolves to the root node, `Remove(p)` fails
with "cannot remove root directory" and returns the state unchanged (tree, working directory
and event log); and when the root has no parent, "/" and "/.." resolve to the root, and so do
".." and "" when the working directory is the root. -/
theorem C10_remove_root_fails (s : VirtualFS) :
    (∀ p, resolvePath s p = .ok s.Root →
      Remove s p = some (s, some .cannotRemoveRoot)) ∧
    ((s.node s.Root).Parent = none →
      resolvePath s "/" = .ok s.Root ∧ resolvePath s "/.." = .ok s.Root ∧
      (s.Cwd = s.Root → resolvePath s ".." = .ok s.Root ∧ resolvePath s "" = .ok s.Root)) := by
  refine ⟨fun p h => by simp [Remove, h], fun hroot => ⟨?_, ?_, fun hcwd => ⟨?_, ?_⟩⟩⟩
  · rw [resolvePath_abs s (by decide)]
    have : trimLeadingSlash "/" = "" := by decide
    simp [this]
  · rw [resolvePath_abs s (by decide)]
    have h1 : trimLeadingSlash "/.." = ".." := by decide
    have h2 : Split ".." = [".."] := by decide
    have h3 : (".." : String) ≠ "" := by decide
    simp [h1, h2, h3, resolveLoop, resolveStep_up, hroot]
  · rw [resolvePath_rel s (by decide) (by decide)]
    have h2 : Split ".." = [".."] := by decide
    simp [h2, resolveLoop, resolveStep_up, hcwd, hroot]
  · rw [resolvePath_empty, hcwd]

/-- C10 on a fresh filesystem for the path "/..". -/
theorem C10_remove_root_fails_witness :
    resolvePath NewVirtualFS "/.." = .ok NewVirtualFS.Root ∧
      Remove NewVirtualFS "/.." = some (NewVirtualFS, some .cannotRemoveRoot) :=
  ⟨by decide, (C10_remove_root_fails NewVirtualFS).1 "/.." (by decide)⟩

/-! ## C11: removing a directory -/

/-- C11: in every well-formed state (in particular every reachable one), for every path `p`
that resolves to a directory `d` other than the root: if `d` has at least one child,
`Remove(p)` fails with "directory not empty" and returns the state unchanged; and after any
run of `Remove` calls that all return no error and whose paths resolved to every child of
`d`, `Remove(p)` returns no error, provided `p` still resolves to `d`. -/
theorem C11_remove_directory (s : VirtualFS) (wf : WellFormed s) (p : String) (d : Nat)
    (hres : resolvePath s p = .ok d) (hroot : d ≠ s.Root)
    (hdir : (s.node d).IsDir = true) :
    ((s.node d).Children ≠ [] → Remove s p = some (s, some (.directoryNotEmpty p))) ∧
    (∀ (paths : List String) (t : VirtualFS) (nodes : List Nat),
      removeAll paths s = some (t, nodes) →
      (∀ kc ∈ (s.node d).Children, kc.2 ∈ nodes) →
      resolvePath t p = .ok d → ∃ t1, Remove t p = some (t1, none)) := by
  constructor
  · intro hne
    have hlen : (s.node d).Children.length > 0 := List.length_pos.mpr hne
    simp [Remove, hres, hroot, hdir, hlen]
  · intro paths t nodes hrun hall hres1
    obtain ⟨wft, hroot1, hempty⟩ := removeAll_children d paths s t nodes wf hrun hall
    exact Remove_leaf_succeeds wft hres1 (by rw [hroot1]; exact hroot) hempty

/-- C11 in the state `withTwoChildren`, for the path "d" and the directory `/d` (node 1)
with the children `x` and `y`. -/
theorem C11_remove_directory_witness :
    WellFormed withTwoChildren ∧ resolvePath withTwoChildren "d" = .ok 1 ∧
      1 ≠ withTwoChildren.Root ∧ (withTwoChildren.node 1).IsDir = true ∧
      Remove withTwoChildren "d" = some (withTwoChildren, some (.directoryNotEmpty "d")) ∧
      removeAll ["d/y", "/d/x"] withTwoChildren = some (withTwoChildrenGone, [3, 2]) ∧
      ∃ t1, Remove withTwoChildrenGone "d" = some (t1, none) :=
  ⟨withTwoChildren_reachable.reach_inv.wf, by decide, by decide, by decide,
    (C11_remove_directory withTwoChildren withTwoChildren_reachable.reach_inv.wf "d" 1
      (by decide) (by decide) (by decide)).1 (by decide),
    by decide,
    (C11_remove_directory withTwoChildren withTwoChildren_reachable.reach_inv.wf "d" 1
      (by decide) (by decide) (by decide)).2 ["d/y", "/d/x"] withTwoChildrenGone [3, 2]
      (by decide) (by decide) (by decide)⟩

/-! ## C12: calls that return an error -/

/-- C12 (the code departs from the claim): with the working directory in `/foo`,
`WriteFile("/new.txt", "hi")` returns the error "path not found: new.txt", yet the state it
leaves differs from the state before the call: the implicit `CreateFile` has allocated an
empty file (node 2), bound it under `/foo`, and appended a CreateFile event to the log. -/
theorem C12_failed_writeFile_mutates :
    runCalls [.mkdir "foo", .changeDir "foo"] NewVirtualFS = some (inFoo, [none, none]) ∧
      WriteFile inFoo "/new.txt" "hi" = some (inFooNew, some (.pathNotFound "new.txt")) ∧
      inFooNew ≠ inFoo ∧
      (inFoo.node 1).Children = [] ∧ (inFooNew.node 1).Children = [("new.txt", 2)] ∧
      inFooNew.node 2 = ⟨"new.txt", false, "", [], some 1⟩ ∧
      inFooNew.EventLog = inFoo.EventLog ++ [⟨EventCreateFile, "/new.txt", ""⟩] := by
  decide

/-! ## C13: the working directory -/

/-- C13, counterexample: after `Mkdir("a")`, `ChangeDir("a")`, `Remove("/a")` the working
directory is node 1, whose name has left the `Children` map of the root: it is not reachable
from the root by following children links. -/
theorem C13_counterexample :
    runCalls [.mkdir "a", .changeDir "a", .remove "/a"] NewVirtualFS =
        some (cwdRemoved, [none, none, none]) ∧
      cwdRemoved.Cwd = 1 ∧ (cwdRemoved.node cwdRemoved.Root).Children = [] ∧
      ¬ InTree cwdRemoved cwdRemoved.Cwd := by
  refine ⟨by decide, by decide, by decide, fun h => ?_⟩
  have hp : (cwdRemoved.node cwdRemoved.Cwd).Parent = some 0 := by decide
  have := (h.inTree_parent cwdRemoved_reachable.reach_inv.wf hp).2
  exact absurd this (by decide)

/-- C13, amended: in every reachable state (reached by `Mkdir`, `CreateFile`, `WriteFile`,
`Remove`, `ChangeDir` and `Replay` calls) the working directory is an allocated node (not
nil), is a directory, and its `Parent` chain leads to the root.  It is reachable from the
root by following children links in a fresh filesystem, and every call, and every replayed
event, keeps it so, except a `Remove` call (or a replayed Delete event) whose path resolves
to the working directory itself. -/
theorem C13_cwd_invariant (s : VirtualFS) (hr : Reachable s) :
    s.Cwd < s.heap.length ∧ (s.node s.Cwd).IsDir = true ∧ (∃ names, Chain s s.Cwd names) ∧
    InTree NewVirtualFS NewVirtualFS.Cwd ∧
    (InTree s s.Cwd →
      (∀ (c : Call) (t : VirtualFS) (e : Option FSError), c.run s = some (t, e) →
        (∀ p, c = .remove p → resolvePath s p ≠ .ok s.Cwd) → InTree t t.Cwd) ∧
      (∀ (ev : FileSystemEvent) (t : VirtualFS) (e : Option FSError),
        replayEvent s ev = some (t, e) →
        (ev.EventType = EventDelete → resolvePath s ev.Path ≠ .ok s.Cwd) →
        InTree t t.Cwd)) := by
  have inv := hr.reach_inv
  refine ⟨inv.wf.cwd_lt, inv.cwd_dir, inv.wf.wf_chain_exists _ inv.wf.cwd_lt,
    InTree.inTree_root NewVirtualFS, fun hcwd => ⟨?_, ?_⟩⟩
  · intro c t e h hne
    exact InTree.inTree_run inv.wf hcwd h hne
  · intro ev t e h hne
    exact InTree.inTree_replayStep inv.wf hcwd h hne

/-- C13, amended, in the state `inFoo`. -/
theorem C13_cwd_invariant_witness :
    Reachable inFoo ∧
      (inFoo.Cwd < inFoo.heap.length ∧ (inFoo.node inFoo.Cwd).IsDir = true ∧
        (∃ names, Chain inFoo inFoo.Cwd names) ∧
        InTree NewVirtualFS NewVirtualFS.Cwd ∧
        (InTree inFoo inFoo.Cwd →
          (∀ (c : Call) (t : VirtualFS) (e : Option FSError), c.run inFoo = some (t, e) →
            (∀ p, c = .remove p → resolvePath inFoo p ≠ .ok inFoo.Cwd) → InTree t t.Cwd) ∧
          (∀ (ev : FileSystemEvent) (t : VirtualFS) (e : Option FSError),
            replayEvent inFoo ev = some (t, e) →
            (ev.EventType = EventDelete → resolvePath inFoo ev.Path ≠ .ok inFoo.Cwd) →
            InTree t t.Cwd))) :=
  ⟨inFoo_reachable, C13_cwd_invariant inFoo inFoo_reachable⟩

/-! ## C14: the shape of the tree -/

/-- C14: in every reachable state the root is a directory with no parent; every allocated
node that is a file has no children; every binding `k ↦ c` in the `Children` map of an
allocated node `i` (which is then a directory) satisfies `c.Name = k` and `c.Parent = i`;
and no call, and no replay, changes the `IsDir` flag of an allocated node.  The allocated
nodes include all nodes of the tree under the root. -/
theorem C14_tree_well_formed (s : VirtualFS) (hr : Reachable s) :
    (s.node s.Root).IsDir = true ∧ (s.node s.Root).Parent = none ∧
    (∀ i, i < s.heap.length → (s.node i).IsDir = false → (s.node i).Children = []) ∧
    (∀ i k c, i < s.heap.length → (k, c) ∈ (s.node i).Children →
      (s.node i).IsDir = true ∧ (s.node c).Name = k ∧ (s.node c).Parent = some i) ∧
    (∀ n, InTree s n → n < s.heap.length) ∧
    (∀ (c : Call) (t : VirtualFS) (e : Option FSError), c.run s = some (t, e) →
      ∀ i, i < s.heap.length → (t.node i).IsDir = (s.node i).IsDir) ∧
    (∀ (log : EventLog) (t : VirtualFS) (e : Option FSError), Replay log s = some (t, e) →
      ∀ i, i < s.heap.length → (t.node i).IsDir = (s.node i).IsDir) := by
  have wf := hr.reach_inv.wf
  have ext := hr.reach_extends
  refine ⟨?_, wf.root_parent, wf.file_leaf, ?_, ?_, ?_, ?_⟩
  · have h0 : (0 : Nat) < NewVirtualFS.heap.length := by decide
    have hroot : s.Root = 0 := ext.1
    rw [hroot, (ext.2.2 0 h0).2.2]
    decide
  · intro i k c hi hm
    obtain ⟨_, hn, hp⟩ := wf.child_ok i k c hi hm
    refine ⟨?_, hn, hp⟩
    cases hd : (s.node i).IsDir with
    | true => rfl
    | false =>
      rw [wf.file_leaf i hi hd] at hm
      simp at hm
  · rintro n ⟨names, hl⟩
    exact hl.loc_lt wf
  · intro c t e h i hi
    exact ((Extends.ext_run h).2.2 i hi).2.2
  · intro log t e h i hi
    exact ((Extends.ext_replay log h).2.2 i hi).2.2

/-- C14 in the state `withTwoChildren`. -/
theorem C14_tree_well_formed_witness :
    Reachable withTwoChildren ∧
      (withTwoChildren.node withTwoChildren.Root).IsDir = true ∧
      (withTwoChildren.node withTwoChildren.Root).Parent = none ∧
      (∀ i k c, i < withTwoChildren.heap.length → (k, c) ∈ (withTwoChildren.node i).Children →
        (withTwoChildren.node i).IsDir = true ∧ (withTwoChildren.node c).Name = k ∧
          (withTwoChildren.node c).Parent = some i) :=
  ⟨withTwoChildren_reachable,
    (C14_tree_well_formed withTwoChildren withTwoChildren_reachable).1,
    (C14_tree_well_formed withTwoChildren withTwoChildren_reachable).2.1,
    (C14_tree_well_formed withTwoChildren withTwoChildren_reachable).2.2.2.1⟩

/-! ## C15: `Replay` -/

/-- C15 (the code departs from the claim): replaying the log
`[CreateDir "/foo/d", WriteFile "/new.txt" "hi"]` against the filesystem `inFoo`, whose
working directory is `/foo`, applies event 0 (reaching `inFooD`) and returns the error of
event 1, "path not found: new.txt"; but the target is left in the state `inFooDNew`, not in
the state `inFooD` produced by event 0: the failing `WriteFile` has created an empty file
under `/foo` and logged a CreateFile event. -/
theorem C15_failing_event_leaves_its_effect :
    runCalls [.mkdir "foo", .changeDir "foo"] NewVirtualFS = some (inFoo, [none, none]) ∧
      Replay [⟨EventCreateDir, "/foo/d", ""⟩] inFoo = some (inFooD, none) ∧
      replayEvent inFooD ⟨EventWriteFile, "/new.txt", "hi"⟩ =
        some (inFooDNew, some (.pathNotFound "new.txt")) ∧
      Replay [⟨EventCreateDir, "/foo/d", ""⟩, ⟨EventWriteFile, "/new.txt", "hi"⟩] inFoo =
        some (inFooDNew, some (.pathNotFound "new.txt")) ∧
      inFooDNew ≠ inFooD ∧
      (inFooD.node 1).Children = [("d", 2)] ∧
      (inFooDNew.node 1).Children = [("d", 2), ("new.txt", 3)] := by
  decide

/-! ## C16: the `IsRestoring` flag -/

/-- C16: for every state with `IsRestoring` true, each of `Mkdir`, `CreateFile`, `WriteFile`
and `Remove` returns exactly what the identical call returns from the same state with
`IsRestoring` false (same returned error, same heap, root and working directory), except
that the flag is still set and the event log is the log before the call, unchanged. -/
theorem C16_restoring_only_suppresses_logging (s : VirtualFS) (h : s.IsRestoring = true)
    (p c : String) :
    Mkdir s p = (Mkdir { s with IsRestoring := false } p).map
      (fun r => (r.1.restoring s.EventLog, r.2)) ∧
    CreateFile s p = (CreateFile { s with IsRestoring := false } p).map
      (fun r => (r.1.restoring s.EventLog, r.2)) ∧
    WriteFile s p c = (WriteFile { s with IsRestoring := false } p c).map
      (fun r => (r.1.restoring s.EventLog, r.2)) ∧
    Remove s p = (Remove { s with IsRestoring := false } p).map
      (fun r => (r.1.restoring s.EventLog, r.2)) ∧
    (∀ t e, Mkdir s p = some (t, e) ∨ CreateFile s p = some (t, e) ∨
      WriteFile s p c = some (t, e) ∨ Remove s p = some (t, e) →
      t.EventLog = s.EventLog) := by
  have hs := restoring_self s h
  have h1 := Mkdir_restoring { s with IsRestoring := false } s.EventLog p
  have h2 := CreateFile_restoring { s with IsRestoring := false } s.EventLog p
  have h3 := WriteFile_restoring { s with IsRestoring := false } s.EventLog p c
  have h4 := Remove_restoring { s with IsRestoring := false } s.EventLog p
  rw [hs] at h1 h2 h3 h4
  refine ⟨h1, h2, h3, h4, ?_⟩
  intro t e hcall
  have key : ∀ (r : Option (VirtualFS × Option FSError)),
      r.map (fun r => (r.1.restoring s.EventLog, r.2)) = some (t, e) →
      t.EventLog = s.EventLog := by
    intro r hr
    cases r with
    | none => cases hr
    | some x =>
      simp only [Option.map_some', Option.some.injEq, Prod.mk.injEq] at hr
      rw [← hr.1]
      rfl
  rcases hcall with hc | hc | hc | hc
  · exact key _ (h1 ▸ hc)
  · exact key _ (h2 ▸ hc)
  · exact key _ (h3 ▸ hc)
  · exact key _ (h4 ▸ hc)

/-- C16 in the state `withFoo` with the flag set, for the path "foo/f" and the content
"x". -/
theorem C16_restoring_only_suppresses_logging_witness :
    (withFoo.restoring withFoo.EventLog).IsRestoring = true ∧
      WriteFile (withFoo.restoring withFoo.EventLog) "foo/f" "x" =
        (WriteFile { withFoo.restoring withFoo.EventLog with IsRestoring := false } "foo/f"
          "x").map
          (fun r => (r.1.restoring (withFoo.restoring withFoo.EventLog).EventLog, r.2)) ∧
      (∃ t, WriteFile (withFoo.restoring withFoo.EventLog) "foo/f" "x" = some (t, none) ∧
        t.EventLog = withFoo.EventLog ∧ ReadFile t "foo/f" = .ok "x") ∧
      (∃ t, WriteFile withFoo "foo/f" "x" = some (t, none) ∧
        t.EventLog = withFoo.EventLog ++
          [⟨EventCreateFile, "/foo/f", ""⟩, ⟨EventWriteFile, "/foo/f", "x"⟩]) :=
  ⟨rfl,
    (C16_restoring_only_suppresses_logging (withFoo.restoring withFoo.EventLog) rfl "foo/f"
      "x").2.2.1,
    ⟨_, rfl, by decide, by decide⟩, ⟨_, rfl, by decide⟩⟩

/-! ## C17: the paths recorded in the log -/

/-- C17 (the code departs from the claim): with the working directory in `/foo` and
`IsRestoring` false, `Remove("bar.txt")` returns no error and appends the event
`Delete "bar.txt"`: the recorded path does not start with "/" and is not
`AbsolutePath("bar.txt")`, which is "/foo/bar.txt" (the path the preceding
`CreateFile("bar.txt")` recorded). -/
theorem C17_remove_logs_relative_path :
    runCalls [.mkdir "foo", .changeDir "foo", .createFile "bar.txt"] NewVirtualFS =
        some (inFooFile, [none, none, none]) ∧
      inFooFile.EventLog = [⟨EventCreateDir, "/foo", ""⟩,
        ⟨EventCreateFile, "/foo/bar.txt", ""⟩] ∧
      inFooFile.IsRestoring = false ∧
      AbsolutePath inFooFile "bar.txt" = some (.ok "/foo/bar.txt") ∧
      Remove inFooFile "bar.txt" = some (inFooRemoved, none) ∧
      inFooRemoved.EventLog = inFooFile.EventLog ++ [⟨EventDelete, "bar.txt", ""⟩] ∧
      startsWithSlash "bar.txt" = false := by
  decide

/-! ## C18: the path recorded by `Remove` -/

/-- C18: with `IsRestoring` false, every `Remove(p)` that returns no error appends exactly
one event to the log: its type is Delete, its path is the string `p` as passed by the caller,
and its content is empty. -/
theorem C18_remove_logs_given_path (s t : VirtualFS) (p : String)
    (hrest : s.IsRestoring = false) (h : Remove s p = some (t, none)) :
    t.EventLog = s.EventLog ++ [⟨EventDelete, p, ""⟩] := by
  obtain ⟨n, parent, _, _, _, _, rfl⟩ := Remove_ok h
  simp [record_EventLog, hrest]

/-- C18 in the state `inFooFile` for the path "bar.txt". -/
theorem C18_remove_logs_given_path_witness :
    inFooFile.IsRestoring = false ∧ Remove inFooFile "bar.txt" = some (inFooRemoved, none) ∧
      inFooRemoved.EventLog = inFooFile.EventLog ++ [⟨EventDelete, "bar.txt", ""⟩] :=
  ⟨by decide, by decide,
    C18_remove_logs_given_path inFooFile inFooRemoved "bar.txt" (by decide) (by decide)⟩

/-! ## C19: `ChangeDir` into a child directory and back -/

/-- C19: in every reachable state, with working directory `c`, for every child directory `d`
of `c` bound under a name `n` that is not empty, "." or ".." and contains no "/":
`ChangeDir(n)` returns no error and makes `d` the working directory, the following
`ChangeDir("..")` returns no error and gives back the state before the two calls, working
directory `c` included, and `PrintWorkingDir` returns the same string as before. -/
theorem C19_changeDir_there_and_back (s : VirtualFS) (hr : Reachable s) (n : String) (d : Nat)
    (hchild : mapLookup (s.node s.Cwd).Children n = some d)
    (hdir : (s.node d).IsDir = true) (hname : ProperName n) :
    ChangeDir s n = ({ s with Cwd := d }, none) ∧
      ChangeDir { s with Cwd := d } ".." = (s, none) ∧
      ∃ str, PrintWorkingDir s = some str ∧
        PrintWorkingDir (ChangeDir (ChangeDir s n).1 "..").1 = some str := by
  have inv := hr.reach_inv
  have h1 := ChangeDir_child hname hchild hdir
  have hpar : (s.node d).Parent = some s.Cwd := (inv.wf.wf_lookup hchild).2.2.1
  have h2 : ChangeDir { s with Cwd := d } ".." = (s, none) := by
    have hres : resolvePath { s with Cwd := d } ".." = .ok s.Cwd := by
      rw [resolvePath_rel _ (by decide) (by decide)]
      have hsplit : Split ".." = [".."] := by decide
      rw [hsplit, resolveLoop, resolveStep_up]
      have : (({ s with Cwd := d } : VirtualFS).node d).Parent = some s.Cwd := hpar
      simp only [this]
      rfl
    have hd : (({ s with Cwd := d } : VirtualFS).node s.Cwd).IsDir = true := inv.cwd_dir
    simp only [ChangeDir, hres, hd]
    rfl
  refine ⟨h1, h2, ?_⟩
  obtain ⟨names, _, hp⟩ := PrintWorkingDir_some inv.wf
  refine ⟨_, hp, ?_⟩
  rw [h1]
  simp only
  rw [h2]
  exact hp

/-- C19 in the state `withFoo` for the child directory `foo` (node 1) of the root. -/
theorem C19_changeDir_there_and_back_witness :
    Reachable withFoo ∧ mapLookup (withFoo.node withFoo.Cwd).Children "foo" = some 1 ∧
      (withFoo.node 1).IsDir = true ∧ ProperName "foo" ∧
      ChangeDir withFoo "foo" = (inFoo, none) ∧ ChangeDir inFoo ".." = (withFoo, none) ∧
      ∃ str, PrintWorkingDir withFoo = some str ∧
        PrintWorkingDir (ChangeDir (ChangeDir withFoo "foo").1 "..").1 = some str :=
  ⟨withFoo_reachable, by decide, by decide, by decide, by decide, by decide,
    (C19_changeDir_there_and_back withFoo withFoo_reachable "foo" 1 (by decide) (by decide)
      (by decide)).2.2⟩

/-! ## C20: `PrintWorkingDir` after `ChangeDir` -/

/-- C20, counterexample: in the reachable state `withDot` the working directory (the root)
has a child directory named "." (node 1); `ChangeDir(".")` returns no error, but it leaves
the working directory at the root, and `PrintWorkingDir` returns "/", not the previous path
"/" extended by ".". -/
theorem C20_counterexample :
    runCalls [.mkdir "."] NewVirtualFS = some (withDot, [none]) ∧
      mapLookup (withDot.node withDot.Cwd).Children "." = some 1 ∧
      (withDot.node 1).IsDir = true ∧
      PrintWorkingDir withDot = some "/" ∧
      ChangeDir withDot "." = (withDot, none) ∧
      PrintWorkingDir (ChangeDir withDot ".").1 = some "/" ∧
      ("/" : String) ≠ "/." := by
  decide

/-- C20, amended: in every reachable state, for every child directory `d` of the working
directory bound under a name `n` other than "", "." and "..":
`PrintWorkingDir` returns "/" followed by the names on the parent chain of the working
directory, from the root down, joined with "/" (exactly "/" when the working directory is
the root); `ChangeDir(n)` returns no error, and afterwards `PrintWorkingDir` returns "/"
followed by those names and `n` joined with "/", that is the previous path extended by `n`,
with no trailing "/". -/
theorem C20_pwd_after_changeDir (s : VirtualFS) (hr : Reachable s) (n : String) (d : Nat)
    (hchild : mapLookup (s.node s.Cwd).Children n = some d)
    (hdir : (s.node d).IsDir = true) (hn : n ≠ "" ∧ n ≠ "." ∧ n ≠ "..") :
    ∃ names prev, Chain s s.Cwd names ∧ PrintWorkingDir s = some prev ∧
      prev = "/" ++ Join names ∧ (s.Cwd = s.Root → prev = "/") ∧
      ChangeDir s n = ({ s with Cwd := d }, none) ∧
      PrintWorkingDir { s with Cwd := d } = some ("/" ++ Join (names ++ [n])) ∧
      "/" ++ Join (names ++ [n]) = (if prev = "/" then prev ++ n else prev ++ "/" ++ n) ∧
      trimTrailingSlash ("/" ++ Join (names ++ [n])) = "/" ++ Join (names ++ [n]) := by
  have inv := hr.reach_inv
  obtain ⟨names, hc, hgood⟩ := inv.cwd_good
  have hp := PrintWorkingDir_of_chain inv.wf hc
  obtain ⟨hdlt, hdname, hdpar, hdroot⟩ := inv.wf.wf_lookup hchild
  have hname : ProperName n :=
    ⟨hn.1, hn.2.1, hn.2.2, by rw [← hdname]; exact hr.reach_names_no_slash d⟩
  have hcd : Chain { s with Cwd := d } d (names ++ [n]) := by
    have := Chain.step hdroot hdpar hc
    rw [hdname] at this
    exact this.chain_transfer (Extends.ext_setCwd s d)
  refine ⟨names, _, hc, hp, rfl, ?_, ChangeDir_child hname hchild hdir,
    PrintWorkingDir_of_chain (inv.wf.wf_setCwd d hdlt) hcd, ?_,
    trimTrailingSlash_pwd names n hname⟩
  · intro hroot
    rw [hroot] at hc
    rw [hc.chain_of_root]
    rfl
  · rw [Join_concat]
    cases names with
    | nil => simp [Join]
    | cons a rest =>
      have hne : Join (a :: rest) ≠ "" := Join_ne_empty a rest (hgood a (by simp)).1
      have : "/" ++ Join (a :: rest) ≠ "/" := by
        intro h
        apply hne
        rw [String_eq_iff] at h ⊢
        simpa [String.data_append, data_slash] using h
      simp only [List.cons_ne_nil, if_false, this, String.append_assoc]

/-- C20, amended, in the state `withFoo` for the child directory `foo` (node 1) of the
root. -/
theorem C20_pwd_after_changeDir_witness :
    Reachable withFoo ∧ mapLookup (withFoo.node withFoo.Cwd).Children "foo" = some 1 ∧
      (withFoo.node 1).IsDir = true ∧
      (("foo" : String) ≠ "" ∧ ("foo" : String) ≠ "." ∧ ("foo" : String) ≠ "..") ∧
      PrintWorkingDir withFoo = some "/" ∧ PrintWorkingDir inFoo = some "/foo" ∧
      ∃ names prev, Chain withFoo withFoo.Cwd names ∧ PrintWorkingDir withFoo = some prev ∧
        prev = "/" ++ Join names ∧ (withFoo.Cwd = withFoo.Root → prev = "/") ∧
        ChangeDir withFoo "foo" = ({ withFoo with Cwd := 1 }, none) ∧
        PrintWorkingDir { withFoo with Cwd := 1 } = some ("/" ++ Join (names ++ ["foo"])) ∧
        "/" ++ Join (names ++ ["foo"]) =
          (if prev = "/" then prev ++ "foo" else prev ++ "/" ++ "foo") ∧
        trimTrailingSlash ("/" ++ Join (names ++ ["foo"])) = "/" ++ Join (names ++ ["foo"]) :=
  ⟨withFoo_reachable, by decide, by decide, by decide, by decide, by decide,
    C20_pwd_after_changeDir withFoo withFoo_reachable "foo" 1 (by decide) (by decide)
      (by decide)⟩

/-! ## C21: what `ListDir` returns -/

/-- C21: in every well-formed state (in particular every reachable one), for every path `p`
that resolves to a directory `d`, `ListDir(p)` returns no error and a list of nodes in which
a node occurs if and only if it is bound to some name in the children map of `d`; no node
occurs twice, every child occurs exactly once, and the list is as long as the children map
has entries.  Nothing is said about the order.  When `p` is the empty path, `d` is the
working directory.  `ListDir` only reads the filesystem: it has no output state. -/
theorem C21_listDir_children (s : VirtualFS) (wf : WellFormed s) (p : String) (d : Nat)
    (hres : resolvePath s p = .ok d) (hdir : (s.node d).IsDir = true) :
    ∃ items, ListDir s p = .ok items ∧
      (∀ c, c ∈ items ↔ ∃ k, mapLookup (s.node d).Children k = some c) ∧
      items.Nodup ∧
      (∀ c k, mapLookup (s.node d).Children k = some c → items.count c = 1) ∧
      items.length = (s.node d).Children.length ∧
      (p = "" → d = s.Cwd) := by
  have hd := resolvePath_lt wf hres
  have hnd := wf.wf_children_nodup hd
  refine ⟨_, ListDir_ok hres hdir, mem_children_iff wf hd, hnd, ?_, by simp, ?_⟩
  · intro c k hk
    exact List.count_eq_one_of_mem hnd ((mem_children_iff wf hd c).mpr ⟨k, hk⟩)
  · rintro rfl
    rw [resolvePath_empty] at hres
    cases hres
    rfl

/-- C21 in the state `withFiles`, for the empty path: the working directory is the root, and
its three children are listed. -/
theorem C21_listDir_children_witness :
    WellFormed withFiles ∧ resolvePath withFiles "" = .ok 0 ∧
      (withFiles.node 0).IsDir = true ∧ ListDir withFiles "" = .ok [1, 2, 3] ∧
      ∃ items, ListDir withFiles "" = .ok items ∧
        (∀ c, c ∈ items ↔ ∃ k, mapLookup (withFiles.node 0).Children k = some c) ∧
        items.Nodup ∧
        (∀ c k, mapLookup (withFiles.node 0).Children k = some c → items.count c = 1) ∧
        items.length = (withFiles.node 0).Children.length ∧
        (("" : String) = "" → 0 = withFiles.Cwd) :=
  ⟨withFiles_reachable.reach_inv.wf, by decide, by decide, by decide,
    C21_listDir_children withFiles withFiles_reachable.reach_inv.wf "" 0 (by decide)
      (by decide)⟩

/-! ## C22: `ListDir` on a file, `ReadFile` on a directory and on a file -/

/-- C22: in every state, for every path `p` that resolves to a node `n`: if `n` is a file,
`ListDir(p)` fails with "not a directory: p" and `ReadFile(p)` returns the content of `n`;
if `n` is a directory, `ReadFile(p)` fails with "cannot read directory: p".  `ListDir` and
`ReadFile` only read the filesystem: they have no output state. -/
theorem C22_read_side_errors (s : VirtualFS) (p : String) (n : Nat)
    (hres : resolvePath s p = .ok n) :
    ((s.node n).IsDir = false →
      ListDir s p = .error (.notADirectory p) ∧ ReadFile s p = .ok (s.node n).Content) ∧
    ((s.node n).IsDir = true → ReadFile s p = .error (.cannotReadDirectory p)) := by
  constructor
  · intro h
    simp [ListDir, ReadFile, hres, h]
  · intro h
    simp [ReadFile, hres, h]

/-- C22 in the state `withFiles`, for the file `/file1.txt` (node 1) and, applied a second
time, for the directory `/folder1` (node 3). -/
theorem C22_read_side_errors_witness :
    resolvePath withFiles "file1.txt" = .ok 1 ∧ (withFiles.node 1).IsDir = false ∧
      resolvePath withFiles "/folder1" = .ok 3 ∧ (withFiles.node 3).IsDir = true ∧
      (ListDir withFiles "file1.txt" = .error (.notADirectory "file1.txt") ∧
        ReadFile withFiles "file1.txt" = .ok "") ∧
      ReadFile withFiles "/folder1" = .error (.cannotReadDirectory "/folder1") :=
  ⟨by decide, by decide, by decide, by decide,
    (C22_read_side_errors withFiles "file1.txt" 1 (by decide)).1 (by decide),
    (C22_read_side_errors withFiles "/folder1" 3 (by decide)).2 (by decide)⟩

/-! ## C23: `ChangeDir` -/

/-- C23: in every state and for every path `p`, `ChangeDir(p)` returns no error exactly when
`p` resolves to a directory, and then the working directory is that node; when `p` does not
resolve it returns the error of the resolution, and when `p` resolves to a file it returns
"not a directory: p", in both cases with the state exactly as before; and in every case the
heap, the root, the event log and `IsRestoring` are as before. -/
theorem C23_changeDir (s : VirtualFS) (p : String) :
    ((ChangeDir s p).2 = none ↔ ∃ d, resolvePath s p = .ok d ∧ (s.node d).IsDir = true) ∧
    (∀ d, resolvePath s p = .ok d → (s.node d).IsDir = true →
      ChangeDir s p = ({ s with Cwd := d }, none)) ∧
    (∀ e, resolvePath s p = .error e → ChangeDir s p = (s, some e)) ∧
    (∀ n, resolvePath s p = .ok n → (s.node n).IsDir = false →
      ChangeDir s p = (s, some (.notADirectory p))) ∧
    (ChangeDir s p).1.heap = s.heap ∧ (ChangeDir s p).1.Root = s.Root ∧
    (ChangeDir s p).1.EventLog = s.EventLog ∧
    (ChangeDir s p).1.IsRestoring = s.IsRestoring := by
  unfold ChangeDir
  cases hres : resolvePath s p with
  | error e => simp
  | ok n =>
    cases hd : (s.node n).IsDir <;> simp [hd]

/-- C23 in the state `withFiles`: `ChangeDir("folder1")` moves to node 3,
`ChangeDir("file1.txt")` and `ChangeDir("nope")` fail and return `withFiles`. -/
theorem C23_changeDir_witness :
    resolvePath withFiles "folder1" = .ok 3 ∧ (withFiles.node 3).IsDir = true ∧
      ChangeDir withFiles "folder1" = ({ withFiles with Cwd := 3 }, none) ∧
      ChangeDir withFiles "file1.txt" = (withFiles, some (.notADirectory "file1.txt")) ∧
      ChangeDir withFiles "nope" = (withFiles, some (.pathNotFound "nope")) :=
  ⟨by decide, by decide,
    (C23_changeDir withFiles "folder1").2.1 3 (by decide) (by decide),
    (C23_changeDir withFiles "file1.txt").2.2.2.1 1 (by decide) (by decide),
    (C23_changeDir withFiles "nope").2.2.1 (.pathNotFound "nope") (by decide)⟩

/-! ## C24: paths made of empty, "." and ".." segments -/

/-- C24: in every state, `resolvePath` returns a node for every path whose segments (the
pieces between the "/") are all empty, "." or ".."; the empty path resolves to the working
directory and "/" to the root.  In every well-formed state (in particular every reachable
one) a ".." segment at the root stays at the root, "/.." and every path "/../.. ... /.."
resolve to the root, from every allocated node the parent chain leads to the root and
".." segments, at least as many as that chain is long, end at the root; so does the relative
path "../.. ... /.." from the working directory. -/
theorem C24_dot_segments_resolve (s : VirtualFS) :
    (∀ p, (∀ seg ∈ Split p, seg = "" ∨ seg = "." ∨ seg = "..") →
      ∃ n, resolvePath s p = .ok n) ∧
    resolvePath s "" = .ok s.Cwd ∧ resolvePath s "/" = .ok s.Root ∧
    (WellFormed s →
      resolveStep s s.Root ".." = .ok s.Root ∧
      resolvePath s "/.." = .ok s.Root ∧
      (∀ k, resolvePath s ("/" ++ Join (List.replicate k "..")) = .ok s.Root) ∧
      (∀ d, d < s.heap.length → ∃ names, Chain s d names ∧ ∀ k, names.length ≤ k →
        resolveLoop s d (List.replicate k "..") = .ok s.Root) ∧
      (∃ names, Chain s s.Cwd names ∧ ∀ k, 0 < k → names.length ≤ k →
        resolvePath s (Join (List.replicate k "..")) = .ok s.Root)) := by
  refine ⟨resolvePath_dots s, resolvePath_empty s, resolvePath_slash s, ?_⟩
  intro wf
  have hroot := wf.root_parent
  have habs : ∀ k, resolvePath s ("/" ++ Join (List.replicate k "..")) = .ok s.Root := by
    intro k
    cases k with
    | zero => exact resolvePath_slash s
    | succ k =>
      rw [resolvePath_abs s (startsWithSlash_slash_append _), trimLeadingSlash_slash_append,
        if_neg (Join_up_ne_empty k), Split_Join_up]
      exact resolveLoop_up hroot Chain.root _ (Nat.zero_le _)
  refine ⟨?_, habs 1, habs, ?_, ?_⟩
  · rw [resolveStep_up, hroot]
  · intro d hd
    obtain ⟨names, hc⟩ := wf.wf_chain_exists d hd
    exact ⟨names, hc, resolveLoop_up hroot hc⟩
  · obtain ⟨names, hc⟩ := wf.wf_chain_exists s.Cwd wf.cwd_lt
    refine ⟨names, hc, ?_⟩
    intro k hk hlen
    obtain ⟨j, rfl⟩ : ∃ j, k = j + 1 := ⟨k - 1, by omega⟩
    rw [resolvePath_rel s (Join_up_ne_empty j) (startsWithSlash_Join_up j), Split_Join_up]
    exact resolveLoop_up hroot hc _ hlen

/-- C24 in the state `inFooBar`, whose working directory is `/foo`: "./..//." resolves,
"/.." and "/../.." resolve to the root, and so does "../../.." from the working
directory. -/
theorem C24_dot_segments_resolve_witness :
    WellFormed inFooBar ∧ PrintWorkingDir inFooBar = some "/foo" ∧
      Split "./..//." = [".", "..", "", "."] ∧
      (∃ n, resolvePath inFooBar "./..//." = .ok n) ∧
      resolvePath inFooBar "/.." = .ok inFooBar.Root ∧
      resolvePath inFooBar ("/" ++ Join (List.replicate 2 "..")) = .ok inFooBar.Root ∧
      resolvePath inFooBar "../../.." = .ok inFooBar.Root :=
  ⟨inFooBar_reachable.reach_inv.wf, by decide, by decide,
    (C24_dot_segments_resolve inFooBar).1 "./..//." (by decide),
    ((C24_dot_segments_resolve inFooBar).2.2.2 inFooBar_reachable.reach_inv.wf).2.1,
    ((C24_dot_segments_resolve inFooBar).2.2.2 inFooBar_reachable.reach_inv.wf).2.2.1 2,
    by decide⟩

/-! ## C25: `AbsolutePath` -/

/-- C25, counterexample: in a fresh filesystem the working directory is the root and
`PrintWorkingDir` returns "/"; for the relative path "foo", `AbsolutePath` returns "/foo",
which is not the concatenation "//foo" of that value, the separator "/" and "foo". -/
theorem C25_counterexample :
    PrintWorkingDir NewVirtualFS = some "/" ∧ startsWithSlash "foo" = false ∧
      AbsolutePath NewVirtualFS "foo" = some (.ok "/foo") ∧
      ("/" : String) ++ "/" ++ "foo" = "//foo" ∧ ("/foo" : String) ≠ "/" ++ "/" ++ "foo" := by
  decide

/-- C25, amended: in every reachable state and for every path `p`, `AbsolutePath` returns a
path and no error, and `PrintWorkingDir` returns a value, which is "/" exactly when the
working directory is the root; if `p` starts with "/" the result is `p` unchanged; otherwise
the result is "/" followed by `p` when the working directory is the root, and the
concatenation of the value of `PrintWorkingDir`, the separator "/" and `p` when it is
not. -/
theorem C25_absolutePath (s : VirtualFS) (hr : Reachable s) (p : String) :
    ∃ abs cwd, AbsolutePath s p = some (.ok abs) ∧ PrintWorkingDir s = some cwd ∧
      (cwd = "/" ↔ s.Cwd = s.Root) ∧
      (startsWithSlash p = true → abs = p) ∧
      (startsWithSlash p = false →
        abs = if s.Cwd = s.Root then "/" ++ p else cwd ++ "/" ++ p) := by
  have inv := hr.reach_inv
  obtain ⟨names, _, hpwd⟩ := PrintWorkingDir_some inv.wf
  have hiff := PrintWorkingDir_eq_slash_iff inv hpwd
  cases hs : startsWithSlash p with
  | true =>
    exact ⟨p, _, AbsolutePath_abs s hs, hpwd, hiff, fun _ => rfl, fun h => (by cases h)⟩
  | false =>
    by_cases hroot : s.Cwd = s.Root
    · refine ⟨"/" ++ p, _, ?_, hpwd, hiff, fun h => (by cases h),
        fun _ => (by rw [if_pos hroot])⟩
      rw [AbsolutePath_rel s hs, hpwd]
      simp only
      rw [if_pos (hiff.mpr hroot)]
    · refine ⟨("/" ++ Join names) ++ "/" ++ p, _, ?_, hpwd, hiff, fun h => (by cases h),
        fun _ => (by rw [if_neg hroot])⟩
      rw [AbsolutePath_rel s hs, hpwd]
      simp only
      rw [if_neg (fun h => hroot (hiff.mp h))]

/-- C25, amended, in the state `inFoo` for the relative path "bar": the working directory is
`/foo` and the result is "/foo/bar". -/
theorem C25_absolutePath_witness :
    Reachable inFoo ∧ PrintWorkingDir inFoo = some "/foo" ∧
      AbsolutePath inFoo "bar" = some (.ok "/foo/bar") ∧
      ∃ abs cwd, AbsolutePath inFoo "bar" = some (.ok abs) ∧
        PrintWorkingDir inFoo = some cwd ∧ (cwd = "/" ↔ inFoo.Cwd = inFoo.Root) ∧
        (startsWithSlash "bar" = true → abs = "bar") ∧
        (startsWithSlash "bar" = false →
          abs = if inFoo.Cwd = inFoo.Root then "/" ++ "bar" else cwd ++ "/" ++ "bar") :=
  ⟨inFoo_reachable, by decide, by decide, C25_absolutePath inFoo inFoo_reachable "bar"⟩

/-! ## C26: the completer `FSCompleter.Do` -/

/-- C26: for every completer `c`, input line and cursor position `pos`, with `tokens` the
white-space separated fields of the line.  (1) When there is no token, which is exactly when
every character of the line is white space, `Do` returns no suggestion and position 0.
(2) When there is exactly one token `t`, `Do` returns position `pos` and suggestions such
that `t` followed by each suggestion, taken in turn, gives exactly the command names that
start with `t`: `t` followed by a suggestion is always a command, and every command that
starts with `t` is obtained.  (3) When there are two or more tokens and the working
directory is a directory (as it is in every reachable state), `Do` returns position `pos`
and suggestions such that the last token followed by each suggestion, taken in turn, gives
exactly the names of the children of the working directory that start with the last
token. -/
theorem C26_completer (c : FSCompleter) (line : List Char) (pos : Int) :
    ((Fields (String.mk line) = [] ↔ ∀ ch ∈ line, isSpace ch = true) ∧
      (Fields (String.mk line) = [] → c.Do line pos = ([], 0))) ∧
    (∀ t, Fields (String.mk line) = [t] →
      ∃ sugs, c.Do line pos = (sugs, pos) ∧
        sugs.map (fun sug => t ++ String.mk sug) =
          commands.filter (fun cmd => HasPrefix cmd t) ∧
        (∀ sug ∈ sugs, t ++ String.mk sug ∈ commands) ∧
        (∀ cmd ∈ commands, HasPrefix cmd t = true →
          ∃ sug ∈ sugs, t ++ String.mk sug = cmd)) ∧
    (∀ first middle last, Fields (String.mk line) = first :: (middle ++ [last]) →
      (c.vfs.node c.vfs.Cwd).IsDir = true →
      ∃ sugs, c.Do line pos = (sugs, pos) ∧
        sugs.map (fun sug => last ++ String.mk sug) =
          ((c.vfs.node c.vfs.Cwd).Children.map (fun kc => (c.vfs.node kc.2).Name)).filter
            (fun name => HasPrefix name last) ∧
        (∀ kc ∈ (c.vfs.node c.vfs.Cwd).Children,
          HasPrefix (c.vfs.node kc.2).Name last = true →
          ∃ sug ∈ sugs, last ++ String.mk sug = (c.vfs.node kc.2).Name)) := by
  refine ⟨⟨Fields_eq_nil_iff _, ?_⟩, ?_, ?_⟩
  · intro h
    simp [FSCompleter.Do, h]
  · intro t h
    have hmap := suggestLoop_map t commands
    refine ⟨suggestLoop t commands [], by simp [FSCompleter.Do, h], hmap, ?_, ?_⟩
    · intro sug hsug
      have : t ++ String.mk sug ∈ commands.filter (fun cmd => HasPrefix cmd t) := by
        rw [← hmap]
        exact List.mem_map.mpr ⟨sug, hsug, rfl⟩
      exact (List.mem_filter.mp this).1
    · intro cmd hcmd hpre
      have : cmd ∈ (suggestLoop t commands []).map (fun sug => t ++ String.mk sug) := by
        rw [hmap]
        exact List.mem_filter.mpr ⟨hcmd, hpre⟩
      obtain ⟨sug, hsug, heq⟩ := List.mem_map.mp this
      exact ⟨sug, hsug, heq⟩
  · intro first middle last h hdir
    have hlist : ListDir c.vfs "." = .ok ((c.vfs.node c.vfs.Cwd).Children.map Prod.snd) :=
      ListDir_ok (resolvePath_dot c.vfs) hdir
    have hlast : (first :: (middle ++ [last])).getLastD "" = last := by
      rw [List.getLastD_eq_getLast?, ← List.cons_append, List.getLast?_append]
      simp
    have hlen1 : (first :: (middle ++ [last])).length ≠ 1 := by simp
    have hmap := suggestLoop_map last
      ((c.vfs.node c.vfs.Cwd).Children.map (fun kc => (c.vfs.node kc.2).Name))
    refine ⟨_, ?_, hmap, ?_⟩
    · simp only [FSCompleter.Do, h, hlist, hlast, List.map_map]
      rw [if_neg (by simp), if_neg hlen1]
      rfl
    · intro kc hkc hpre
      have : (c.vfs.node kc.2).Name ∈ (suggestLoop last
          ((c.vfs.node c.vfs.Cwd).Children.map (fun kc => (c.vfs.node kc.2).Name)) []).map
          (fun sug => last ++ String.mk sug) := by
        rw [hmap]
        exact List.mem_filter.mpr ⟨List.mem_map.mpr ⟨kc, hkc, rfl⟩, hpre⟩
      obtain ⟨sug, hsug, heq⟩ := List.mem_map.mp this
      exact ⟨sug, hsug, heq⟩

/-- C26 in the state `withFiles` of the test `TestFileAutocomplete`: "  " has no token; "c"
is completed to the commands "cd" and "cat"; "cat f" is completed to the children
"file1.txt" and "folder1" of the working directory. -/
theorem C26_completer_witness :
    Fields "  " = [] ∧ FSCompleter.Do ⟨withFiles⟩ "  ".data 2 = ([], 0) ∧
      Fields "c" = ["c"] ∧ FSCompleter.Do ⟨withFiles⟩ "c".data 1 = (["d".data, "at".data], 1) ∧
      Fields "cat f" = ["cat", "f"] ∧ (withFiles.node withFiles.Cwd).IsDir = true ∧
      FSCompleter.Do ⟨withFiles⟩ "cat f".data 5 = (["ile1.txt".data, "older1".data], 5) ∧
      ∃ sugs, FSCompleter.Do ⟨withFiles⟩ "cat f".data 5 = (sugs, 5) ∧
        sugs.map (fun sug => "f" ++ String.mk sug) =
          ((withFiles.node withFiles.Cwd).Children.map
            (fun kc => (withFiles.node kc.2).Name)).filter (fun name => HasPrefix name "f") ∧
        (∀ kc ∈ (withFiles.node withFiles.Cwd).Children,
          HasPrefix (withFiles.node kc.2).Name "f" = true →
          ∃ sug ∈ sugs, "f" ++ String.mk sug = (withFiles.node kc.2).Name) :=
  ⟨by decide, (C26_completer ⟨withFiles⟩ "  ".data 2).1.2 (by decide), by decide, by decide,
    by decide, by decide, by decide,
    (C26_completer ⟨withFiles⟩ "cat f".data 5).2.2 "cat" [] "f" (by decide) (by decide)⟩

end Fraktal
